import Mathlib

/-!
Verification development for the zola_db storage engine.

This file gives a shallow embedding of the engine's data model, of the
batched as-of join (`crates/zola_db/src/asof.rs`), of the partition view
(`crates/zola_db/src/partition.rs`), of the ingest/write path
(`write_table` in the same file) and of the on-disk column-file header
checks, together with theorems settling the specification claims.

Modelling conventions:
* Rust `i64` values are Lean `Int`s; theorems that need the two's-complement
  range carry it as a hypothesis (the Rust type system enforces it at the
  boundary).
* On-disk cells are raw 8-byte words, modelled as `Nat` bit patterns
  (`< 2^64`).  Both the writer and the reader move whole 8-byte words
  (`to_ne_bytes` / `from_ne_bytes` on a 64-bit host), so the word-level
  model is bit-exact; in particular an `f64` cell is represented by its
  bit pattern, which makes "bit-exact including NaN payloads" directly
  expressible.
* Byte-level structure (headers, sizes, alignment) is modelled separately
  for the column-file open checks, where it is what the claim is about.
* `BTreeMap<String, Partition>` is modelled as an association list with
  the map operations defined to be order-independent (lookup of the first
  matching key; strictly-previous/next key by an explicit maximum/minimum
  over the byte-lexicographic string order that Rust's `Ord for String`
  uses).
-/

namespace Zola

/-! ## Data model (`schema.rs`, `format.rs`, `error.rs`) -/

inductive ColumnType where
  | i64 : ColumnType
  | f64 : ColumnType
  deriving DecidableEq, Repr

structure ColumnDef where
  name : String
  colType : ColumnType
  deriving DecidableEq, Repr

structure Schema where
  value_columns : List ColumnDef
  deriving DecidableEq, Repr

inductive Direction where
  | backward : Direction
  | forward : Direction
  deriving DecidableEq, Repr

/-- `NULL_I64`: the missing-`I64` sentinel, `i64::MIN`. -/
def NULL_I64 : Int := -(2 ^ 63)

/-- Bit pattern of `f64::NAN`, the missing-`F64` sentinel (cells are
modelled as bit patterns). -/
def NULL_F64_BITS : Nat := 0x7FF8000000000000

/-- A result column (`ColumnVec`): `I64` cells as integers, `F64` cells as
bit patterns. -/
inductive ColumnVec where
  | i64 : List Int → ColumnVec
  | f64 : List Nat → ColumnVec
  deriving DecidableEq, Repr

/-- An input value column (`ColumnSlice`). -/
inductive ColumnSlice where
  | i64 : List Int → ColumnSlice
  | f64 : List Nat → ColumnSlice
  deriving DecidableEq, Repr

/-- Error taxonomy of `error.rs` (paths and io details reduced to strings). -/
inductive ZolaError where
  | ioErr : String → ZolaError
  | invalidFile : String → String → ZolaError
  | schemaMismatch : String → ZolaError
  | tableNotFound : String → ZolaError
  deriving DecidableEq, Repr

instance {ε α : Type} [DecidableEq ε] [DecidableEq α] : DecidableEq (Except ε α) :=
  fun x y =>
    match x, y with
    | .ok a, .ok b =>
      if h : a = b then .isTrue (by rw [h]) else .isFalse (by intro hc; cases hc; exact h rfl)
    | .error a, .error b =>
      if h : a = b then .isTrue (by rw [h]) else .isFalse (by intro hc; cases hc; exact h rfl)
    | .ok _, .error _ => .isFalse (by intro hc; cases hc)
    | .error _, .ok _ => .isFalse (by intro hc; cases hc)

/-! ## 8-byte words

A stored cell is one 8-byte word.  `i64 -> word` is `to_ne_bytes`,
`word -> i64` is `from_ne_bytes`; on bit patterns these are the
two's-complement encode/decode. -/

/-- Decode an 8-byte word as `i64` (`i64::from_ne_bytes`). -/
def wordToI64 (w : Nat) : Int :=
  if w < 2 ^ 63 then (w : Int) else (w : Int) - 2 ^ 64

/-- Encode an `i64` as an 8-byte word (`i64::to_ne_bytes`). -/
def i64ToWord (x : Int) : Nat :=
  (x % (2 ^ 64 : Int)).toNat

theorem wordToI64_i64ToWord (x : Int) (hlo : -(2 ^ 63) ≤ x) (hhi : x < 2 ^ 63) :
    wordToI64 (i64ToWord x) = x := by
  unfold wordToI64 i64ToWord
  rcases le_or_lt 0 x with h0 | h0
  · have hmod : x % (2 ^ 64 : Int) = x := Int.emod_eq_of_lt h0 (by omega)
    rw [hmod]
    have hx : (x.toNat : Int) = x := Int.toNat_of_nonneg h0
    have ht : x.toNat < 2 ^ 63 := by omega
    simp only [show (2:Nat)^63 = 9223372036854775808 from rfl] at ht
    simp [ht, hx]
  · have hmod : x % (2 ^ 64 : Int) = x + 2 ^ 64 := by omega
    rw [hmod]
    have hx : ((x + 2 ^ 64).toNat : Int) = x + 2 ^ 64 := Int.toNat_of_nonneg (by omega)
    have : ¬ (x + 2 ^ 64).toNat < 2 ^ 63 := by omega
    simp only [this, if_false]
    omega

/-! ## Partition view (`partition.rs`) -/

/-- A `.parted` record.  (`end` is a Lean keyword; the field is `stop`.) -/
structure PartedEntry where
  symbol_id : Int
  start : Nat
  stop : Nat
  deriving DecidableEq, Repr

/-- An in-memory sidecar entry: the timestamp followed by one word per
value column (the loader stores `timestamp + value bytes`, skipping the
symbol id; every loaded entry has at least the timestamp word). -/
structure SidecarEntry where
  ts : Int
  vals : List Nat
  deriving DecidableEq, Repr

/-- The in-memory partition view.  Columns are the raw words that follow
each column file's 24-byte header, keyed by file stem. -/
structure Partition where
  columns : List (String × List Nat)
  parted : List PartedEntry
  last_values : Option (List (Int × SidecarEntry))
  first_values : Option (List (Int × SidecarEntry))
  deriving DecidableEq, Repr

/-- First-match association lookup (`HashMap::get` / first binding). -/
def assocGet {β : Type} (l : List (String × β)) (k : String) : Option β :=
  (l.find? (fun kv => kv.1 = k)).map (fun kv => kv.2)

/-- Association lookup with `Int` keys (sidecar maps). -/
def assocGetI {β : Type} (l : List (Int × β)) (k : Int) : Option β :=
  (l.find? (fun kv => kv.1 = k)).map (fun kv => kv.2)

/-- `Partition::get_i64`: the named column's words decoded as `i64`s. -/
def Partition.get_i64 (p : Partition) (col : String) : Option (List Int) :=
  (assocGet p.columns col).map (fun ws => ws.map wordToI64)

/-- `Partition::get_f64`: the named column's words as `f64` bit patterns. -/
def Partition.get_f64 (p : Partition) (col : String) : Option (List Nat) :=
  assocGet p.columns col

/-! ### Binary search (`slice::binary_search_by_key` /
`slice::partition_point`)

Rust's binary search keeps `left`/`right` bounds, probes
`mid = (left + right) / 2` and returns `Ok(mid)` as soon as the probe
compares equal.  The window shrinks every round, so `hi - lo` bounds the
number of rounds; the fuel argument makes the recursion structural. -/

def binarySearchGo (keys : List Int) (key : Int) :
    Nat → Nat → Nat → Except Nat Nat
  | 0, lo, _ => .error lo
  | fuel + 1, lo, hi =>
    if lo < hi then
      let mid := (lo + hi) / 2
      let k := keys.getD mid 0
      if k < key then binarySearchGo keys key fuel (mid + 1) hi
      else if key < k then binarySearchGo keys key fuel lo mid
      else .ok mid
    else .error lo

/-- `binary_search` over a list of keys: `ok i` when `keys[i] = key` was
probed, `error ins` with the insertion point otherwise. -/
def binarySearchKeys (keys : List Int) (key : Int) : Except Nat Nat :=
  binarySearchGo keys key (keys.length + 1) 0 keys.length

/-- `Partition::symbol_range`: binary search of the parted index by
`symbol_id`, returning the half-open row range. -/
def Partition.symbol_range (p : Partition) (sym : Int) : Option (Nat × Nat) :=
  match binarySearchKeys (p.parted.map (fun e => e.symbol_id)) sym with
  | .ok i =>
    match p.parted.getD i ⟨0, 0, 0⟩ with
    | e => some (e.start, e.stop)
  | .error _ => none

def partitionPointGo (l : List Int) (pred : Int → Bool) :
    Nat → Nat → Nat → Nat
  | 0, lo, _ => lo
  | fuel + 1, lo, hi =>
    if lo < hi then
      let mid := (lo + hi) / 2
      if pred (l.getD mid 0) then partitionPointGo l pred fuel (mid + 1) hi
      else partitionPointGo l pred fuel lo mid
    else lo

/-- `slice::partition_point`. -/
def partitionPoint (l : List Int) (pred : Int → Bool) : Nat :=
  partitionPointGo l pred (l.length + 1) 0 l.length

end Zola

namespace Zola

/-! ## Calendar (`micros_to_date_int`, `date_int_to_str`, jiff range)

`micros_to_date_int` converts epoch microseconds to the UTC calendar day
via `jiff::Timestamp::from_microsecond` (which errors outside jiff's
representable span `-9999-01-01T00:00:00Z ..= 9999-12-31T23:59:59.999..Z`)
and reads off the proleptic-Gregorian civil date.  The civil conversion is
the standard era/day-of-era algorithm; all divisions below have positive
divisors and non-negative intermediate values where they act on `Nat`, and
`Int./` is Euclidean division, i.e. floor division for positive divisors. -/

def microsPerDay : Int := 86400000000

/-- Civil date to days since 1970-01-01 (proleptic Gregorian). -/
def daysFromCivil (y m d : Int) : Int :=
  let y' := if m ≤ 2 then y - 1 else y
  let era := y' / 400
  let yoe := y' - era * 400
  let mp := if m ≤ 2 then m + 9 else m - 3
  let doy := (153 * mp + 2) / 5 + d - 1
  let doe := yoe * 365 + yoe / 4 - yoe / 100 + doy
  era * 146097 + doe - 719468

/-- Year-of-era from day-of-era (days `0..146096` within a 400-year era). -/
def yoeOf (doe : Nat) : Nat :=
  (doe - doe / 1460 + doe / 36524 - doe / 146096) / 365

/-- Days before year-of-era `y` within an era. -/
def dbFn (y : Nat) : Nat := 365 * y + y / 4 - y / 100

/-- Day-of-year (`0` = March 1) to `(adjust, m, d)` packed as
`adjust * 10000 + m * 100 + d`, the within-year part of the date int. -/
def gFn (doy : Nat) : Nat :=
  let mp := (5 * doy + 2) / 153
  let d := doy - (153 * mp + 2) / 5 + 1
  let m := if mp < 10 then mp + 3 else mp - 9
  (if m ≤ 2 then 1 else 0) * 10000 + m * 100 + d

/-- Days since 1970-01-01 to civil `(y, m, d)` (proleptic Gregorian). -/
def civilFromDays (z : Int) : Int × Int × Int :=
  let dd := z + 719468
  let era := dd / 146097
  let doe := (dd - era * 146097).toNat
  let yoe := yoeOf doe
  let doy := doe - dbFn yoe
  let mp := (5 * doy + 2) / 153
  let d := doy - (153 * mp + 2) / 5 + 1
  let m := if mp < 10 then mp + 3 else mp - 9
  let y := era * 400 + (yoe : Int) + (if m ≤ 2 then 1 else 0)
  (y, (m : Int), (d : Int))

/-- First microsecond representable by `jiff::Timestamp`
(`-9999-01-01T00:00:00Z`). -/
def minMicros : Int := daysFromCivil (-9999) 1 1 * microsPerDay

/-- Last whole microsecond representable by `jiff::Timestamp`
(`9999-12-31T23:59:59.999999Z`). -/
def maxMicros : Int := daysFromCivil 10000 1 1 * microsPerDay - 1

/-- Whether `jiff::Timestamp::from_microsecond` accepts `ts`. -/
def tsValid (ts : Int) : Bool := minMicros ≤ ts && ts ≤ maxMicros

/-- `micros_to_date_int`: the UTC calendar date of `ts` packed as
`y * 10000 + m * 100 + d`, or `SchemaMismatch` outside jiff's range. -/
def micros_to_date_int (ts : Int) : Except ZolaError Int :=
  if tsValid ts then
    match civilFromDays (ts / microsPerDay) with
    | (y, m, d) => .ok (y * 10000 + m * 100 + d)
  else .error (.schemaMismatch ("invalid timestamp " ++ toString ts))

/-! ### `date_int_to_str`

The Rust code computes `y = date_int / 10000`, `m = (date_int % 10000) /
100`, `d = date_int % 100` with *truncating* `i32` division/remainder and
formats `"{y:04}.{m:02}.{d:02}"`.  Rust's `{:0w$}` zero-padding is
sign-aware: the sign occupies one column and zeros go between the sign and
the digits; numbers wider than the field are not truncated. -/

/-- Decimal digits of a `Nat`, most significant first (fuel-structured;
`n / 10 < n` for `n ≥ 10`, so fuel `n + 1` always suffices). -/
def natDigitsGo : Nat → Nat → List Char → List Char
  | 0, _, acc => acc
  | fuel + 1, n, acc =>
    let c := Char.ofNat (48 + n % 10)
    if n < 10 then c :: acc else natDigitsGo fuel (n / 10) (c :: acc)

def natDigits (n : Nat) : List Char := natDigitsGo (n + 1) n []

/-- Left-pad with `'0'` to width `w`. -/
def padZeros (w : Nat) (s : List Char) : List Char :=
  List.replicate (w - s.length) '0' ++ s

/-- Rust `format!("{x:0w$}")` for an integer `x`. -/
def fmtW (w : Nat) (x : Int) : List Char :=
  if x < 0 then '-' :: padZeros (w - 1) (natDigits x.natAbs)
  else padZeros w (natDigits x.natAbs)

/-- `date_int_to_str`: `format!("{y:04}.{m:02}.{d:02}")` with truncating
component extraction. -/
def date_int_to_str (di : Int) : String :=
  ⟨fmtW 4 (Int.tdiv di 10000) ++ '.' ::
    (fmtW 2 (Int.tdiv (Int.tmod di 10000) 100) ++ '.' :: fmtW 2 (Int.tmod di 100))⟩

/-- `micros_to_date_str`. -/
def micros_to_date_str (ts : Int) : Except ZolaError String :=
  (micros_to_date_int ts).map date_int_to_str

/-! ### Byte-lexicographic string order

`BTreeMap<String, _>` orders keys with `Ord for String`, byte-wise
lexicographic on the UTF-8 encoding.  Date strings are ASCII, so
comparing scalar values character by character is the same order. -/

def charsLt : List Char → List Char → Bool
  | _, [] => false
  | [], _ :: _ => true
  | a :: as, b :: bs =>
    if a.toNat < b.toNat then true
    else if b.toNat < a.toNat then false
    else charsLt as bs

/-- Rust's `String` order (on ASCII strings). -/
def strLt (s t : String) : Bool := charsLt s.data t.data

end Zola

namespace Zola

/-! ## The as-of join engine (`asof.rs`) -/

/-- The result vectors being filled in (`result_ts`, `result_cols`). -/
structure ResultState where
  ts : List Int
  cols : List ColumnVec
  deriving DecidableEq, Repr

/-- The `result_cols` initializer: one all-null vector per value column. -/
def initCols (schema : Schema) (n : Nat) : List ColumnVec :=
  schema.value_columns.map (fun cd =>
    match cd.colType with
    | .i64 => ColumnVec.i64 (List.replicate n NULL_I64)
    | .f64 => ColumnVec.f64 (List.replicate n NULL_F64_BITS))

/-- Initial `ResultState` of `asof_join`. -/
def initResult (schema : Schema) (n : Nat) : ResultState :=
  ⟨List.replicate n NULL_I64, initCols schema n⟩

/-- The per-column body of `fill_from_partition`: for each value column,
read the typed slice and store cell `row` into result slot `probe_idx` when
both the column and the matching result variant are present.  Walks the
schema and the result columns in lockstep (`result_cols[ci]`). -/
def fillColsFromPartition (part : Partition) (row probe_idx : Nat) :
    List ColumnDef → List ColumnVec → List ColumnVec
  | _, [] => []
  | [], cols => cols
  | cd :: defsRest, c :: colsRest =>
    let c' :=
      match cd.colType with
      | .i64 =>
        match part.get_i64 cd.name, c with
        | some data, ColumnVec.i64 v => ColumnVec.i64 (v.set probe_idx (data.getD row 0))
        | _, _ => c
      | .f64 =>
        match part.get_f64 cd.name, c with
        | some data, ColumnVec.f64 v => ColumnVec.f64 (v.set probe_idx (data.getD row 0))
        | _, _ => c
    c' :: fillColsFromPartition part row probe_idx defsRest colsRest

/-- `fill_from_partition`.  (Row indices are in bounds in every reachable
call on well-formed partitions; out-of-range reads, which panic in Rust,
are modelled by `getD`.) -/
def fill_from_partition (schema : Schema) (part : Partition) (row probe_idx : Nat)
    (st : ResultState) : ResultState :=
  let ts' :=
    match part.get_i64 "timestamp" with
    | some tcol => st.ts.set probe_idx (tcol.getD row 0)
    | none => st.ts
  ⟨ts', fillColsFromPartition part row probe_idx schema.value_columns st.cols⟩

/-- The per-column body of `fill_from_sidecar`: column `ci` reads the word
at entry offset `8 + ci * 8`, i.e. `entry.vals[ci]`, stopping at the end
of the entry. -/
def fillColsFromSidecar (vals : List Nat) (probe_idx : Nat) :
    List ColumnDef → List ColumnVec → List ColumnVec
  | _, [] => []
  | [], cols => cols
  | cd :: defsRest, c :: colsRest =>
    match vals with
    | [] => c :: colsRest
    | w :: valsRest =>
      let c' :=
        match cd.colType with
        | .i64 =>
          match c with
          | ColumnVec.i64 v => ColumnVec.i64 (v.set probe_idx (wordToI64 w))
          | _ => c
        | .f64 =>
          match c with
          | ColumnVec.f64 v => ColumnVec.f64 (v.set probe_idx w)
          | _ => c
      c' :: fillColsFromSidecar valsRest probe_idx defsRest colsRest

/-- `fill_from_sidecar`.  Every loaded sidecar entry carries at least the
timestamp word, so the `entry.len() < 8` early return of the source is
unreachable and the timestamp is always written. -/
def fill_from_sidecar (schema : Schema) (entry : SidecarEntry) (probe_idx : Nat)
    (st : ResultState) : ResultState :=
  ⟨st.ts.set probe_idx entry.ts,
    fillColsFromSidecar entry.vals probe_idx schema.value_columns st.cols⟩

/-- The table's partition map: `BTreeMap<String, Partition>` as an
association list (keys distinct in every state the engine sees). -/
abbrev PartMap : Type := List (String × Partition)

/-- The binding with the greatest key strictly below `d` (ties, which
cannot occur in a map, keep the later binding). -/
def maxBelow (d : String) : List (String × Partition) → Option (String × Partition)
  | [] => none
  | kv :: rest =>
    match maxBelow d rest with
    | none => if strLt kv.1 d then some kv else none
    | some best =>
      if strLt kv.1 d then
        if strLt best.1 kv.1 then some kv else some best
      else some best

/-- The binding with the least key strictly above `d`. -/
def minAbove (d : String) : List (String × Partition) → Option (String × Partition)
  | [] => none
  | kv :: rest =>
    match minAbove d rest with
    | none => if strLt d kv.1 then some kv else none
    | some best =>
      if strLt d kv.1 then
        if strLt kv.1 best.1 then some kv else some best
      else some best

/-- `prev_partition`: the partition with the greatest key strictly below
`date_str` in the byte-lexicographic order (`range(..k).next_back()`). -/
def prev_partition (partitions : PartMap) (date_str : String) : Option Partition :=
  (maxBelow date_str partitions).map (fun kv => kv.2)

/-- `next_partition`: the partition with the least key strictly above
`date_str` (`range((Excluded k, Unbounded)).next()`). -/
def next_partition (partitions : PartMap) (date_str : String) : Option Partition :=
  (minAbove date_str partitions).map (fun kv => kv.2)

/-- `try_prev_sidecar`. -/
def try_prev_sidecar (schema : Schema) (partitions : PartMap) (date_str : String)
    (sym : Int) (probe_idx : Nat) (st : ResultState) : ResultState :=
  match prev_partition partitions date_str with
  | some prev =>
    match prev.last_values with
    | some lv =>
      match assocGetI lv sym with
      | some entry => fill_from_sidecar schema entry probe_idx st
      | none => st
    | none => st
  | none => st

/-- `try_next_sidecar`. -/
def try_next_sidecar (schema : Schema) (partitions : PartMap) (date_str : String)
    (sym : Int) (probe_idx : Nat) (st : ResultState) : ResultState :=
  match next_partition partitions date_str with
  | some next =>
    match next.first_values with
    | some fv =>
      match assocGetI fv sym with
      | some entry => fill_from_sidecar schema entry probe_idx st
      | none => st
    | none => st
  | none => st

/-- `backward_lookup`. -/
def backward_lookup (schema : Schema) (partitions : PartMap) (date_str : String)
    (sym ts : Int) (probe_idx : Nat) (st : ResultState) : ResultState :=
  match assocGet partitions date_str with
  | none => st
  | some part =>
    match part.symbol_range sym with
    | none => try_prev_sidecar schema partitions date_str sym probe_idx st
    | some range =>
      match part.get_i64 "timestamp" with
      | none => st
      | some timestamps =>
        let sym_timestamps := (timestamps.drop range.1).take (range.2 - range.1)
        let pos := partitionPoint sym_timestamps (fun t => t ≤ ts)
        if pos = 0 then try_prev_sidecar schema partitions date_str sym probe_idx st
        else fill_from_partition schema part (range.1 + pos - 1) probe_idx st

/-- `forward_lookup`. -/
def forward_lookup (schema : Schema) (partitions : PartMap) (date_str : String)
    (sym ts : Int) (probe_idx : Nat) (st : ResultState) : ResultState :=
  match assocGet partitions date_str with
  | none => st
  | some part =>
    match part.symbol_range sym with
    | none => try_next_sidecar schema partitions date_str sym probe_idx st
    | some range =>
      match part.get_i64 "timestamp" with
      | none => st
      | some timestamps =>
        let sym_timestamps := (timestamps.drop range.1).take (range.2 - range.1)
        let pos := partitionPoint sym_timestamps (fun t => t < ts)
        if pos = sym_timestamps.length then
          try_next_sidecar schema partitions date_str sym probe_idx st
        else fill_from_partition schema part (range.1 + pos) probe_idx st

/-- One probe of the `asof_join` loop body. -/
def asofProbe (schema : Schema) (partitions : PartMap) (dir : Direction)
    (sym ts : Int) (probe_idx : Nat) (st : ResultState) :
    Except ZolaError ResultState :=
  match micros_to_date_str ts with
  | .error e => .error e
  | .ok date_str =>
    match dir with
    | .backward => .ok (backward_lookup schema partitions date_str sym ts probe_idx st)
    | .forward => .ok (forward_lookup schema partitions date_str sym ts probe_idx st)

/-- The `asof_join` probe loop over the listed probe indices. -/
def asofLoop (schema : Schema) (partitions : PartMap) (dir : Direction)
    (symbols timestamps : List Int) :
    List Nat → ResultState → Except ZolaError ResultState
  | [], st => .ok st
  | i :: rest, st =>
    match asofProbe schema partitions dir (symbols.getD i 0) (timestamps.getD i 0) i st with
    | .error e => .error e
    | .ok st' => asofLoop schema partitions dir symbols timestamps rest st'

/-- `asof_join`.  (The source asserts `symbols.len() == timestamps.len()`;
theorems carry that as a hypothesis.) -/
def asof_join (schema : Schema) (partitions : PartMap)
    (symbols timestamps : List Int) (dir : Direction) :
    Except ZolaError ResultState :=
  asofLoop schema partitions dir symbols timestamps
    (List.range symbols.length) (initResult schema symbols.length)

end Zola

namespace Zola

/-! ## Result-slot accessors and frame lemmas

Each probe writes only its own slot `probe_idx`; these lemmas make that
precise so that per-probe facts lift to the whole `asof_join` batch. -/

/-- The value of one result cell: an `I64` integer or an `F64` bit
pattern. -/
inductive CellVal where
  | iv : Int → CellVal
  | fv : Nat → CellVal
  deriving DecidableEq, Repr

/-- Cell `i` of a result column. -/
def cellAt (c : ColumnVec) (i : Nat) : CellVal :=
  match c with
  | .i64 v => .iv (v.getD i 0)
  | .f64 v => .fv (v.getD i 0)

/-- The null sentinel cell for a column type (`i64::MIN` / NaN). -/
def nullCellFor (ct : ColumnType) : CellVal :=
  match ct with
  | .i64 => .iv NULL_I64
  | .f64 => .fv NULL_F64_BITS

/-- Result timestamp of probe `i`. -/
def tsAt (st : ResultState) (i : Nat) : Int := st.ts.getD i 0

/-- Cells of probe `i` across all result columns. -/
def cellsAt (st : ResultState) (i : Nat) : List CellVal :=
  st.cols.map (fun c => cellAt c i)

theorem getD_set_ne {α : Type} (l : List α) {i j : Nat} (h : i ≠ j) (a d : α) :
    (l.set j a).getD i d = l.getD i d := by
  simp [List.getD_eq_getElem?_getD, List.getElem?_set_ne (Ne.symm h)]

theorem getD_set_self {α : Type} (l : List α) {i : Nat} (h : i < l.length) (a d : α) :
    (l.set i a).getD i d = a := by
  simp [List.getD_eq_getElem?_getD, List.getElem?_set_self, h]

theorem cellAt_map_fillColsFromPartition (part : Partition) (row probe_idx i : Nat)
    (h : i ≠ probe_idx) :
    ∀ (defs : List ColumnDef) (cols : List ColumnVec),
      (fillColsFromPartition part row probe_idx defs cols).map (fun c => cellAt c i) =
        cols.map (fun c => cellAt c i) := by
  intro defs
  induction defs with
  | nil => intro cols; cases cols <;> simp [fillColsFromPartition]
  | cons cd rest ih =>
    intro cols
    cases cols with
    | nil => simp [fillColsFromPartition]
    | cons c cs =>
      simp only [fillColsFromPartition, List.map_cons, ih]
      congr 1
      cases cd.colType
      · cases hg : part.get_i64 cd.name with
        | none => rfl
        | some data =>
          cases c with
          | i64 v => simp only [cellAt]; rw [getD_set_ne _ h]
          | f64 v => rfl
      · cases hg : part.get_f64 cd.name with
        | none => rfl
        | some data =>
          cases c with
          | i64 v => rfl
          | f64 v => simp only [cellAt]; rw [getD_set_ne _ h]

theorem cellAt_map_fillColsFromSidecar (probe_idx i : Nat) (h : i ≠ probe_idx) :
    ∀ (vals : List Nat) (defs : List ColumnDef) (cols : List ColumnVec),
      (fillColsFromSidecar vals probe_idx defs cols).map (fun c => cellAt c i) =
        cols.map (fun c => cellAt c i) := by
  intro vals defs
  induction defs generalizing vals with
  | nil => intro cols; cases cols <;> simp [fillColsFromSidecar]
  | cons cd rest ih =>
    intro cols
    cases cols with
    | nil => simp [fillColsFromSidecar]
    | cons c cs =>
      cases vals with
      | nil => simp [fillColsFromSidecar]
      | cons w ws =>
        simp only [fillColsFromSidecar, List.map_cons, ih]
        congr 1
        cases cd.colType
        · cases c with
          | i64 v => simp only [cellAt]; rw [getD_set_ne _ h]
          | f64 v => rfl
        · cases c with
          | i64 v => rfl
          | f64 v => simp only [cellAt]; rw [getD_set_ne _ h]

/-- Probe-slot frame for `fill_from_partition`. -/
theorem fill_from_partition_frame (schema : Schema) (part : Partition)
    (row probe_idx i : Nat) (h : i ≠ probe_idx) (st : ResultState) :
    tsAt (fill_from_partition schema part row probe_idx st) i = tsAt st i ∧
      cellsAt (fill_from_partition schema part row probe_idx st) i = cellsAt st i := by
  constructor
  · unfold fill_from_partition tsAt
    cases part.get_i64 "timestamp" with
    | none => rfl
    | some tcol => simp only []; rw [getD_set_ne _ h]
  · exact cellAt_map_fillColsFromPartition part row probe_idx i h _ _

/-- Probe-slot frame for `fill_from_sidecar`. -/
theorem fill_from_sidecar_frame (schema : Schema) (entry : SidecarEntry)
    (probe_idx i : Nat) (h : i ≠ probe_idx) (st : ResultState) :
    tsAt (fill_from_sidecar schema entry probe_idx st) i = tsAt st i ∧
      cellsAt (fill_from_sidecar schema entry probe_idx st) i = cellsAt st i := by
  refine ⟨?_, cellAt_map_fillColsFromSidecar probe_idx i h _ _ _⟩
  unfold fill_from_sidecar tsAt
  simp only []
  rw [getD_set_ne _ h]

theorem try_prev_sidecar_frame (schema : Schema) (partitions : PartMap)
    (date_str : String) (sym : Int) (probe_idx i : Nat) (h : i ≠ probe_idx)
    (st : ResultState) :
    tsAt (try_prev_sidecar schema partitions date_str sym probe_idx st) i = tsAt st i ∧
      cellsAt (try_prev_sidecar schema partitions date_str sym probe_idx st) i =
        cellsAt st i := by
  rcases hpp : prev_partition partitions date_str with _ | prev
  · simp [try_prev_sidecar, hpp]
  · rcases hlv : prev.last_values with _ | lv
    · simp [try_prev_sidecar, hpp, hlv]
    · rcases hag : assocGetI lv sym with _ | entry
      · simp [try_prev_sidecar, hpp, hlv, hag]
      · simp only [try_prev_sidecar, hpp, hlv, hag]
        exact fill_from_sidecar_frame schema entry probe_idx i h st

theorem try_next_sidecar_frame (schema : Schema) (partitions : PartMap)
    (date_str : String) (sym : Int) (probe_idx i : Nat) (h : i ≠ probe_idx)
    (st : ResultState) :
    tsAt (try_next_sidecar schema partitions date_str sym probe_idx st) i = tsAt st i ∧
      cellsAt (try_next_sidecar schema partitions date_str sym probe_idx st) i =
        cellsAt st i := by
  rcases hpp : next_partition partitions date_str with _ | nxt
  · simp [try_next_sidecar, hpp]
  · rcases hfv : nxt.first_values with _ | fv
    · simp [try_next_sidecar, hpp, hfv]
    · rcases hag : assocGetI fv sym with _ | entry
      · simp [try_next_sidecar, hpp, hfv, hag]
      · simp only [try_next_sidecar, hpp, hfv, hag]
        exact fill_from_sidecar_frame schema entry probe_idx i h st

theorem backward_lookup_frame (schema : Schema) (partitions : PartMap)
    (date_str : String) (sym ts : Int) (probe_idx i : Nat) (h : i ≠ probe_idx)
    (st : ResultState) :
    tsAt (backward_lookup schema partitions date_str sym ts probe_idx st) i = tsAt st i ∧
      cellsAt (backward_lookup schema partitions date_str sym ts probe_idx st) i =
        cellsAt st i := by
  rcases hgp : assocGet partitions date_str with _ | part
  · simp [backward_lookup, hgp]
  · rcases hsr : part.symbol_range sym with _ | range
    · simp only [backward_lookup, hgp, hsr]
      exact try_prev_sidecar_frame schema partitions date_str sym probe_idx i h st
    · rcases hgt : part.get_i64 "timestamp" with _ | timestamps
      · simp [backward_lookup, hgp, hsr, hgt]
      · by_cases hp :
            partitionPoint ((timestamps.drop range.1).take (range.2 - range.1))
              (fun t => t ≤ ts) = 0
        · simp only [backward_lookup, hgp, hsr, hgt, hp, if_true]
          exact try_prev_sidecar_frame schema partitions date_str sym probe_idx i h st
        · simp only [backward_lookup, hgp, hsr, hgt, hp, if_false]
          exact fill_from_partition_frame schema part _ probe_idx i h st

theorem forward_lookup_frame (schema : Schema) (partitions : PartMap)
    (date_str : String) (sym ts : Int) (probe_idx i : Nat) (h : i ≠ probe_idx)
    (st : ResultState) :
    tsAt (forward_lookup schema partitions date_str sym ts probe_idx st) i = tsAt st i ∧
      cellsAt (forward_lookup schema partitions date_str sym ts probe_idx st) i =
        cellsAt st i := by
  rcases hgp : assocGet partitions date_str with _ | part
  · simp [forward_lookup, hgp]
  · rcases hsr : part.symbol_range sym with _ | range
    · simp only [forward_lookup, hgp, hsr]
      exact try_next_sidecar_frame schema partitions date_str sym probe_idx i h st
    · rcases hgt : part.get_i64 "timestamp" with _ | timestamps
      · simp [forward_lookup, hgp, hsr, hgt]
      · by_cases hp :
            partitionPoint ((timestamps.drop range.1).take (range.2 - range.1))
              (fun t => t < ts) =
              ((timestamps.drop range.1).take (range.2 - range.1)).length
        · simp only [forward_lookup, hgp, hsr, hgt, hp, if_true]
          exact try_next_sidecar_frame schema partitions date_str sym probe_idx i h st
        · simp only [forward_lookup, hgp, hsr, hgt, hp, if_false]
          exact fill_from_partition_frame schema part _ probe_idx i h st

end Zola

namespace Zola

/-! ## Loop-level lemmas -/

/-- The packed date int of a valid timestamp. -/
def dateIntOf (ts : Int) : Int :=
  match civilFromDays (ts / microsPerDay) with
  | (y, m, d) => y * 10000 + m * 100 + d

/-- The partition key of a valid timestamp. -/
def dateStrOf (ts : Int) : String := date_int_to_str (dateIntOf ts)

theorem micros_to_date_int_ok {ts : Int} (h : tsValid ts = true) :
    micros_to_date_int ts = .ok (dateIntOf ts) := by
  rcases hc : civilFromDays (ts / microsPerDay) with ⟨y, md⟩
  rcases md with ⟨m, d⟩
  simp [micros_to_date_int, dateIntOf, h, hc]

theorem micros_to_date_int_err {ts : Int} (h : tsValid ts = false) :
    micros_to_date_int ts =
      .error (.schemaMismatch ("invalid timestamp " ++ toString ts)) := by
  simp [micros_to_date_int, h]

theorem micros_to_date_str_ok {ts : Int} (h : tsValid ts = true) :
    micros_to_date_str ts = .ok (dateStrOf ts) := by
  simp [micros_to_date_str, micros_to_date_int_ok h, dateStrOf, Except.map]

/-- Direction dispatch of the probe body. -/
def dirLookup (dir : Direction) (schema : Schema) (partitions : PartMap)
    (date_str : String) (sym ts : Int) (probe_idx : Nat) (st : ResultState) :
    ResultState :=
  match dir with
  | .backward => backward_lookup schema partitions date_str sym ts probe_idx st
  | .forward => forward_lookup schema partitions date_str sym ts probe_idx st

theorem asofProbe_ok {ts : Int} (h : tsValid ts = true) (schema : Schema)
    (partitions : PartMap) (dir : Direction) (sym : Int) (probe_idx : Nat)
    (st : ResultState) :
    asofProbe schema partitions dir sym ts probe_idx st =
      .ok (dirLookup dir schema partitions (dateStrOf ts) sym ts probe_idx st) := by
  cases dir <;> simp [asofProbe, micros_to_date_str_ok h, dirLookup]

theorem asofProbe_err {ts : Int} (h : tsValid ts = false) (schema : Schema)
    (partitions : PartMap) (dir : Direction) (sym : Int) (probe_idx : Nat)
    (st : ResultState) :
    asofProbe schema partitions dir sym ts probe_idx st =
      .error (.schemaMismatch ("invalid timestamp " ++ toString ts)) := by
  cases dir <;>
    simp [asofProbe, micros_to_date_str, micros_to_date_int_err h, Except.map]

theorem dirLookup_frame (dir : Direction) (schema : Schema) (partitions : PartMap)
    (date_str : String) (sym ts : Int) (probe_idx i : Nat) (h : i ≠ probe_idx)
    (st : ResultState) :
    tsAt (dirLookup dir schema partitions date_str sym ts probe_idx st) i = tsAt st i ∧
      cellsAt (dirLookup dir schema partitions date_str sym ts probe_idx st) i =
        cellsAt st i := by
  cases dir
  · exact backward_lookup_frame schema partitions date_str sym ts probe_idx i h st
  · exact forward_lookup_frame schema partitions date_str sym ts probe_idx i h st

/-- Valid probes at indices other than `i` run to completion and leave
slot `i` untouched. -/
theorem asofLoop_ok_frame (schema : Schema) (partitions : PartMap) (dir : Direction)
    (symbols timestamps : List Int) (i : Nat) :
    ∀ (idxs : List Nat) (st : ResultState),
      (∀ j ∈ idxs, tsValid (timestamps.getD j 0) = true) →
      (∀ j ∈ idxs, j ≠ i) →
      ∃ st', asofLoop schema partitions dir symbols timestamps idxs st = .ok st' ∧
        tsAt st' i = tsAt st i ∧ cellsAt st' i = cellsAt st i := by
  intro idxs
  induction idxs with
  | nil => intro st _ _; exact ⟨st, rfl, rfl, rfl⟩
  | cons j rest ih =>
    intro st hvalid hne
    have hv : tsValid (timestamps.getD j 0) = true := hvalid j (by simp)
    have hj : j ≠ i := hne j (by simp)
    obtain ⟨st', hst', hts, hcells⟩ :=
      ih (dirLookup dir schema partitions (dateStrOf (timestamps.getD j 0))
          (symbols.getD j 0) (timestamps.getD j 0) j st)
        (fun k hk => hvalid k (by simp [hk]))
        (fun k hk => hne k (by simp [hk]))
    refine ⟨st', ?_, ?_, ?_⟩
    · simp only [asofLoop, asofProbe_ok hv]
      exact hst'
    · rw [hts]
      exact (dirLookup_frame dir schema partitions _ _ _ j i (Ne.symm hj) st).1
    · rw [hcells]
      exact (dirLookup_frame dir schema partitions _ _ _ j i (Ne.symm hj) st).2

theorem asofLoop_append (schema : Schema) (partitions : PartMap) (dir : Direction)
    (symbols timestamps : List Int) :
    ∀ (l1 l2 : List Nat) (st : ResultState),
      asofLoop schema partitions dir symbols timestamps (l1 ++ l2) st =
        match asofLoop schema partitions dir symbols timestamps l1 st with
        | .error e => .error e
        | .ok st' => asofLoop schema partitions dir symbols timestamps l2 st' := by
  intro l1
  induction l1 with
  | nil => intro l2 st; rfl
  | cons j rest ih =>
    intro l2 st
    simp only [List.cons_append, asofLoop]
    cases asofProbe schema partitions dir (symbols.getD j 0) (timestamps.getD j 0) j st with
    | error e => rfl
    | ok st2 => exact ih l2 st2

/-- `range n` split around an interior index. -/
theorem range_split {n i : Nat} (h : i < n) :
    List.range n = List.range i ++ i :: (List.range (n - i - 1)).map (fun k => i + 1 + k) := by
  have h1 : i + ((n - i - 1) + 1) = n := by omega
  have h2 : (1 : Nat) + (n - i - 1) = n - i - 1 + 1 := by omega
  calc List.range n = List.range (i + (n - i - 1 + 1)) := by rw [h1]
    _ = List.range i ++ (List.range (n - i - 1 + 1)).map (fun k => i + k) :=
        List.range_add _ _
    _ = List.range i ++ i :: (List.range (n - i - 1)).map (fun k => i + 1 + k) := by
        congr 1
        rw [← h2, List.range_add 1 (n - i - 1)]
        simp only [List.map_append, List.map_map]
        have hr1 : List.range 1 = [0] := rfl
        rw [hr1]
        simp only [List.map_cons, List.map_nil, Nat.add_zero, List.singleton_append]
        congr 1
        apply List.map_congr_left
        intro k _
        simp only [Function.comp_apply]
        omega

/-- Null cells of the initial result. -/
theorem cellsAt_initResult (schema : Schema) (n i : Nat) (h : i < n) :
    cellsAt (initResult schema n) i =
      schema.value_columns.map (fun cd => nullCellFor cd.colType) ∧
    tsAt (initResult schema n) i = NULL_I64 := by
  constructor
  · unfold cellsAt initResult initCols
    rw [List.map_map]
    apply List.map_congr_left
    intro cd _
    cases hct : cd.colType <;>
      simp [Function.comp, hct, cellAt, nullCellFor,
        List.getD_eq_getElem?_getD, List.getElem?_replicate, h]
  · unfold tsAt initResult
    simp [List.getD_eq_getElem?_getD, List.getElem?_replicate, h]

end Zola

namespace Zola

/-- Both lookups return the state untouched when the probe's partition is
absent (`partitions.get(date_str)` misses). -/
theorem dirLookup_missing (dir : Direction) (schema : Schema) (partitions : PartMap)
    (date_str : String) (sym ts : Int) (probe_idx : Nat) (st : ResultState)
    (h : assocGet partitions date_str = none) :
    dirLookup dir schema partitions date_str sym ts probe_idx st = st := by
  cases dir <;> simp [dirLookup, backward_lookup, forward_lookup, h]

/-- C8: a probe whose UTC date has no partition yields the null sentinel in
every output slot (`i64::MIN` timestamp, `i64::MIN` / NaN value cells), for
any contents of the other partitions — in particular no other partition's
sidecar can contribute to the probe. -/
theorem asof_missing_partition_null (schema : Schema) (partitions : PartMap)
    (symbols timestamps : List Int) (dir : Direction) (i : Nat)
    (hvalid : ∀ j, j < symbols.length → tsValid (timestamps.getD j 0) = true)
    (hi : i < symbols.length)
    (hmiss : assocGet partitions (dateStrOf (timestamps.getD i 0)) = none) :
    ∃ res, asof_join schema partitions symbols timestamps dir = .ok res ∧
      tsAt res i = NULL_I64 ∧
      cellsAt res i = schema.value_columns.map (fun cd => nullCellFor cd.colType) := by
  obtain ⟨hcells0, hts0⟩ := cellsAt_initResult schema symbols.length i hi
  unfold asof_join
  rw [range_split hi, asofLoop_append]
  obtain ⟨st1, hst1, hts1, hcells1⟩ :=
    asofLoop_ok_frame schema partitions dir symbols timestamps i (List.range i)
      (initResult schema symbols.length)
      (fun j hj => hvalid j (lt_trans (List.mem_range.1 hj) hi))
      (fun j hj => Nat.ne_of_lt (List.mem_range.1 hj))
  rw [hst1]
  simp only [asofLoop, asofProbe_ok (hvalid i hi)]
  rw [dirLookup_missing dir schema partitions _ _ _ i st1 hmiss]
  obtain ⟨st2, hst2, hts2, hcells2⟩ :=
    asofLoop_ok_frame schema partitions dir symbols timestamps i
      ((List.range (symbols.length - i - 1)).map (fun k => i + 1 + k)) st1
      (fun j hj => by
        obtain ⟨k, hk, rfl⟩ := List.mem_map.1 hj
        exact hvalid _ (by have := List.mem_range.1 hk; omega))
      (fun j hj => by
        obtain ⟨k, hk, rfl⟩ := List.mem_map.1 hj
        omega)
  refine ⟨st2, hst2, ?_, ?_⟩
  · rw [hts2, hts1, hts0]
  · rw [hcells2, hcells1, hcells0]

/-- C9: any probe with a timestamp outside jiff's representable range makes
the whole `asof_join` call fail with a `SchemaMismatch` error; no result
(not even nulls for the other probes) is produced. -/
theorem asof_invalid_probe_errors (schema : Schema) (partitions : PartMap)
    (symbols timestamps : List Int) (dir : Direction) (i : Nat)
    (hi : i < symbols.length)
    (hbad : tsValid (timestamps.getD i 0) = false) :
    ∃ msg, asof_join schema partitions symbols timestamps dir =
      .error (.schemaMismatch msg) := by
  classical
  have hex : ∃ j, tsValid (timestamps.getD j 0) = false := ⟨i, hbad⟩
  have hj0 : tsValid (timestamps.getD (Nat.find hex) 0) = false := Nat.find_spec hex
  have hle : Nat.find hex ≤ i := Nat.find_min' hex hbad
  have hj0n : Nat.find hex < symbols.length := lt_of_le_of_lt hle hi
  unfold asof_join
  rw [range_split hj0n, asofLoop_append]
  obtain ⟨st1, hst1, _, _⟩ :=
    asofLoop_ok_frame schema partitions dir symbols timestamps symbols.length
      (List.range (Nat.find hex)) (initResult schema symbols.length)
      (fun j hj => by
        have hjlt := List.mem_range.1 hj
        have := Nat.find_min hex hjlt
        cases h : tsValid (timestamps.getD j 0) with
        | true => rfl
        | false => exact absurd h this)
      (fun j hj => by
        have := List.mem_range.1 hj
        omega)
  rw [hst1]
  simp only [asofLoop, asofProbe_err hj0]
  exact ⟨_, rfl⟩

end Zola

namespace Zola

/-! ## Concrete instances used by witnesses and counterexamples -/

/-- Schema with a single `price: f64` value column. -/
def exSchema : Schema := ⟨[⟨"price", .f64⟩]⟩

/-- A well-formed one-day partition (2024-01-15): rows
`(10:00:00, sym 1, 100.0)`, `(10:00:01, sym 1, 100.5)`,
`(10:00:02, sym 2, 200.0)`; f64 cells given as bit patterns. -/
def exPart : Partition :=
  { columns := [("price", [0x4059000000000000, 0x4059200000000000, 0x4069000000000000]),
                ("symbol", [i64ToWord 1, i64ToWord 1, i64ToWord 2]),
                ("timestamp", [i64ToWord 1705312800000000, i64ToWord 1705312801000000,
                  i64ToWord 1705312802000000])]
    parted := [⟨1, 0, 2⟩, ⟨2, 2, 3⟩]
    last_values := some [(1, ⟨1705312801000000, [0x4059200000000000]⟩),
                         (2, ⟨1705312802000000, [0x4069000000000000]⟩)]
    first_values := some [(1, ⟨1705312800000000, [0x4059000000000000]⟩),
                          (2, ⟨1705312802000000, [0x4069000000000000]⟩)] }

def exParts : PartMap := [("2024.01.15", exPart)]

/-- Witness for C8: probing 2024-01-20 (no partition) against `exParts`
returns nulls. -/
theorem asof_missing_partition_null_witness :
    ∃ res, asof_join exSchema exParts [1] [1705708800000000] .backward = .ok res ∧
      tsAt res 0 = NULL_I64 ∧ cellsAt res 0 = [nullCellFor .f64] := by
  have h := asof_missing_partition_null exSchema exParts [1] [1705708800000000]
    .backward 0 (by decide) (by decide) (by decide)
  simpa using h

/-- Witness for C9: a probe at `2^62` microseconds (beyond year 9999) makes
the whole batch error. -/
theorem asof_invalid_probe_errors_witness :
    ∃ msg, asof_join exSchema exParts [1, 1] [1705312800000000, 2 ^ 62] .backward =
      .error (.schemaMismatch msg) := by
  exact asof_invalid_probe_errors exSchema exParts [1, 1] [1705312800000000, 2 ^ 62]
    .backward 1 (by decide) (by decide)

end Zola

namespace Zola

/-! ## Correctness of the binary searches on sorted data -/

theorem partitionPointGo_eq (l : List Int) (p : Int → Bool) (k : Nat)
    (h1 : ∀ idx, idx < k → p (l.getD idx 0) = true)
    (h2 : ∀ idx, k ≤ idx → idx < l.length → p (l.getD idx 0) = false) :
    ∀ fuel lo hi, lo ≤ k → k ≤ hi → hi ≤ l.length → hi - lo < fuel →
      partitionPointGo l p fuel lo hi = k := by
  intro fuel
  induction fuel with
  | zero => intro lo hi _ _ _ hfuel; omega
  | succ fuel ih =>
    intro lo hi hlo hhi hlen hfuel
    by_cases hlh : lo < hi
    · have hmid1 : lo ≤ (lo + hi) / 2 := by omega
      have hmid2 : (lo + hi) / 2 < hi := by omega
      simp only [partitionPointGo, hlh, if_true]
      by_cases hp : p (l.getD ((lo + hi) / 2) 0) = true
      · have hmk : (lo + hi) / 2 < k := by
          by_contra hge
          have := h2 ((lo + hi) / 2) (by omega) (by omega)
          rw [this] at hp
          exact absurd hp (by simp)
        rw [if_pos hp]
        exact ih ((lo + hi) / 2 + 1) hi (by omega) hhi hlen (by omega)
      · have hkm : k ≤ (lo + hi) / 2 := by
          by_contra hlt
          exact hp (h1 ((lo + hi) / 2) (by omega))
        rw [if_neg hp]
        exact ih lo ((lo + hi) / 2) hlo hkm (by omega) (by omega)
    · have hkeq : lo = k := by omega
      subst hkeq
      simp only [partitionPointGo]
      rw [if_neg hlh]

/-- `partition_point` on a partitioned input returns the split index. -/
theorem partitionPoint_eq (l : List Int) (p : Int → Bool) (k : Nat)
    (hk : k ≤ l.length)
    (h1 : ∀ idx, idx < k → p (l.getD idx 0) = true)
    (h2 : ∀ idx, k ≤ idx → idx < l.length → p (l.getD idx 0) = false) :
    partitionPoint l p = k :=
  partitionPointGo_eq l p k h1 h2 (l.length + 1) 0 l.length (by omega) hk le_rfl
    (by omega)

/-- A non-strictly ascending list splits at each threshold. -/
theorem exists_split_le (l : List Int) (ts : Int) (hs : List.Sorted (· ≤ ·) l) :
    ∃ k, k ≤ l.length ∧ (∀ idx, idx < k → l.getD idx 0 ≤ ts) ∧
      (∀ idx, k ≤ idx → idx < l.length → ts < l.getD idx 0) := by
  induction l with
  | nil => exact ⟨0, by simp, by omega, by simp⟩
  | cons a rest ih =>
    have hrest : List.Sorted (· ≤ ·) rest := hs.of_cons
    have hhead : ∀ b ∈ rest, a ≤ b := List.rel_of_sorted_cons hs
    by_cases ha : a ≤ ts
    · obtain ⟨k, hk, h1, h2⟩ := ih hrest
      refine ⟨k + 1, by simpa using hk, ?_, ?_⟩
      · intro idx hidx
        cases idx with
        | zero => simpa using ha
        | succ m => simpa using h1 m (by omega)
      · intro idx hle hlen
        cases idx with
        | zero => omega
        | succ m => simpa using h2 m (by omega) (by simpa using hlen)
    · refine ⟨0, by simp, by omega, ?_⟩
      intro idx _ hlen
      cases idx with
      | zero => simpa using lt_of_not_le ha
      | succ m =>
        have hm : m < rest.length := by simpa using hlen
        have hmem : rest.getD m 0 ∈ rest := by
          rw [List.getD_eq_getElem?_getD, List.getElem?_eq_getElem hm]
          exact List.getElem_mem hm
        have := hhead _ hmem
        simp only [List.getD_cons_succ]
        omega

/-- A non-strictly ascending list splits at each strict threshold. -/
theorem exists_split_lt (l : List Int) (ts : Int) (hs : List.Sorted (· ≤ ·) l) :
    ∃ k, k ≤ l.length ∧ (∀ idx, idx < k → l.getD idx 0 < ts) ∧
      (∀ idx, k ≤ idx → idx < l.length → ts ≤ l.getD idx 0) := by
  induction l with
  | nil => exact ⟨0, by simp, by omega, by simp⟩
  | cons a rest ih =>
    have hrest : List.Sorted (· ≤ ·) rest := hs.of_cons
    have hhead : ∀ b ∈ rest, a ≤ b := List.rel_of_sorted_cons hs
    by_cases ha : a < ts
    · obtain ⟨k, hk, h1, h2⟩ := ih hrest
      refine ⟨k + 1, by simpa using hk, ?_, ?_⟩
      · intro idx hidx
        cases idx with
        | zero => simpa using ha
        | succ m => simpa using h1 m (by omega)
      · intro idx hle hlen
        cases idx with
        | zero => omega
        | succ m => simpa using h2 m (by omega) (by simpa using hlen)
    · refine ⟨0, by simp, by omega, ?_⟩
      intro idx _ hlen
      cases idx with
      | zero => simpa using le_of_not_lt ha
      | succ m =>
        have hm : m < rest.length := by simpa using hlen
        have hmem : rest.getD m 0 ∈ rest := by
          rw [List.getD_eq_getElem?_getD, List.getElem?_eq_getElem hm]
          exact List.getElem_mem hm
        have := hhead _ hmem
        simp only [List.getD_cons_succ]
        omega

/-- `partition_point (t <= ts)` on a sorted slice: everything before the
returned index is `<= ts`, everything from it on is `> ts`. -/
theorem partitionPoint_le_sorted (l : List Int) (ts : Int)
    (hs : List.Sorted (· ≤ ·) l) :
    partitionPoint l (fun t => t ≤ ts) ≤ l.length ∧
      (∀ idx, idx < partitionPoint l (fun t => t ≤ ts) → l.getD idx 0 ≤ ts) ∧
      (∀ idx, partitionPoint l (fun t => t ≤ ts) ≤ idx → idx < l.length →
        ts < l.getD idx 0) := by
  obtain ⟨k, hk, h1, h2⟩ := exists_split_le l ts hs
  have heq : partitionPoint l (fun t => t ≤ ts) = k := by
    apply partitionPoint_eq l _ k hk
    · intro idx hidx; simpa using h1 idx hidx
    · intro idx hle hlen; simpa using h2 idx hle hlen
  rw [heq]
  exact ⟨hk, h1, h2⟩

/-- `partition_point (t < ts)` on a sorted slice: everything before the
returned index is `< ts`, everything from it on is `>= ts`. -/
theorem partitionPoint_lt_sorted (l : List Int) (ts : Int)
    (hs : List.Sorted (· ≤ ·) l) :
    partitionPoint l (fun t => t < ts) ≤ l.length ∧
      (∀ idx, idx < partitionPoint l (fun t => t < ts) → l.getD idx 0 < ts) ∧
      (∀ idx, partitionPoint l (fun t => t < ts) ≤ idx → idx < l.length →
        ts ≤ l.getD idx 0) := by
  obtain ⟨k, hk, h1, h2⟩ := exists_split_lt l ts hs
  have heq : partitionPoint l (fun t => t < ts) = k := by
    apply partitionPoint_eq l _ k hk
    · intro idx hidx; simpa using h1 idx hidx
    · intro idx hle hlen; simpa using h2 idx hle hlen
  rw [heq]
  exact ⟨hk, h1, h2⟩

end Zola

namespace Zola

/-- On a strictly sorted key list containing `key` at (unique) index `j`,
`binary_search` returns `ok j`. -/
theorem binarySearchGo_found (keys : List Int) (key : Int)
    (hsort : List.Sorted (· < ·) keys) (j : Nat) (hj : j < keys.length)
    (hkey : keys.getD j 0 = key) :
    ∀ fuel lo hi, lo ≤ j → j < hi → hi ≤ keys.length → hi - lo < fuel →
      binarySearchGo keys key fuel lo hi = .ok j := by
  have hmono : ∀ a b, a < b → b < keys.length → keys.getD a 0 < keys.getD b 0 := by
    intro a b hab hb
    have ha : a < keys.length := lt_trans hab hb
    rw [List.getD_eq_getElem?_getD, List.getElem?_eq_getElem ha,
      List.getD_eq_getElem?_getD, List.getElem?_eq_getElem hb]
    exact List.Sorted.rel_get_of_lt hsort (by simpa using hab)
  intro fuel
  induction fuel with
  | zero => intro lo hi _ _ _ h; omega
  | succ fuel ih =>
    intro lo hi hlo hhi hlen hfuel
    have hlh : lo < hi := by omega
    have hmid2 : (lo + hi) / 2 < hi := by omega
    simp only [binarySearchGo, hlh, if_true]
    rcases lt_trichotomy ((lo + hi) / 2) j with hmj | hmj | hmj
    · have hklt : keys.getD ((lo + hi) / 2) 0 < key := by
        rw [← hkey]; exact hmono _ _ hmj hj
      rw [if_pos hklt]
      exact ih ((lo + hi) / 2 + 1) hi (by omega) hhi hlen (by omega)
    · subst hmj
      rw [hkey, if_neg (lt_irrefl key), if_neg (lt_irrefl key)]
    · have hkgt : key < keys.getD ((lo + hi) / 2) 0 := by
        rw [← hkey]; exact hmono _ _ hmj (by omega)
      rw [if_neg (by omega), if_pos hkgt]
      exact ih lo ((lo + hi) / 2) hlo hmj (by omega) (by omega)

/-- If no key equals `key`, `binary_search` returns an insertion point. -/
theorem binarySearchGo_absent (keys : List Int) (key : Int)
    (hno : ∀ idx, idx < keys.length → keys.getD idx 0 ≠ key) :
    ∀ fuel lo hi, hi ≤ keys.length → hi - lo < fuel →
      ∃ ins, binarySearchGo keys key fuel lo hi = .error ins := by
  intro fuel
  induction fuel with
  | zero => intro lo hi _ _; exact ⟨lo, rfl⟩
  | succ fuel ih =>
    intro lo hi hlen hfuel
    by_cases hlh : lo < hi
    · have hmid2 : (lo + hi) / 2 < hi := by omega
      have hne := hno ((lo + hi) / 2) (by omega)
      simp only [binarySearchGo, hlh, if_true]
      rcases lt_trichotomy (keys.getD ((lo + hi) / 2) 0) key with hc | hc | hc
      · rw [if_pos hc]
        exact ih ((lo + hi) / 2 + 1) hi hlen (by omega)
      · exact absurd hc hne
      · rw [if_neg (by omega), if_pos hc]
        exact ih lo ((lo + hi) / 2) (by omega) (by omega)
    · simp only [binarySearchGo, hlh, if_false]
      exact ⟨lo, rfl⟩

/-- `symbol_range` on a partition whose parted index is strictly sorted:
a present symbol's entry is found. -/
theorem symbol_range_found (p : Partition)
    (hsort : List.Sorted (· < ·) (p.parted.map (fun e => e.symbol_id)))
    (j : Nat) (hj : j < p.parted.length) :
    p.symbol_range ((p.parted.getD j ⟨0, 0, 0⟩).symbol_id) =
      some ((p.parted.getD j ⟨0, 0, 0⟩).start, (p.parted.getD j ⟨0, 0, 0⟩).stop) := by
  have hlen : (p.parted.map (fun e => e.symbol_id)).length = p.parted.length :=
    List.length_map _ _
  have hkey : (p.parted.map (fun e => e.symbol_id)).getD j 0 =
      (p.parted.getD j ⟨0, 0, 0⟩).symbol_id := by
    rw [List.getD_eq_getElem?_getD, List.getD_eq_getElem?_getD,
      List.getElem?_map, List.getElem?_eq_getElem hj]
    rfl
  have hfound := binarySearchGo_found (p.parted.map (fun e => e.symbol_id))
    ((p.parted.getD j ⟨0, 0, 0⟩).symbol_id) hsort j (by omega) hkey
    ((p.parted.map (fun e => e.symbol_id)).length + 1) 0
    (p.parted.map (fun e => e.symbol_id)).length (by omega) (by omega) le_rfl
    (by omega)
  unfold Partition.symbol_range binarySearchKeys
  rw [hfound]

/-- `symbol_range` misses symbols absent from the parted index. -/
theorem symbol_range_absent (p : Partition) (sym : Int)
    (hno : ∀ e ∈ p.parted, e.symbol_id ≠ sym) :
    p.symbol_range sym = none := by
  have hno' : ∀ idx, idx < (p.parted.map (fun e => e.symbol_id)).length →
      (p.parted.map (fun e => e.symbol_id)).getD idx 0 ≠ sym := by
    intro idx hidx
    rw [List.length_map] at hidx
    rw [List.getD_eq_getElem?_getD, List.getElem?_map, List.getElem?_eq_getElem hidx]
    exact hno _ (List.getElem_mem hidx)
  obtain ⟨ins, hins⟩ := binarySearchGo_absent (p.parted.map (fun e => e.symbol_id)) sym
    hno' ((p.parted.map (fun e => e.symbol_id)).length + 1) 0
    (p.parted.map (fun e => e.symbol_id)).length le_rfl (by omega)
  unfold Partition.symbol_range binarySearchKeys
  rw [hins]

end Zola

namespace Zola

/-! ## Within-partition lookup characterization -/

theorem getD_sorted_mono (l : List Int) (hs : List.Sorted (· ≤ ·) l) {a b : Nat}
    (hab : a ≤ b) (hb : b < l.length) : l.getD a 0 ≤ l.getD b 0 := by
  rcases Nat.eq_or_lt_of_le hab with rfl | hlt
  · exact le_rfl
  · rw [List.getD_eq_getElem?_getD, List.getElem?_eq_getElem (lt_trans hlt hb),
      List.getD_eq_getElem?_getD, List.getElem?_eq_getElem hb]
    exact List.Sorted.rel_get_of_lt hs (by simpa using hlt)

theorem length_slice (tcol : List Int) (s e : Nat) (he : e ≤ tcol.length) :
    ((tcol.drop s).take (e - s)).length = e - s := by
  simp [List.length_take, List.length_drop]
  omega

theorem getD_slice (tcol : List Int) (s e q : Nat) (hq : q < e - s)
    (he : e ≤ tcol.length) :
    ((tcol.drop s).take (e - s)).getD q 0 = tcol.getD (s + q) 0 := by
  have h1 : q < ((tcol.drop s).take (e - s)).length := by
    rw [length_slice tcol s e he]; exact hq
  have h2 : s + q < tcol.length := by omega
  rw [List.getD_eq_getElem?_getD, List.getElem?_eq_getElem h1,
    List.getD_eq_getElem?_getD, List.getElem?_eq_getElem h2]
  simp only [List.getElem_take, List.getElem_drop]

/-- The timestamp slot written by `fill_from_partition`. -/
theorem tsAt_fill_from_partition (schema : Schema) (part : Partition)
    (row probe_idx : Nat) (st : ResultState) (tcol : List Int)
    (hg : part.get_i64 "timestamp" = some tcol) (hpi : probe_idx < st.ts.length) :
    tsAt (fill_from_partition schema part row probe_idx st) probe_idx =
      tcol.getD row 0 := by
  unfold fill_from_partition tsAt
  rw [hg]
  simp only []
  exact getD_set_self _ hpi _ _

/-- C3: duplicate-timestamp tie-break.  In a partition holding the probe's
symbol with a sorted, in-bounds row range that contains at least one row
with timestamp equal to the probe's, `backward_lookup` emits the row with
the highest storage index among those equal to the probe timestamp and
`forward_lookup` the one with the lowest; in both directions the emitted
timestamp equals the probe timestamp exactly. -/
theorem lookup_duplicate_tie_break (schema : Schema) (partitions : PartMap)
    (date_str : String) (sym ts : Int) (probe_idx : Nat) (st : ResultState)
    (part : Partition) (s e : Nat) (tcol : List Int)
    (hpart : assocGet partitions date_str = some part)
    (hrange : part.symbol_range sym = some (s, e))
    (htcol : part.get_i64 "timestamp" = some tcol)
    (hbounds : e ≤ tcol.length)
    (hsorted : List.Sorted (· ≤ ·) ((tcol.drop s).take (e - s)))
    (idx0 : Nat) (hidx0 : s ≤ idx0 ∧ idx0 < e) (heq0 : tcol.getD idx0 0 = ts)
    (hpi : probe_idx < st.ts.length) :
    (∃ row, backward_lookup schema partitions date_str sym ts probe_idx st =
        fill_from_partition schema part row probe_idx st ∧
      s ≤ row ∧ row < e ∧ tcol.getD row 0 = ts ∧
      (∀ q, row < q → q < e → tcol.getD q 0 ≠ ts) ∧
      tsAt (backward_lookup schema partitions date_str sym ts probe_idx st)
        probe_idx = ts) ∧
    (∃ row, forward_lookup schema partitions date_str sym ts probe_idx st =
        fill_from_partition schema part row probe_idx st ∧
      s ≤ row ∧ row < e ∧ tcol.getD row 0 = ts ∧
      (∀ q, s ≤ q → q < row → tcol.getD q 0 ≠ ts) ∧
      tsAt (forward_lookup schema partitions date_str sym ts probe_idx st)
        probe_idx = ts) := by
  obtain ⟨hi0l, hi0r⟩ := hidx0
  have hlen := length_slice tcol s e hbounds
  have hslice0 : ((tcol.drop s).take (e - s)).getD (idx0 - s) 0 = ts := by
    rw [getD_slice tcol s e (idx0 - s) (by omega) hbounds]
    have : s + (idx0 - s) = idx0 := by omega
    rw [this, heq0]
  constructor
  · -- Backward
    obtain ⟨hple, hpall, hpabove⟩ :=
      partitionPoint_le_sorted ((tcol.drop s).take (e - s)) ts hsorted
    set pos := partitionPoint ((tcol.drop s).take (e - s)) (fun t => t ≤ ts) with hpos
    have hidxlt : idx0 - s < pos := by
      by_contra hge
      have := hpabove (idx0 - s) (by omega) (by omega)
      rw [hslice0] at this
      exact lt_irrefl ts this
    have hpos0 : ¬ pos = 0 := by omega
    have heqn : backward_lookup schema partitions date_str sym ts probe_idx st =
        fill_from_partition schema part (s + pos - 1) probe_idx st := by
      simp only [backward_lookup, hpart, hrange, htcol, ← hpos, hpos0, if_false]
    have hrowval : tcol.getD (s + pos - 1) 0 = ts := by
      have h1 : ((tcol.drop s).take (e - s)).getD (pos - 1) 0 ≤ ts :=
        hpall (pos - 1) (by omega)
      have h2 : ts ≤ ((tcol.drop s).take (e - s)).getD (pos - 1) 0 := by
        rw [← hslice0]
        exact getD_sorted_mono _ hsorted (by omega) (by omega)
      have h3 : ((tcol.drop s).take (e - s)).getD (pos - 1) 0 = ts := le_antisymm h1 h2
      rw [getD_slice tcol s e (pos - 1) (by omega) hbounds] at h3
      have : s + (pos - 1) = s + pos - 1 := by omega
      rw [← this, h3]
    refine ⟨s + pos - 1, heqn, by omega, by omega, hrowval, ?_, ?_⟩
    · intro q hq1 hq2
      have hqs : pos ≤ q - s := by omega
      have := hpabove (q - s) hqs (by omega)
      rw [getD_slice tcol s e (q - s) (by omega) hbounds] at this
      have hqeq : s + (q - s) = q := by omega
      rw [hqeq] at this
      omega
    · rw [heqn, tsAt_fill_from_partition schema part _ probe_idx st tcol htcol hpi]
      exact hrowval
  · -- Forward
    obtain ⟨hple, hpall, hpabove⟩ :=
      partitionPoint_lt_sorted ((tcol.drop s).take (e - s)) ts hsorted
    set pos := partitionPoint ((tcol.drop s).take (e - s)) (fun t => t < ts) with hpos
    have hposle : pos ≤ idx0 - s := by
      by_contra hgt
      have := hpall (idx0 - s) (by omega)
      rw [hslice0] at this
      exact lt_irrefl ts this
    have hposlen : ¬ pos = ((tcol.drop s).take (e - s)).length := by
      rw [hlen]; omega
    have heqn : forward_lookup schema partitions date_str sym ts probe_idx st =
        fill_from_partition schema part (s + pos) probe_idx st := by
      simp only [forward_lookup, hpart, hrange, htcol, ← hpos, hposlen, if_false]
    have hrowval : tcol.getD (s + pos) 0 = ts := by
      have h1 : ts ≤ ((tcol.drop s).take (e - s)).getD pos 0 :=
        hpabove pos le_rfl (by omega)
      have h2 : ((tcol.drop s).take (e - s)).getD pos 0 ≤ ts := by
        rw [← hslice0]
        exact getD_sorted_mono _ hsorted hposle (by omega)
      have h3 : ((tcol.drop s).take (e - s)).getD pos 0 = ts := le_antisymm h2 h1
      rw [getD_slice tcol s e pos (by omega) hbounds] at h3
      exact h3
    refine ⟨s + pos, heqn, by omega, by omega, hrowval, ?_, ?_⟩
    · intro q hq1 hq2
      have := hpall (q - s) (by omega)
      rw [getD_slice tcol s e (q - s) (by omega) hbounds] at this
      have hqeq : s + (q - s) = q := by omega
      rw [hqeq] at this
      omega
    · rw [heqn, tsAt_fill_from_partition schema part _ probe_idx st tcol htcol hpi]
      exact hrowval

end Zola

namespace Zola

/-- A partition with duplicate timestamps for symbol 1:
timestamps `[100, 200, 200, 300]`, prices `1.0, 2.0, 3.0, 4.0`. -/
def exDupPart : Partition :=
  { columns := [("price", [0x3FF0000000000000, 0x4000000000000000, 0x4008000000000000,
                  0x4010000000000000]),
                ("symbol", [i64ToWord 1, i64ToWord 1, i64ToWord 1, i64ToWord 1]),
                ("timestamp", [i64ToWord 100, i64ToWord 200, i64ToWord 200, i64ToWord 300])]
    parted := [⟨1, 0, 4⟩]
    last_values := none
    first_values := none }

def exDupParts : PartMap := [("2024.01.15", exDupPart)]

/-- Witness for C3 at the duplicate pair: both directions return timestamp
200 (the backward one from the highest-index duplicate, the forward one
from the lowest). -/
theorem lookup_duplicate_tie_break_witness :
    tsAt (backward_lookup exSchema exDupParts "2024.01.15" 1 200 0
      (initResult exSchema 1)) 0 = 200 ∧
    tsAt (forward_lookup exSchema exDupParts "2024.01.15" 1 200 0
      (initResult exSchema 1)) 0 = 200 := by
  obtain ⟨⟨rowb, _, _, _, _, _, htsb⟩, ⟨rowf, _, _, _, _, _, htsf⟩⟩ :=
    lookup_duplicate_tie_break exSchema exDupParts "2024.01.15" 1 200 0
      (initResult exSchema 1) exDupPart 0 4
      [100, 200, 200, 300]
      (by decide) (by decide) (by decide) (by decide) (by decide)
      1 (by decide) (by decide) (by decide)
  exact ⟨htsb, htsf⟩

end Zola

namespace Zola

/-! ## Order lemmas for the byte-lexicographic string order -/

theorem char_toNat_inj {a b : Char} (h : a.toNat = b.toNat) : a = b :=
  Char.ext (UInt32.ext h)

theorem charsLt_irrefl : ∀ l : List Char, charsLt l l = false := by
  intro l
  induction l with
  | nil => rfl
  | cons a as ih => simp [charsLt, ih]

theorem charsLt_trans : ∀ a b c : List Char,
    charsLt a b = true → charsLt b c = true → charsLt a c = true := by
  intro a
  induction a with
  | nil =>
    intro b c hab hbc
    cases c with
    | nil => cases b <;> simp [charsLt] at hab hbc
    | cons _ _ => rfl
  | cons x xs ih =>
    intro b c hab hbc
    cases b with
    | nil => simp [charsLt] at hab
    | cons y ys =>
      cases c with
      | nil => simp [charsLt] at hbc
      | cons z zs =>
        simp only [charsLt] at hab hbc ⊢
        by_cases hxy : x.toNat < y.toNat
        · by_cases hyz : y.toNat < z.toNat
          · rw [if_pos (by omega)]
          · rw [if_neg hyz] at hbc
            by_cases hzy : z.toNat < y.toNat
            · rw [if_pos hzy] at hbc; exact absurd hbc (by simp)
            · have : y.toNat = z.toNat := by omega
              rw [if_pos (by omega)]
        · rw [if_neg hxy] at hab
          by_cases hyx : y.toNat < x.toNat
          · rw [if_pos hyx] at hab; exact absurd hab (by simp)
          · rw [if_neg hyx] at hab
            have hxyeq : x.toNat = y.toNat := by omega
            by_cases hyz : y.toNat < z.toNat
            · rw [if_pos (by omega)]
            · rw [if_neg hyz] at hbc
              by_cases hzy : z.toNat < y.toNat
              · rw [if_pos hzy] at hbc; exact absurd hbc (by simp)
              · rw [if_neg hzy] at hbc
                rw [if_neg (by omega), if_neg (by omega)]
                exact ih ys zs hab hbc

theorem charsLt_trichotomy : ∀ a b : List Char,
    charsLt a b = true ∨ charsLt b a = true ∨ a = b := by
  intro a
  induction a with
  | nil =>
    intro b
    cases b with
    | nil => right; right; rfl
    | cons _ _ => left; rfl
  | cons x xs ih =>
    intro b
    cases b with
    | nil => right; left; rfl
    | cons y ys =>
      by_cases hxy : x.toNat < y.toNat
      · left; simp [charsLt, hxy]
      · by_cases hyx : y.toNat < x.toNat
        · right; left; simp [charsLt, hyx]
        · have hx : x = y := char_toNat_inj (by omega)
          subst hx
          rcases ih ys with h | h | h
          · left; simp [charsLt, h]
          · right; left; simp [charsLt, h]
          · right; right; rw [h]

theorem strLt_irrefl (s : String) : strLt s s = false := charsLt_irrefl s.data

theorem strLt_trans {a b c : String} (hab : strLt a b = true) (hbc : strLt b c = true) :
    strLt a c = true := charsLt_trans a.data b.data c.data hab hbc

theorem strLt_trichotomy (a b : String) :
    strLt a b = true ∨ strLt b a = true ∨ a = b := by
  rcases charsLt_trichotomy a.data b.data with h | h | h
  · exact Or.inl h
  · exact Or.inr (Or.inl h)
  · exact Or.inr (Or.inr (String.ext h))

theorem strLt_asymm {a b : String} (h : strLt a b = true) : strLt b a = false := by
  cases hba : strLt b a
  · rfl
  · have := strLt_trans h hba
    rw [strLt_irrefl] at this
    cases this

end Zola

namespace Zola

/-! ## The neighbor chosen by `prev_partition` / `next_partition` -/

theorem maxBelow_spec (d : String) :
    ∀ l : List (String × Partition),
      (maxBelow d l = none → ∀ kp ∈ l, strLt kp.1 d = false) ∧
      (∀ best, maxBelow d l = some best → best ∈ l ∧ strLt best.1 d = true ∧
        ∀ kp ∈ l, strLt kp.1 d = true → strLt kp.1 best.1 = true ∨ kp.1 = best.1) := by
  intro l
  induction l with
  | nil => exact ⟨fun _ => by simp, fun best h => by cases h⟩
  | cons kv rest ih =>
    obtain ⟨ihn, ihs⟩ := ih
    constructor
    · intro hr kp hkp
      rcases hrest : maxBelow d rest with _ | best
      · simp only [maxBelow, hrest] at hr
        rcases List.mem_cons.1 hkp with rfl | hkp'
        · by_cases h : strLt kp.1 d = true
          · rw [if_pos h] at hr; cases hr
          · cases hq : strLt kp.1 d
            · rfl
            · exact absurd hq h
        · exact ihn hrest kp hkp'
      · simp only [maxBelow, hrest] at hr
        by_cases h : strLt kv.1 d = true
        · rw [if_pos h] at hr
          by_cases h2 : strLt best.1 kv.1 = true
          · rw [if_pos h2] at hr; cases hr
          · rw [if_neg h2] at hr; cases hr
        · rw [if_neg h] at hr; cases hr
    · intro best hr
      rcases hrest : maxBelow d rest with _ | b
      · simp only [maxBelow, hrest] at hr
        by_cases h : strLt kv.1 d = true
        · rw [if_pos h] at hr
          injection hr with hr
          subst hr
          refine ⟨List.mem_cons_self _ _, h, ?_⟩
          intro kp hkp hq
          rcases List.mem_cons.1 hkp with rfl | hkp'
          · exact Or.inr rfl
          · rw [ihn hrest kp hkp'] at hq; cases hq
        · rw [if_neg h] at hr; cases hr
      · obtain ⟨hbmem, hbq, hbmax⟩ := ihs b hrest
        simp only [maxBelow, hrest] at hr
        by_cases h : strLt kv.1 d = true
        · rw [if_pos h] at hr
          by_cases h2 : strLt b.1 kv.1 = true
          · rw [if_pos h2] at hr
            injection hr with hr
            subst hr
            refine ⟨List.mem_cons_self _ _, h, ?_⟩
            intro kp hkp hq
            rcases List.mem_cons.1 hkp with rfl | hkp'
            · exact Or.inr rfl
            · rcases hbmax kp hkp' hq with h3 | h3
              · exact Or.inl (strLt_trans h3 h2)
              · exact Or.inl (by rw [h3]; exact h2)
          · rw [if_neg h2] at hr
            injection hr with hr
            subst hr
            refine ⟨List.mem_cons_of_mem _ hbmem, hbq, ?_⟩
            intro kp hkp hq
            rcases List.mem_cons.1 hkp with rfl | hkp'
            · rcases strLt_trichotomy kp.1 b.1 with h3 | h3 | h3
              · exact Or.inl h3
              · exact absurd h3 h2
              · exact Or.inr h3
            · exact hbmax kp hkp' hq
        · rw [if_neg h] at hr
          injection hr with hr
          subst hr
          refine ⟨List.mem_cons_of_mem _ hbmem, hbq, ?_⟩
          intro kp hkp hq
          rcases List.mem_cons.1 hkp with rfl | hkp'
          · rw [hq] at h; exact absurd rfl h
          · exact hbmax kp hkp' hq

theorem minAbove_spec (d : String) :
    ∀ l : List (String × Partition),
      (minAbove d l = none → ∀ kp ∈ l, strLt d kp.1 = false) ∧
      (∀ best, minAbove d l = some best → best ∈ l ∧ strLt d best.1 = true ∧
        ∀ kp ∈ l, strLt d kp.1 = true → strLt best.1 kp.1 = true ∨ kp.1 = best.1) := by
  intro l
  induction l with
  | nil => exact ⟨fun _ => by simp, fun best h => by cases h⟩
  | cons kv rest ih =>
    obtain ⟨ihn, ihs⟩ := ih
    constructor
    · intro hr kp hkp
      rcases hrest : minAbove d rest with _ | best
      · simp only [minAbove, hrest] at hr
        rcases List.mem_cons.1 hkp with rfl | hkp'
        · by_cases h : strLt d kp.1 = true
          · rw [if_pos h] at hr; cases hr
          · cases hq : strLt d kp.1
            · rfl
            · exact absurd hq h
        · exact ihn hrest kp hkp'
      · simp only [minAbove, hrest] at hr
        by_cases h : strLt d kv.1 = true
        · rw [if_pos h] at hr
          by_cases h2 : strLt kv.1 best.1 = true
          · rw [if_pos h2] at hr; cases hr
          · rw [if_neg h2] at hr; cases hr
        · rw [if_neg h] at hr; cases hr
    · intro best hr
      rcases hrest : minAbove d rest with _ | b
      · simp only [minAbove, hrest] at hr
        by_cases h : strLt d kv.1 = true
        · rw [if_pos h] at hr
          injection hr with hr
          subst hr
          refine ⟨List.mem_cons_self _ _, h, ?_⟩
          intro kp hkp hq
          rcases List.mem_cons.1 hkp with rfl | hkp'
          · exact Or.inr rfl
          · rw [ihn hrest kp hkp'] at hq; cases hq
        · rw [if_neg h] at hr; cases hr
      · obtain ⟨hbmem, hbq, hbmin⟩ := ihs b hrest
        simp only [minAbove, hrest] at hr
        by_cases h : strLt d kv.1 = true
        · rw [if_pos h] at hr
          by_cases h2 : strLt kv.1 b.1 = true
          · rw [if_pos h2] at hr
            injection hr with hr
            subst hr
            refine ⟨List.mem_cons_self _ _, h, ?_⟩
            intro kp hkp hq
            rcases List.mem_cons.1 hkp with rfl | hkp'
            · exact Or.inr rfl
            · rcases hbmin kp hkp' hq with h3 | h3
              · exact Or.inl (strLt_trans h2 h3)
              · exact Or.inl (by rw [h3]; exact h2)
          · rw [if_neg h2] at hr
            injection hr with hr
            subst hr
            refine ⟨List.mem_cons_of_mem _ hbmem, hbq, ?_⟩
            intro kp hkp hq
            rcases List.mem_cons.1 hkp with rfl | hkp'
            · rcases strLt_trichotomy b.1 kp.1 with h3 | h3 | h3
              · exact Or.inl h3
              · exact absurd h3 h2
              · exact Or.inr h3.symm
            · exact hbmin kp hkp' hq
        · rw [if_neg h] at hr
          injection hr with hr
          subst hr
          refine ⟨List.mem_cons_of_mem _ hbmem, hbq, ?_⟩
          intro kp hkp hq
          rcases List.mem_cons.1 hkp with rfl | hkp'
          · rw [hq] at h; exact absurd rfl h
          · exact hbmin kp hkp' hq

end Zola

namespace Zola

/-- C2, one-hop rule.  When the probe's own partition exists but lacks the
symbol, or has no row on the probe's side of the timestamp (all rows of
the symbol's range strictly after the probe for Backward / strictly before
for Forward), the lookup falls through to exactly one sidecar consultation;
that consultation reads the strictly previous (Backward, `last_values`) or
strictly next (Forward, `first_values`) partition in key order, emits the
sidecar entry iff it contains the symbol, and otherwise leaves the probe's
slot untouched (null) no matter what any other partition contains. -/
theorem one_hop_rule (schema : Schema) (partitions : PartMap) (date_str : String)
    (sym ts : Int) (probe_idx : Nat) (st : ResultState) (part : Partition)
    (hpart : assocGet partitions date_str = some part) :
    ((part.symbol_range sym = none ∨
      (∃ s e tcol, part.symbol_range sym = some (s, e) ∧
        part.get_i64 "timestamp" = some tcol ∧ e ≤ tcol.length ∧
        ∀ q, s ≤ q → q < e → ts < tcol.getD q 0)) →
      backward_lookup schema partitions date_str sym ts probe_idx st =
        try_prev_sidecar schema partitions date_str sym probe_idx st) ∧
    ((part.symbol_range sym = none ∨
      (∃ s e tcol, part.symbol_range sym = some (s, e) ∧
        part.get_i64 "timestamp" = some tcol ∧ e ≤ tcol.length ∧
        ∀ q, s ≤ q → q < e → tcol.getD q 0 < ts)) →
      forward_lookup schema partitions date_str sym ts probe_idx st =
        try_next_sidecar schema partitions date_str sym probe_idx st) ∧
    (∀ prev, prev_partition partitions date_str = some prev →
      (∀ lv entry, prev.last_values = some lv → assocGetI lv sym = some entry →
        try_prev_sidecar schema partitions date_str sym probe_idx st =
          fill_from_sidecar schema entry probe_idx st) ∧
      (∀ lv, prev.last_values = some lv → assocGetI lv sym = none →
        try_prev_sidecar schema partitions date_str sym probe_idx st = st) ∧
      (prev.last_values = none →
        try_prev_sidecar schema partitions date_str sym probe_idx st = st)) ∧
    (prev_partition partitions date_str = none →
      try_prev_sidecar schema partitions date_str sym probe_idx st = st) ∧
    (∀ nxt, next_partition partitions date_str = some nxt →
      (∀ fv entry, nxt.first_values = some fv → assocGetI fv sym = some entry →
        try_next_sidecar schema partitions date_str sym probe_idx st =
          fill_from_sidecar schema entry probe_idx st) ∧
      (∀ fv, nxt.first_values = some fv → assocGetI fv sym = none →
        try_next_sidecar schema partitions date_str sym probe_idx st = st) ∧
      (nxt.first_values = none →
        try_next_sidecar schema partitions date_str sym probe_idx st = st)) ∧
    (next_partition partitions date_str = none →
      try_next_sidecar schema partitions date_str sym probe_idx st = st) ∧
    (∀ prev, prev_partition partitions date_str = some prev →
      ∃ k, (k, prev) ∈ partitions ∧ strLt k date_str = true ∧
        ∀ kp ∈ partitions, strLt kp.1 date_str = true →
          strLt kp.1 k = true ∨ kp.1 = k) ∧
    (prev_partition partitions date_str = none →
      ∀ kp ∈ partitions, strLt kp.1 date_str = false) ∧
    (∀ nxt, next_partition partitions date_str = some nxt →
      ∃ k, (k, nxt) ∈ partitions ∧ strLt date_str k = true ∧
        ∀ kp ∈ partitions, strLt date_str kp.1 = true →
          strLt k kp.1 = true ∨ kp.1 = k) ∧
    (next_partition partitions date_str = none →
      ∀ kp ∈ partitions, strLt date_str kp.1 = false) := by
  refine ⟨?_, ?_, ?_, ?_, ?_, ?_, ?_, ?_, ?_, ?_⟩
  · -- Backward falls through to the sidecar step
    rintro (hnone | ⟨s, e, tcol, hsr, htc, hbound, hafter⟩)
    · simp only [backward_lookup, hpart, hnone]
    · have hlen := length_slice tcol s e hbound
      have hpos : partitionPoint ((tcol.drop s).take (e - s)) (fun t => t ≤ ts) = 0 := by
        apply partitionPoint_eq _ _ 0 (by omega)
        · intro idx hidx; omega
        · intro idx _ hidx
          rw [hlen] at hidx
          rw [getD_slice tcol s e idx hidx hbound]
          have := hafter (s + idx) (by omega) (by omega)
          simp only [decide_eq_false_iff_not]
          omega
      simp only [backward_lookup, hpart, hsr, htc, hpos, eq_self_iff_true, if_true]
  · -- Forward falls through to the sidecar step
    rintro (hnone | ⟨s, e, tcol, hsr, htc, hbound, hbefore⟩)
    · simp only [forward_lookup, hpart, hnone]
    · have hlen := length_slice tcol s e hbound
      have hpos : partitionPoint ((tcol.drop s).take (e - s)) (fun t => t < ts) =
          ((tcol.drop s).take (e - s)).length := by
        apply partitionPoint_eq _ _ _ le_rfl
        · intro idx hidx
          rw [hlen] at hidx
          rw [getD_slice tcol s e idx hidx hbound]
          have := hbefore (s + idx) (by omega) (by omega)
          simp only [decide_eq_true_eq]
          omega
        · intro idx hle hidx; omega
      simp only [forward_lookup, hpart, hsr, htc, hpos, eq_self_iff_true, if_true]
  · intro prev hprev
    refine ⟨?_, ?_, ?_⟩
    · intro lv entry hlv hentry
      simp only [try_prev_sidecar, hprev, hlv, hentry]
    · intro lv hlv hentry
      simp only [try_prev_sidecar, hprev, hlv, hentry]
    · intro hlv
      simp only [try_prev_sidecar, hprev, hlv]
  · intro hprev
    simp only [try_prev_sidecar, hprev]
  · intro nxt hnxt
    refine ⟨?_, ?_, ?_⟩
    · intro fv entry hfv hentry
      simp only [try_next_sidecar, hnxt, hfv, hentry]
    · intro fv hfv hentry
      simp only [try_next_sidecar, hnxt, hfv, hentry]
    · intro hfv
      simp only [try_next_sidecar, hnxt, hfv]
  · intro hnxt
    simp only [try_next_sidecar, hnxt]
  · intro prev hprev
    unfold prev_partition at hprev
    rcases hmb : maxBelow date_str partitions with _ | kv
    · rw [hmb] at hprev; cases hprev
    · rw [hmb] at hprev
      injection hprev with hprev
      obtain ⟨hmem, hq, hmax⟩ := (maxBelow_spec date_str partitions).2 kv hmb
      have hkv : (kv.1, prev) = kv := by
        rw [← hprev]
      exact ⟨kv.1, by rw [hkv]; exact hmem, hq, hmax⟩
  · intro hprev
    unfold prev_partition at hprev
    rcases hmb : maxBelow date_str partitions with _ | kv
    · exact (maxBelow_spec date_str partitions).1 hmb
    · rw [hmb] at hprev; cases hprev
  · intro nxt hnxt
    unfold next_partition at hnxt
    rcases hmb : minAbove date_str partitions with _ | kv
    · rw [hmb] at hnxt; cases hnxt
    · rw [hmb] at hnxt
      injection hnxt with hnxt
      obtain ⟨hmem, hq, hmin⟩ := (minAbove_spec date_str partitions).2 kv hmb
      have hkv : (kv.1, nxt) = kv := by
        rw [← hnxt]
      exact ⟨kv.1, by rw [hkv]; exact hmem, hq, hmin⟩
  · intro hnxt
    unfold next_partition at hnxt
    rcases hmb : minAbove date_str partitions with _ | kv
    · exact (minAbove_spec date_str partitions).1 hmb
    · rw [hmb] at hnxt; cases hnxt

end Zola

namespace Zola

/-- Jan 13 partition: symbol 1 present (price 99.0). -/
def exPartJan13 : Partition :=
  { columns := [("price", [0x4058c00000000000]), ("symbol", [i64ToWord 1]),
                ("timestamp", [i64ToWord 1705147200000000])]
    parted := [⟨1, 0, 1⟩]
    last_values := some [(1, ⟨1705147200000000, [0x4058c00000000000]⟩)]
    first_values := some [(1, ⟨1705147200000000, [0x4058c00000000000]⟩)] }

/-- Jan 14 partition: only symbol 2. -/
def exPartJan14 : Partition :=
  { columns := [("price", [0x4072c00000000000]), ("symbol", [i64ToWord 2]),
                ("timestamp", [i64ToWord 1705233600000000])]
    parted := [⟨2, 0, 1⟩]
    last_values := some [(2, ⟨1705233600000000, [0x4072c00000000000]⟩)]
    first_values := some [(2, ⟨1705233600000000, [0x4072c00000000000]⟩)] }

/-- Jan 15 partition: only symbol 2. -/
def exPartJan15 : Partition :=
  { columns := [("price", [0x4072d00000000000]), ("symbol", [i64ToWord 2]),
                ("timestamp", [i64ToWord 1705320000000000])]
    parted := [⟨2, 0, 1⟩]
    last_values := some [(2, ⟨1705320000000000, [0x4072d00000000000]⟩)]
    first_values := some [(2, ⟨1705320000000000, [0x4072d00000000000]⟩)] }

def exPartsNoRec : PartMap :=
  [("2024.01.13", exPartJan13), ("2024.01.14", exPartJan14), ("2024.01.15", exPartJan15)]

/-- Witness for C2: probing symbol 1 backward on Jan 15 finds neither the
symbol in its own partition nor in Jan 14's sidecar, and stays null even
though Jan 13 holds the symbol. -/
theorem one_hop_rule_witness :
    backward_lookup exSchema exPartsNoRec "2024.01.15" 1 1705320000000000 0
      (initResult exSchema 1) = initResult exSchema 1 := by
  obtain ⟨hb, _, hprevsem, _, _, _, _, _, _, _⟩ :=
    one_hop_rule exSchema exPartsNoRec "2024.01.15" 1 1705320000000000 0
      (initResult exSchema 1) exPartJan15 (by decide)
  rw [hb (Or.inl (by decide))]
  obtain ⟨_, hmissing, _⟩ := hprevsem exPartJan14 (by decide)
  exact hmissing _ rfl (by decide)

end Zola

namespace Zola

/-! ## Calendar monotonicity -/

def dateIntOfDays (z : Int) : Int :=
  match civilFromDays z with
  | (y, m, d) => y * 10000 + m * 100 + d

theorem dateIntOf_eq (ts : Int) : dateIntOf ts = dateIntOfDays (ts / microsPerDay) := rfl

/-- The within-era packed value. -/
def hVal (doe : Nat) : Nat := yoeOf doe * 10000 + gFn (doe - dbFn (yoeOf doe))

/-- End (exclusive) of year-of-era `y` in days-of-era; the era's last year
ends at 146097 (the `dbFn` formula is only used below year 400). -/
def yearEnd (y : Nat) : Nat := if y = 399 then 146097 else dbFn (y + 1)

set_option maxRecDepth 2000 in
theorem dbFn_steps : ∀ y < 400, dbFn y < yearEnd y ∧ yearEnd y ≤ dbFn y + 366 := by
  decide

set_option maxRecDepth 2000 in
set_option maxHeartbeats 2000000 in
theorem yoeOf_endpoints : ∀ y < 400, yoeOf (dbFn y) = y ∧ yoeOf (yearEnd y - 1) = y := by
  decide

set_option maxRecDepth 2000 in
theorem gFn_mono_adj : ∀ doy < 365, gFn doy < gFn (doy + 1) := by decide

set_option maxRecDepth 2000 in
theorem gFn_bounds : ∀ doy < 366, 301 ≤ gFn doy ∧ gFn doy ≤ 10229 := by decide

theorem yoeOf_mono : Monotone yoeOf := by
  apply monotone_nat_of_le_succ
  intro n
  unfold yoeOf
  exact Nat.div_le_div_right (by omega)

theorem yoe_bracket (doe : Nat) (h : doe < 146097) :
    yoeOf doe < 400 ∧ dbFn (yoeOf doe) ≤ doe ∧ doe < yearEnd (yoeOf doe) := by
  classical
  set y := Nat.findGreatest (fun y => dbFn y ≤ doe) 399 with hy
  have hP : dbFn y ≤ doe := by
    have := Nat.findGreatest_spec (P := fun y => dbFn y ≤ doe) (m := 0) (n := 399)
      (by omega) (by simp [dbFn])
    simpa [hy] using this
  have hyle : y ≤ 399 := Nat.findGreatest_le 399
  have hUp : doe < yearEnd y := by
    by_cases hcase : y = 399
    · rw [hcase]
      simpa [yearEnd] using h
    · have hlt : y + 1 ≤ 399 := by omega
      have := Nat.findGreatest_is_greatest (P := fun y => dbFn y ≤ doe)
        (k := y + 1) (by omega) hlt
      simp only [yearEnd, if_neg (by omega : ¬ y = 399)]
      omega
  have hyeq : yoeOf doe = y := by
    have hlow : y ≤ yoeOf doe := by
      have he := (yoeOf_endpoints y (by omega)).1
      calc y = yoeOf (dbFn y) := he.symm
        _ ≤ yoeOf doe := yoeOf_mono hP
    have hhigh : yoeOf doe ≤ y := by
      have he := (yoeOf_endpoints y (by omega)).2
      calc yoeOf doe ≤ yoeOf (yearEnd y - 1) := yoeOf_mono (by omega)
        _ = y := he
    omega
  rw [hyeq]
  exact ⟨by omega, hP, hUp⟩

/-- Adjacent-day strict monotonicity of the within-era value. -/
theorem hVal_mono_adj (doe : Nat) (h : doe < 146096) : hVal doe < hVal (doe + 1) := by
  obtain ⟨hy1lt, hy1lo, hy1hi⟩ := yoe_bracket doe (by omega)
  obtain ⟨hy2lt, hy2lo, hy2hi⟩ := yoe_bracket (doe + 1) (by omega)
  have hyle : yoeOf doe ≤ yoeOf (doe + 1) := yoeOf_mono (by omega)
  obtain ⟨hs1, hs2⟩ := dbFn_steps (yoeOf doe) hy1lt
  obtain ⟨hs1', hs2'⟩ := dbFn_steps (yoeOf (doe + 1)) hy2lt
  have hdoy1 : doe - dbFn (yoeOf doe) < 366 := by omega
  have hdoy2 : doe + 1 - dbFn (yoeOf (doe + 1)) < 366 := by omega
  rcases Nat.eq_or_lt_of_le hyle with heq | hlt
  · -- same year: day-of-year steps by one
    unfold hVal
    rw [← heq]
    have hstep : doe + 1 - dbFn (yoeOf doe) = (doe - dbFn (yoeOf doe)) + 1 := by omega
    rw [hstep]
    have hg := gFn_mono_adj (doe - dbFn (yoeOf doe)) (by rw [heq] at hdoy1 ⊢; omega)
    omega
  · -- next year (or later): use the value bounds
    unfold hVal
    have hgb1 := (gFn_bounds (doe - dbFn (yoeOf doe)) hdoy1).2
    have hgb2 := (gFn_bounds (doe + 1 - dbFn (yoeOf (doe + 1))) hdoy2).1
    nlinarith [hlt, hgb1, hgb2]

/-- Within-era value bounds. -/
theorem hVal_bounds (doe : Nat) (h : doe < 146097) :
    301 ≤ hVal doe ∧ hVal doe ≤ 4000229 := by
  obtain ⟨hylt, hylo, hyhi⟩ := yoe_bracket doe h
  obtain ⟨hs1, hs2⟩ := dbFn_steps (yoeOf doe) hylt
  have hdoy : doe - dbFn (yoeOf doe) < 366 := by omega
  obtain ⟨hg1, hg2⟩ := gFn_bounds (doe - dbFn (yoeOf doe)) hdoy
  unfold hVal
  constructor
  · omega
  · nlinarith [hylt, hg2]

/-- `dateIntOfDays` splits into the era part and the within-era value. -/
theorem dateIntOfDays_decomp (z : Int) :
    dateIntOfDays z =
      (z + 719468) / 146097 * 4000000 +
        (hVal ((z + 719468 - (z + 719468) / 146097 * 146097).toNat) : Int) := by
  unfold dateIntOfDays civilFromDays hVal gFn
  simp only []
  set doe := ((z + 719468) - (z + 719468) / 146097 * 146097).toNat with hdoe
  set yoe := yoeOf doe with hyoe
  set doy := doe - dbFn yoe with hdoy
  set mp := (5 * doy + 2) / 153 with hmp
  set d := doy - (153 * mp + 2) / 5 + 1 with hd
  set m := (if mp < 10 then mp + 3 else mp - 9 : Nat) with hm
  by_cases hm2 : m ≤ 2
  · simp only [hm2, if_pos]
    push_cast
    ring
  · simp only [hm2, if_neg, if_false]
    push_cast
    ring


theorem dateIntOfDays_mono_adj (z : Int) : dateIntOfDays z < dateIntOfDays (z + 1) := by
  rw [dateIntOfDays_decomp z, dateIntOfDays_decomp (z + 1)]
  by_cases hr : z + 719468 - (z + 719468) / 146097 * 146097 < 146096
  · have hera : (z + 1 + 719468) / 146097 = (z + 719468) / 146097 := by omega
    rw [hera]
    have hdoe : (z + 1 + 719468 - (z + 719468) / 146097 * 146097).toNat =
        (z + 719468 - (z + 719468) / 146097 * 146097).toNat + 1 := by omega
    rw [hdoe]
    have hlt := hVal_mono_adj ((z + 719468 - (z + 719468) / 146097 * 146097).toNat)
      (by omega)
    omega
  · have hrr : z + 719468 - (z + 719468) / 146097 * 146097 = 146096 := by omega
    have hera : (z + 1 + 719468) / 146097 = (z + 719468) / 146097 + 1 := by omega
    rw [hera]
    have hdoe : (z + 1 + 719468 - ((z + 719468) / 146097 + 1) * 146097).toNat = 0 := by
      omega
    rw [hdoe, hrr]
    have h1 : hVal 146096 = 4000229 := by decide
    have h2 : hVal 0 = 301 := by decide
    rw [show ((146096 : Int)).toNat = 146096 from rfl, h1, h2]
    omega

theorem dateIntOfDays_mono_addNat (z : Int) :
    ∀ k : Nat, dateIntOfDays z < dateIntOfDays (z + k + 1) := by
  intro k
  induction k with
  | zero => simpa using dateIntOfDays_mono_adj z
  | succ k ih =>
    calc dateIntOfDays z < dateIntOfDays (z + k + 1) := ih
      _ < dateIntOfDays (z + k + 1 + 1) := dateIntOfDays_mono_adj (z + k + 1)
      _ = dateIntOfDays (z + (k + 1) + 1) := by ring_nf

/-- Strict monotonicity of the packed date int in the day number. -/
theorem dateIntOfDays_strictMono {z1 z2 : Int} (h : z1 < z2) :
    dateIntOfDays z1 < dateIntOfDays z2 := by
  have hk : z2 = z1 + ((z2 - z1 - 1).toNat : Int) + 1 := by omega
  rw [hk]
  exact dateIntOfDays_mono_addNat z1 (z2 - z1 - 1).toNat


/-- Non-strict monotonicity of the packed date int in the timestamp. -/
theorem dateIntOf_mono {t1 t2 : Int} (h : t1 ≤ t2) : dateIntOf t1 ≤ dateIntOf t2 := by
  rw [dateIntOf_eq, dateIntOf_eq]
  have hz : t1 / microsPerDay ≤ t2 / microsPerDay :=
    Int.ediv_le_ediv (by unfold microsPerDay; omega) h
  rcases eq_or_lt_of_le hz with heq | hlt
  · rw [heq]
  · exact le_of_lt (dateIntOfDays_strictMono hlt)

theorem dateIntOf_upper {ts : Int} (h : tsValid ts = true) : dateIntOf ts ≤ 99991231 := by
  have hub : ts ≤ maxMicros := by
    unfold tsValid at h
    simp only [Bool.and_eq_true, decide_eq_true_eq] at h
    exact h.2
  have hMD : daysFromCivil 10000 1 1 = 2932897 := by decide
  have hmax : maxMicros = 2932897 * microsPerDay - 1 := by
    unfold maxMicros
    rw [hMD]
  have hz : ts / microsPerDay ≤ 2932896 := by
    have : ts ≤ 2932897 * microsPerDay - 1 := by omega
    unfold microsPerDay at this ⊢
    omega
  have hend : dateIntOfDays 2932896 = 99991231 := by decide
  rw [dateIntOf_eq]
  rcases eq_or_lt_of_le hz with heq | hlt
  · rw [heq, hend]
  · have := dateIntOfDays_strictMono hlt
    omega

/-! ## Digit strings

`natDigits` is fuel-structured; these lemmas recover its recursive
structure and the explicit digit form of zero-padded numerals. -/

/-- The ASCII digit character of `x` (`x < 10` in every use). -/
def digCh (x : Nat) : Char := Char.ofNat (48 + x)

theorem natDigitsGo_succ (fuel n : Nat) (acc : List Char) :
    natDigitsGo (fuel + 1) n acc =
      if n < 10 then Char.ofNat (48 + n % 10) :: acc
      else natDigitsGo fuel (n / 10) (Char.ofNat (48 + n % 10) :: acc) := by
  simp only [natDigitsGo]

theorem natDigitsGo_append :
    ∀ (fuel n : Nat) (acc : List Char),
      natDigitsGo fuel n acc = natDigitsGo fuel n [] ++ acc := by
  intro fuel
  induction fuel with
  | zero => intro n acc; rfl
  | succ fuel ih =>
    intro n acc
    by_cases h : n < 10
    · rw [natDigitsGo_succ, natDigitsGo_succ, if_pos h, if_pos h]
      rfl
    · rw [natDigitsGo_succ, natDigitsGo_succ, if_neg h, if_neg h,
        ih (n / 10) (Char.ofNat (48 + n % 10) :: acc),
        ih (n / 10) [Char.ofNat (48 + n % 10)], List.append_assoc]
      rfl

theorem natDigitsGo_eq_natDigits :
    ∀ (n fuel : Nat), n < fuel → natDigitsGo fuel n [] = natDigits n := by
  intro n
  induction n using Nat.strong_induction_on with
  | _ n ih =>
    intro fuel hf
    match fuel, hf with
    | fuel + 1, hf =>
      by_cases h : n < 10
      · rw [natDigitsGo_succ, if_pos h]
        unfold natDigits
        rw [natDigitsGo_succ, if_pos h]
      · have hd : n / 10 < n := Nat.div_lt_self (by omega) (by omega)
        have lhs : natDigitsGo (fuel + 1) n [] =
            natDigits (n / 10) ++ [Char.ofNat (48 + n % 10)] := by
          rw [natDigitsGo_succ, if_neg h, natDigitsGo_append,
            ih (n / 10) hd fuel (by omega)]
        have rhs : natDigits n =
            natDigits (n / 10) ++ [Char.ofNat (48 + n % 10)] := by
          show natDigitsGo (n + 1) n [] = _
          rw [natDigitsGo_succ, if_neg h, natDigitsGo_append,
            ih (n / 10) hd n (by omega)]
        rw [lhs, rhs]

theorem natDigits_small {n : Nat} (h : n < 10) : natDigits n = [digCh n] := by
  have hmod : n % 10 = n := Nat.mod_eq_of_lt h
  unfold natDigits
  rw [natDigitsGo_succ, if_pos h, hmod]
  rfl

theorem natDigits_step {n : Nat} (h : 10 ≤ n) :
    natDigits n = natDigits (n / 10) ++ [digCh (n % 10)] := by
  have hd : n / 10 < n := Nat.div_lt_self (by omega) (by omega)
  show natDigitsGo (n + 1) n [] = _
  rw [natDigitsGo_succ, if_neg (by omega), natDigitsGo_append,
    natDigitsGo_eq_natDigits (n / 10) n (by omega)]
  rfl


/-- Decimal digits of `n`, zero-padded on the left to width `w`. -/
def natPad (w n : Nat) : List Char := padZeros w (natDigits n)

theorem fmtW_ofNat (w : Nat) (x : Int) (h : 0 ≤ x) : fmtW w x = natPad w x.toNat := by
  unfold fmtW natPad
  rw [if_neg (not_lt.2 h)]
  congr 2
  omega

theorem digCh_toNat : ∀ x < 10, (digCh x).toNat = 48 + x := by decide

theorem zeroCh : digCh 0 = '0' := rfl

theorem natPad2_shape {n : Nat} (h : n < 100) :
    natPad 2 n = [digCh (n / 10), digCh (n % 10)] := by
  by_cases h1 : n < 10
  · have h2 : n / 10 = 0 := by omega
    have h3 : n % 10 = n := by omega
    unfold natPad padZeros
    rw [natDigits_small h1, h2, h3]
    rfl
  · unfold natPad padZeros
    rw [natDigits_step (by omega), natDigits_small (by omega : n / 10 < 10)]
    rfl

theorem natPad4_shape {n : Nat} (h : n < 10000) :
    natPad 4 n =
      [digCh (n / 1000), digCh (n / 100 % 10), digCh (n / 10 % 10), digCh (n % 10)] := by
  have hdd : n / 10 / 10 = n / 100 := by omega
  have hddd : n / 100 / 10 = n / 1000 := by omega
  by_cases h1 : n < 10
  · have e1 : n / 1000 = 0 := by omega
    have e2 : n / 100 % 10 = 0 := by omega
    have e3 : n / 10 % 10 = 0 := by omega
    have e4 : n % 10 = n := by omega
    unfold natPad padZeros
    rw [natDigits_small h1, e1, e2, e3, e4]
    rfl
  by_cases h2 : n < 100
  · have e1 : n / 1000 = 0 := by omega
    have e2 : n / 100 % 10 = 0 := by omega
    have e3 : n / 10 % 10 = n / 10 := by omega
    unfold natPad padZeros
    rw [natDigits_step (by omega), natDigits_small (by omega : n / 10 < 10), e1, e2, e3]
    rfl
  by_cases h3 : n < 1000
  · have e1 : n / 1000 = 0 := by omega
    have e2 : n / 100 % 10 = n / 100 := by omega
    unfold natPad padZeros
    rw [natDigits_step (by omega), natDigits_step (by omega : 10 ≤ n / 10), hdd,
      natDigits_small (by omega : n / 100 < 10), e1, e2]
    rfl
  · unfold natPad padZeros
    rw [natDigits_step (by omega), natDigits_step (by omega : 10 ≤ n / 10), hdd,
      natDigits_step (by omega : 10 ≤ n / 100), hddd,
      natDigits_small (by omega : n / 1000 < 10)]
    rfl

theorem natPad2_len {n : Nat} (h : n < 100) : (natPad 2 n).length = 2 := by
  rw [natPad2_shape h]
  rfl

theorem natPad2_lt {a b : Nat} (ha : a < 100) (hb : b < 100) (h : a < b) :
    charsLt (natPad 2 a) (natPad 2 b) = true := by
  rw [natPad2_shape ha, natPad2_shape hb]
  simp only [charsLt]
  rw [digCh_toNat (a / 10) (by omega), digCh_toNat (b / 10) (by omega),
    digCh_toNat (a % 10) (by omega), digCh_toNat (b % 10) (by omega)]
  by_cases hq : a / 10 < b / 10
  · rw [if_pos (by omega)]
  · have hqeq : a / 10 = b / 10 := by omega
    have hr : a % 10 < b % 10 := by omega
    rw [if_neg (by omega), if_neg (by omega), if_pos (by omega)]

theorem natPad4_lt {a b : Nat} (h : a < b) (hb : b < 10000) :
    charsLt (natPad 4 a) (natPad 4 b) = true := by
  rw [natPad4_shape (by omega), natPad4_shape hb]
  simp only [charsLt]
  rw [digCh_toNat (a / 1000) (by omega), digCh_toNat (b / 1000) (by omega),
    digCh_toNat (a / 100 % 10) (by omega), digCh_toNat (b / 100 % 10) (by omega),
    digCh_toNat (a / 10 % 10) (by omega), digCh_toNat (b / 10 % 10) (by omega),
    digCh_toNat (a % 10) (by omega), digCh_toNat (b % 10) (by omega)]
  by_cases h1 : a / 1000 < b / 1000
  · rw [if_pos (by omega)]
  · have e1 : a / 1000 = b / 1000 := by omega
    rw [if_neg (by omega), if_neg (by omega)]
    by_cases h2 : a / 100 % 10 < b / 100 % 10
    · rw [if_pos (by omega)]
    · have e2 : a / 100 % 10 = b / 100 % 10 := by omega
      rw [if_neg (by omega), if_neg (by omega)]
      by_cases h3 : a / 10 % 10 < b / 10 % 10
      · rw [if_pos (by omega)]
      · have e3 : a / 10 % 10 = b / 10 % 10 := by omega
        have e4 : a % 10 < b % 10 := by omega
        rw [if_neg (by omega), if_neg (by omega), if_pos (by omega)]


theorem charsLt_append_of_lt :
    ∀ (A B : List Char), charsLt A B = true → A.length = B.length →
      ∀ (C D : List Char), charsLt (A ++ C) (B ++ D) = true := by
  intro A
  induction A with
  | nil =>
    intro B h hlen
    cases B with
    | nil => cases h
    | cons b bs => simp at hlen
  | cons a as ih =>
    intro B h hlen
    cases B with
    | nil => cases h
    | cons b bs =>
      intro C D
      simp only [charsLt, List.cons_append] at h ⊢
      by_cases h1 : a.toNat < b.toNat
      · rw [if_pos h1] at h ⊢
      · rw [if_neg h1] at h ⊢
        by_cases h2 : b.toNat < a.toNat
        · rw [if_pos h2] at h; cases h
        · rw [if_neg h2] at h ⊢
          exact ih bs h (by simpa using hlen) C D

theorem charsLt_append_common :
    ∀ (A C D : List Char), charsLt (A ++ C) (A ++ D) = charsLt C D := by
  intro A
  induction A with
  | nil => intro C D; rfl
  | cons a as ih =>
    intro C D
    simp only [List.cons_append, charsLt]
    rw [if_neg (lt_irrefl a.toNat), if_neg (lt_irrefl a.toNat)]
    exact ih C D

/-- Strictly larger non-negative date ints format to strictly larger
strings (the format is `YYYY.MM.DD` with zero-padded fixed-width fields on
this range, so the lexicographic order is the numeric order). -/
theorem date_int_to_str_lt {di1 di2 : Int} (h0 : 0 ≤ di1) (h12 : di1 < di2)
    (hub : di2 < 100000000) :
    strLt (date_int_to_str di1) (date_int_to_str di2) = true := by
  obtain ⟨n1, rfl⟩ : ∃ n : Nat, di1 = (n : Int) := ⟨di1.toNat, by omega⟩
  obtain ⟨n2, rfl⟩ : ∃ n : Nat, di2 = (n : Int) := ⟨di2.toNat, by omega⟩
  have hn12 : n1 < n2 := by exact_mod_cast h12
  have hn2 : n2 < 100000000 := by exact_mod_cast hub
  have htd1 : (n1 : Int).tdiv 10000 = ((n1 / 10000 : Nat) : Int) := rfl
  have htd2 : (n2 : Int).tdiv 10000 = ((n2 / 10000 : Nat) : Int) := rfl
  have htm1 : (n1 : Int).tmod 10000 = ((n1 % 10000 : Nat) : Int) := rfl
  have htm2 : (n2 : Int).tmod 10000 = ((n2 % 10000 : Nat) : Int) := rfl
  have htm1' : (n1 : Int).tmod 100 = ((n1 % 100 : Nat) : Int) := rfl
  have htm2' : (n2 : Int).tmod 100 = ((n2 % 100 : Nat) : Int) := rfl
  have htd1' : ((n1 % 10000 : Nat) : Int).tdiv 100 = ((n1 % 10000 / 100 : Nat) : Int) := rfl
  have htd2' : ((n2 % 10000 : Nat) : Int).tdiv 100 = ((n2 % 10000 / 100 : Nat) : Int) := rfl
  unfold date_int_to_str strLt
  rw [htd1, htd2, htm1, htm2, htm1', htm2', htd1', htd2']
  rw [fmtW_ofNat 4 _ (by omega), fmtW_ofNat 4 _ (by omega),
    fmtW_ofNat 2 _ (by omega), fmtW_ofNat 2 _ (by omega),
    fmtW_ofNat 2 _ (by omega), fmtW_ofNat 2 _ (by omega)]
  simp only [Int.toNat_ofNat]
  show charsLt
    (natPad 4 (n1 / 10000) ++ '.' :: (natPad 2 (n1 % 10000 / 100) ++ '.' :: natPad 2 (n1 % 100)))
    (natPad 4 (n2 / 10000) ++ '.' :: (natPad 2 (n2 % 10000 / 100) ++ '.' :: natPad 2 (n2 % 100))) =
    true
  have hy1 : n1 / 10000 < 10000 := by omega
  have hy2 : n2 / 10000 < 10000 := by omega
  rcases Nat.lt_or_ge (n1 / 10000) (n2 / 10000) with hy | hy
  · exact charsLt_append_of_lt _ _ (natPad4_lt hy hy2)
      (by rw [natPad4_shape hy1, natPad4_shape hy2]; rfl) _ _
  · have hyeq : n1 / 10000 = n2 / 10000 := by omega
    rw [hyeq, charsLt_append_common]
    simp only [charsLt]
    rw [if_neg (lt_irrefl ('.').toNat), if_neg (lt_irrefl ('.').toNat)]
    have hm1 : n1 % 10000 / 100 < 100 := by omega
    have hm2 : n2 % 10000 / 100 < 100 := by omega
    rcases Nat.lt_or_ge (n1 % 10000 / 100) (n2 % 10000 / 100) with hm | hm
    · exact charsLt_append_of_lt _ _ (natPad2_lt hm1 hm2 hm)
        (by rw [natPad2_len hm1, natPad2_len hm2]) _ _
    · have hmeq : n1 % 10000 / 100 = n2 % 10000 / 100 := by omega
      rw [hmeq, charsLt_append_common]
      simp only [charsLt]
      rw [if_neg (lt_irrefl ('.').toNat), if_neg (lt_irrefl ('.').toNat)]
      have hd12 : n1 % 100 < n2 % 100 := by omega
      exact natPad2_lt (by omega) (by omega) hd12

end Zola

namespace Zola

/-! ## Result-length invariants -/

theorem ts_length_fill_from_partition (schema : Schema) (part : Partition)
    (row probe_idx : Nat) (st : ResultState) :
    (fill_from_partition schema part row probe_idx st).ts.length = st.ts.length := by
  unfold fill_from_partition
  cases part.get_i64 "timestamp" <;> simp

theorem ts_length_fill_from_sidecar (schema : Schema) (entry : SidecarEntry)
    (probe_idx : Nat) (st : ResultState) :
    (fill_from_sidecar schema entry probe_idx st).ts.length = st.ts.length := by
  unfold fill_from_sidecar
  simp

theorem ts_length_try_prev_sidecar (schema : Schema) (partitions : PartMap)
    (date_str : String) (sym : Int) (probe_idx : Nat) (st : ResultState) :
    (try_prev_sidecar schema partitions date_str sym probe_idx st).ts.length =
      st.ts.length := by
  rcases hpp : prev_partition partitions date_str with _ | prev
  · simp [try_prev_sidecar, hpp]
  · rcases hlv : prev.last_values with _ | lv
    · simp [try_prev_sidecar, hpp, hlv]
    · rcases hag : assocGetI lv sym with _ | entry
      · simp [try_prev_sidecar, hpp, hlv, hag]
      · simp only [try_prev_sidecar, hpp, hlv, hag]
        exact ts_length_fill_from_sidecar schema entry probe_idx st

theorem ts_length_try_next_sidecar (schema : Schema) (partitions : PartMap)
    (date_str : String) (sym : Int) (probe_idx : Nat) (st : ResultState) :
    (try_next_sidecar schema partitions date_str sym probe_idx st).ts.length =
      st.ts.length := by
  rcases hpp : next_partition partitions date_str with _ | nxt
  · simp [try_next_sidecar, hpp]
  · rcases hfv : nxt.first_values with _ | fv
    · simp [try_next_sidecar, hpp, hfv]
    · rcases hag : assocGetI fv sym with _ | entry
      · simp [try_next_sidecar, hpp, hfv, hag]
      · simp only [try_next_sidecar, hpp, hfv, hag]
        exact ts_length_fill_from_sidecar schema entry probe_idx st

theorem ts_length_backward_lookup (schema : Schema) (partitions : PartMap)
    (date_str : String) (sym ts : Int) (probe_idx : Nat) (st : ResultState) :
    (backward_lookup schema partitions date_str sym ts probe_idx st).ts.length =
      st.ts.length := by
  rcases hgp : assocGet partitions date_str with _ | part
  · simp [backward_lookup, hgp]
  · rcases hsr : part.symbol_range sym with _ | range
    · simp only [backward_lookup, hgp, hsr]
      exact ts_length_try_prev_sidecar schema partitions date_str sym probe_idx st
    · rcases hgt : part.get_i64 "timestamp" with _ | timestamps
      · simp [backward_lookup, hgp, hsr, hgt]
      · by_cases hp : partitionPoint ((timestamps.drop range.1).take (range.2 - range.1))
            (fun t => t ≤ ts) = 0
        · simp only [backward_lookup, hgp, hsr, hgt, hp, if_pos rfl]
          exact ts_length_try_prev_sidecar schema partitions date_str sym probe_idx st
        · simp only [backward_lookup, hgp, hsr, hgt, hp, if_false]
          exact ts_length_fill_from_partition schema part _ probe_idx st

theorem ts_length_forward_lookup (schema : Schema) (partitions : PartMap)
    (date_str : String) (sym ts : Int) (probe_idx : Nat) (st : ResultState) :
    (forward_lookup schema partitions date_str sym ts probe_idx st).ts.length =
      st.ts.length := by
  rcases hgp : assocGet partitions date_str with _ | part
  · simp [forward_lookup, hgp]
  · rcases hsr : part.symbol_range sym with _ | range
    · simp only [forward_lookup, hgp, hsr]
      exact ts_length_try_next_sidecar schema partitions date_str sym probe_idx st
    · rcases hgt : part.get_i64 "timestamp" with _ | timestamps
      · simp [forward_lookup, hgp, hsr, hgt]
      · by_cases hp : partitionPoint ((timestamps.drop range.1).take (range.2 - range.1))
            (fun t => t < ts) =
            ((timestamps.drop range.1).take (range.2 - range.1)).length
        · simp only [forward_lookup, hgp, hsr, hgt, hp, if_pos rfl]
          exact ts_length_try_next_sidecar schema partitions date_str sym probe_idx st
        · simp only [forward_lookup, hgp, hsr, hgt, hp, if_false]
          exact ts_length_fill_from_partition schema part _ probe_idx st

theorem ts_length_dirLookup (dir : Direction) (schema : Schema) (partitions : PartMap)
    (date_str : String) (sym ts : Int) (probe_idx : Nat) (st : ResultState) :
    (dirLookup dir schema partitions date_str sym ts probe_idx st).ts.length =
      st.ts.length := by
  cases dir
  · exact ts_length_backward_lookup schema partitions date_str sym ts probe_idx st
  · exact ts_length_forward_lookup schema partitions date_str sym ts probe_idx st

theorem ts_length_asofLoop (schema : Schema) (partitions : PartMap) (dir : Direction)
    (symbols timestamps : List Int) :
    ∀ (idxs : List Nat) (st st' : ResultState),
      asofLoop schema partitions dir symbols timestamps idxs st = .ok st' →
      st'.ts.length = st.ts.length := by
  intro idxs
  induction idxs with
  | nil => intro st st' h; injection h with h; rw [← h]
  | cons j rest ih =>
    intro st st' h
    simp only [asofLoop] at h
    cases hp : asofProbe schema partitions dir (symbols.getD j 0) (timestamps.getD j 0) j st with
    | error e => rw [hp] at h; cases h
    | ok st2 =>
      rw [hp] at h
      have h2 := ih st2 st' h
      have h3 : st2.ts.length = st.ts.length := by
        unfold asofProbe at hp
        cases hd : micros_to_date_str (timestamps.getD j 0) with
        | error e => rw [hd] at hp; cases hp
        | ok d =>
          rw [hd] at hp
          cases dir
          · simp only [] at hp
            injection hp with hp
            rw [← hp]
            exact ts_length_backward_lookup schema partitions d _ _ j st
          · simp only [] at hp
            injection hp with hp
            rw [← hp]
            exact ts_length_forward_lookup schema partitions d _ _ j st
      rw [h2, h3]

end Zola

namespace Zola

/-! ## C1: bounds on non-null results -/

theorem micros_to_date_str_ok_elim {t : Int} {s : String}
    (h : micros_to_date_str t = .ok s) : tsValid t = true ∧ s = dateStrOf t := by
  cases hv : tsValid t
  · rw [micros_to_date_str, micros_to_date_int_err hv] at h
    cases h
  · rw [micros_to_date_str_ok hv] at h
    injection h with h
    exact ⟨rfl, h.symm⟩

/-- The claim's assumption that a partition's rows and sidecar entries all
carry the partition's own UTC date (the date string under its key). -/
def partitionRowsDated (k : String) (p : Partition) : Prop :=
  (∀ tcol, p.get_i64 "timestamp" = some tcol →
    ∀ t ∈ tcol, micros_to_date_str t = .ok k) ∧
  (∀ lv, p.last_values = some lv → ∀ kv ∈ lv, micros_to_date_str kv.2.ts = .ok k) ∧
  (∀ fv, p.first_values = some fv → ∀ kv ∈ fv, micros_to_date_str kv.2.ts = .ok k)

/-- The claim's assumption that each symbol's timestamp range is sorted
ascending (and in bounds). -/
def partitionRangesSorted (p : Partition) : Prop :=
  ∀ sym s e tcol, p.symbol_range sym = some (s, e) →
    p.get_i64 "timestamp" = some tcol →
    e ≤ tcol.length ∧ List.Sorted (· ≤ ·) ((tcol.drop s).take (e - s))

/-- The amendment's extra assumption: sidecar timestamps fall on
non-negative-year dates (year 0 or later), where the `YYYY.MM.DD` key
format is order-preserving. -/
def nonnegYearSidecars (p : Partition) : Prop :=
  (∀ lv, p.last_values = some lv → ∀ kv ∈ lv, 0 ≤ dateIntOf kv.2.ts) ∧
  (∀ fv, p.first_values = some fv → ∀ kv ∈ fv, 0 ≤ dateIntOf kv.2.ts)

theorem try_prev_sidecar_ts_bound (schema : Schema) (partitions : PartMap)
    (sym probeTs : Int) (probe_idx : Nat) (st : ResultState)
    (hW : ∀ kp ∈ partitions, partitionRowsDated kp.1 kp.2 ∧ nonnegYearSidecars kp.2)
    (hnp : 0 ≤ dateIntOf probeTs)
    (hi : probe_idx < st.ts.length) :
    tsAt (try_prev_sidecar schema partitions (dateStrOf probeTs) sym probe_idx st)
        probe_idx = tsAt st probe_idx ∨
      tsAt (try_prev_sidecar schema partitions (dateStrOf probeTs) sym probe_idx st)
        probe_idx ≤ probeTs := by
  rcases hpp : prev_partition partitions (dateStrOf probeTs) with _ | prev
  · left; simp [try_prev_sidecar, hpp]
  · -- identify the neighbor's binding
    have hpp0 := hpp
    unfold prev_partition at hpp
    rcases hmb : maxBelow (dateStrOf probeTs) partitions with _ | kv
    · rw [hmb] at hpp; cases hpp
    rw [hmb] at hpp
    injection hpp with hpp
    have hpp2 : kv.2 = prev := hpp
    obtain ⟨hmem, hklt, _⟩ := (maxBelow_spec (dateStrOf probeTs) partitions).2 kv hmb
    rcases hlv : prev.last_values with _ | lv
    · left; simp [try_prev_sidecar, hpp0, hlv]
    rcases hag : assocGetI lv sym with _ | entry
    · left; simp [try_prev_sidecar, hpp0, hlv, hag]
    right
    have hres : tsAt (try_prev_sidecar schema partitions (dateStrOf probeTs) sym
        probe_idx st) probe_idx = entry.ts := by
      simp only [try_prev_sidecar, hpp0, hlv, hag]
      unfold fill_from_sidecar tsAt
      simp only []
      exact getD_set_self _ hi _ _
    rw [hres]
    -- the sidecar entry is a member of the neighbor's map
    have hentrymem : ∃ key, (key, entry) ∈ lv := by
      unfold assocGetI at hag
      cases hfind : lv.find? (fun kv => kv.1 = sym) with
      | none => rw [hfind] at hag; cases hag
      | some kv2 =>
        rw [hfind] at hag
        injection hag with hag
        have hag2 : kv2.2 = entry := hag
        have := List.mem_of_find?_eq_some hfind
        exact ⟨kv2.1, by rw [← hag2]; simpa using this⟩
    obtain ⟨key, hkeymem⟩ := hentrymem
    obtain ⟨⟨_, hdatedlv, _⟩, ⟨hnneglv, _⟩⟩ := hW kv hmem
    have hdated := hdatedlv lv (by rw [hpp2]; exact hlv) (key, entry) hkeymem
    have hnneg := hnneglv lv (by rw [hpp2]; exact hlv) (key, entry) hkeymem
    obtain ⟨hvalid', hkeq⟩ := micros_to_date_str_ok_elim hdated
    by_contra hgt
    push_neg at hgt
    have hdle : dateIntOf probeTs ≤ dateIntOf entry.ts := dateIntOf_mono (le_of_lt hgt)
    rcases eq_or_lt_of_le hdle with heq | hlt
    · have : kv.1 = dateStrOf probeTs := by
        rw [hkeq]
        unfold dateStrOf
        rw [heq]
      rw [this] at hklt
      rw [strLt_irrefl] at hklt
      cases hklt
    · have hstr : strLt (dateStrOf probeTs) (dateStrOf entry.ts) = true := by
        unfold dateStrOf
        exact date_int_to_str_lt hnp hlt (by
          have hub2 : dateIntOf entry.ts ≤ 99991231 := dateIntOf_upper hvalid'
          omega)
      rw [hkeq] at hklt
      rw [strLt_asymm hstr] at hklt
      cases hklt

theorem try_next_sidecar_ts_bound (schema : Schema) (partitions : PartMap)
    (sym probeTs : Int) (probe_idx : Nat) (st : ResultState)
    (hW : ∀ kp ∈ partitions, partitionRowsDated kp.1 kp.2 ∧ nonnegYearSidecars kp.2)
    (hnp : 0 ≤ dateIntOf probeTs)
    (hub : dateIntOf probeTs ≤ 99991231)
    (hi : probe_idx < st.ts.length) :
    tsAt (try_next_sidecar schema partitions (dateStrOf probeTs) sym probe_idx st)
        probe_idx = tsAt st probe_idx ∨
      probeTs ≤ tsAt (try_next_sidecar schema partitions (dateStrOf probeTs) sym
        probe_idx st) probe_idx := by
  rcases hpp : next_partition partitions (dateStrOf probeTs) with _ | nxt
  · left; simp [try_next_sidecar, hpp]
  · have hpp0 := hpp
    unfold next_partition at hpp
    rcases hmb : minAbove (dateStrOf probeTs) partitions with _ | kv
    · rw [hmb] at hpp; cases hpp
    rw [hmb] at hpp
    injection hpp with hpp
    have hpp2 : kv.2 = nxt := hpp
    obtain ⟨hmem, hklt, _⟩ := (minAbove_spec (dateStrOf probeTs) partitions).2 kv hmb
    rcases hfv : nxt.first_values with _ | fv
    · left; simp [try_next_sidecar, hpp0, hfv]
    rcases hag : assocGetI fv sym with _ | entry
    · left; simp [try_next_sidecar, hpp0, hfv, hag]
    right
    have hres : tsAt (try_next_sidecar schema partitions (dateStrOf probeTs) sym
        probe_idx st) probe_idx = entry.ts := by
      simp only [try_next_sidecar, hpp0, hfv, hag]
      unfold fill_from_sidecar tsAt
      simp only []
      exact getD_set_self _ hi _ _
    rw [hres]
    have hentrymem : ∃ key, (key, entry) ∈ fv := by
      unfold assocGetI at hag
      cases hfind : fv.find? (fun kv => kv.1 = sym) with
      | none => rw [hfind] at hag; cases hag
      | some kv2 =>
        rw [hfind] at hag
        injection hag with hag
        have hag2 : kv2.2 = entry := hag
        have := List.mem_of_find?_eq_some hfind
        exact ⟨kv2.1, by rw [← hag2]; simpa using this⟩
    obtain ⟨key, hkeymem⟩ := hentrymem
    obtain ⟨⟨_, _, hdatedfv⟩, ⟨_, hnnegfv⟩⟩ := hW kv hmem
    have hdated := hdatedfv fv (by rw [hpp2]; exact hfv) (key, entry) hkeymem
    have hnneg := hnnegfv fv (by rw [hpp2]; exact hfv) (key, entry) hkeymem
    obtain ⟨hvalid', hkeq⟩ := micros_to_date_str_ok_elim hdated
    by_contra hgt
    push_neg at hgt
    have hdle : dateIntOf entry.ts ≤ dateIntOf probeTs := dateIntOf_mono (le_of_lt hgt)
    rcases eq_or_lt_of_le hdle with heq | hlt
    · have : kv.1 = dateStrOf probeTs := by
        rw [hkeq]
        unfold dateStrOf
        rw [heq]
      rw [this] at hklt
      rw [strLt_irrefl] at hklt
      cases hklt
    · have hstr : strLt (dateStrOf entry.ts) (dateStrOf probeTs) = true := by
        unfold dateStrOf
        exact date_int_to_str_lt hnneg hlt (by omega)
      rw [hkeq] at hklt
      rw [strLt_asymm hstr] at hklt
      cases hklt

end Zola

namespace Zola

theorem assocGet_mem {β : Type} {l : List (String × β)} {k : String} {v : β}
    (h : assocGet l k = some v) : (k, v) ∈ l := by
  unfold assocGet at h
  cases hfind : l.find? (fun kv => kv.1 = k) with
  | none => rw [hfind] at h; cases h
  | some kv =>
    rw [hfind] at h
    injection h with h
    have h2 : kv.2 = v := h
    have hmem := List.mem_of_find?_eq_some hfind
    have hpred := List.find?_some hfind
    have hk : kv.1 = k := by simpa using hpred
    have : (k, v) = kv := by
      rw [← hk, ← h2]
    rw [this]
    exact hmem

/-- C1, amended: for every asof query and every probe with a non-null
result, the returned timestamp is on the probe's side of the probe
timestamp — `<=` for Backward, `>=` for Forward — whether the row came
from the probe's own partition or from a neighbor's sidecar; assuming the
claim's partition well-formedness (each partition's rows and sidecar
entries carry that partition's UTC date, each symbol's timestamp range is
sorted ascending and in bounds) and, additionally, that the probe's and
the sidecars' dates have non-negative years (for negative years the
`YYYY.MM.DD` keys produced by the Rust formatting are not ordered like the
dates, and the bound fails — see the counterexample). -/
theorem asof_result_ts_bounds (schema : Schema) (partitions : PartMap)
    (symbols timestamps : List Int) (dir : Direction) (i : Nat)
    (hi : i < symbols.length)
    (hvalid : ∀ j, j < symbols.length → tsValid (timestamps.getD j 0) = true)
    (hW : ∀ kp ∈ partitions, partitionRowsDated kp.1 kp.2 ∧
      partitionRangesSorted kp.2 ∧ nonnegYearSidecars kp.2)
    (hnp : 0 ≤ dateIntOf (timestamps.getD i 0)) :
    ∃ res, asof_join schema partitions symbols timestamps dir = .ok res ∧
      (tsAt res i ≠ NULL_I64 →
        (dir = .backward → tsAt res i ≤ timestamps.getD i 0) ∧
        (dir = .forward → timestamps.getD i 0 ≤ tsAt res i)) := by
  have hW2 : ∀ kp ∈ partitions, partitionRowsDated kp.1 kp.2 ∧
      nonnegYearSidecars kp.2 := fun kp hkp => ⟨(hW kp hkp).1, (hW kp hkp).2.2⟩
  have hvts : tsValid (timestamps.getD i 0) = true := hvalid i hi
  have hub : dateIntOf (timestamps.getD i 0) ≤ 99991231 := dateIntOf_upper hvts
  obtain ⟨hcells0, hts0⟩ := cellsAt_initResult schema symbols.length i hi
  unfold asof_join
  rw [range_split hi, asofLoop_append]
  obtain ⟨st1, hst1, hts1, _⟩ :=
    asofLoop_ok_frame schema partitions dir symbols timestamps i (List.range i)
      (initResult schema symbols.length)
      (fun j hj => hvalid j (lt_trans (List.mem_range.1 hj) hi))
      (fun j hj => Nat.ne_of_lt (List.mem_range.1 hj))
  rw [hst1]
  have hst1len : st1.ts.length = symbols.length := by
    have := ts_length_asofLoop schema partitions dir symbols timestamps
      (List.range i) (initResult schema symbols.length) st1 hst1
    simpa [initResult] using this
  have hilen : i < st1.ts.length := by omega
  have hst1null : tsAt st1 i = NULL_I64 := by rw [hts1, hts0]
  simp only [asofLoop, asofProbe_ok hvts]
  obtain ⟨st3, hst3, hts3, _⟩ :=
    asofLoop_ok_frame schema partitions dir symbols timestamps i
      ((List.range (symbols.length - i - 1)).map (fun k => i + 1 + k))
      (dirLookup dir schema partitions (dateStrOf (timestamps.getD i 0))
        (symbols.getD i 0) (timestamps.getD i 0) i st1)
      (fun j hj => by
        obtain ⟨k, hk, rfl⟩ := List.mem_map.1 hj
        exact hvalid _ (by have := List.mem_range.1 hk; omega))
      (fun j hj => by
        obtain ⟨k, hk, rfl⟩ := List.mem_map.1 hj
        omega)
  refine ⟨st3, hst3, ?_⟩
  rw [hts3]
  -- it remains to bound the probe's own lookup
  intro hnonnull
  cases dir with
  | backward =>
    refine ⟨fun _ => ?_, fun hcontra => by cases hcontra⟩
    simp only [dirLookup] at hnonnull ⊢
    rcases hgp : assocGet partitions (dateStrOf (timestamps.getD i 0)) with _ | part
    · rw [backward_lookup, hgp] at hnonnull ⊢
      exact absurd hst1null hnonnull
    have hmem := assocGet_mem hgp
    have hsorted := (hW _ hmem).2.1
    rcases hsr : part.symbol_range (symbols.getD i 0) with _ | range
    · simp only [backward_lookup, hgp, hsr] at hnonnull ⊢
      rcases try_prev_sidecar_ts_bound schema partitions (symbols.getD i 0)
        (timestamps.getD i 0) i st1 hW2 hnp hilen with heq | hle
      · rw [heq, hst1null] at hnonnull; exact absurd rfl hnonnull
      · exact hle
    rcases hgt : part.get_i64 "timestamp" with _ | tcol
    · simp only [backward_lookup, hgp, hsr, hgt] at hnonnull ⊢
      exact absurd hst1null hnonnull
    obtain ⟨hbound, hslice⟩ := hsorted (symbols.getD i 0) range.1 range.2 tcol
      (by rw [hsr]) hgt
    obtain ⟨hple, hpall, _⟩ :=
      partitionPoint_le_sorted ((tcol.drop range.1).take (range.2 - range.1))
        (timestamps.getD i 0) hslice
    by_cases hp : partitionPoint ((tcol.drop range.1).take (range.2 - range.1))
        (fun t => t ≤ timestamps.getD i 0) = 0
    · simp only [backward_lookup, hgp, hsr, hgt, hp, if_pos rfl, ite_true]
        at hnonnull ⊢
      rcases try_prev_sidecar_ts_bound schema partitions (symbols.getD i 0)
        (timestamps.getD i 0) i st1 hW2 hnp hilen with heq | hle
      · rw [heq, hst1null] at hnonnull; exact absurd rfl hnonnull
      · exact hle
    · simp only [backward_lookup, hgp, hsr, hgt, hp, if_false] at hnonnull ⊢
      rw [tsAt_fill_from_partition schema part _ i st1 tcol hgt hilen] at hnonnull ⊢
      have hlen := length_slice tcol range.1 range.2 hbound
      rw [hlen] at hple
      set pos := partitionPoint ((tcol.drop range.1).take (range.2 - range.1))
        (fun t => t ≤ timestamps.getD i 0) with hposdef
      have hposge : 1 ≤ pos := by omega
      have hval := hpall (pos - 1) (by omega)
      rw [getD_slice tcol range.1 range.2 (pos - 1) (by omega) hbound] at hval
      have hrw : range.1 + pos - 1 = range.1 + (pos - 1) := by omega
      rw [hrw]
      exact hval
  | forward =>
    refine ⟨fun hcontra => (nomatch hcontra), fun _ => ?_⟩
    simp only [dirLookup] at hnonnull ⊢
    rcases hgp : assocGet partitions (dateStrOf (timestamps.getD i 0)) with _ | part
    · rw [forward_lookup, hgp] at hnonnull ⊢
      exact absurd hst1null hnonnull
    have hmem := assocGet_mem hgp
    have hsorted := (hW _ hmem).2.1
    rcases hsr : part.symbol_range (symbols.getD i 0) with _ | range
    · simp only [forward_lookup, hgp, hsr] at hnonnull ⊢
      rcases try_next_sidecar_ts_bound schema partitions (symbols.getD i 0)
        (timestamps.getD i 0) i st1 hW2 hnp hub hilen with heq | hge
      · rw [heq, hst1null] at hnonnull; exact absurd rfl hnonnull
      · exact hge
    rcases hgt : part.get_i64 "timestamp" with _ | tcol
    · simp only [forward_lookup, hgp, hsr, hgt] at hnonnull ⊢
      exact absurd hst1null hnonnull
    obtain ⟨hbound, hslice⟩ := hsorted (symbols.getD i 0) range.1 range.2 tcol
      (by rw [hsr]) hgt
    obtain ⟨hple, _, hpabove⟩ :=
      partitionPoint_lt_sorted ((tcol.drop range.1).take (range.2 - range.1))
        (timestamps.getD i 0) hslice
    by_cases hp : partitionPoint ((tcol.drop range.1).take (range.2 - range.1))
        (fun t => t < timestamps.getD i 0) =
        ((tcol.drop range.1).take (range.2 - range.1)).length
    · simp only [forward_lookup, hgp, hsr, hgt, hp, if_pos rfl, ite_true]
        at hnonnull ⊢
      rcases try_next_sidecar_ts_bound schema partitions (symbols.getD i 0)
        (timestamps.getD i 0) i st1 hW2 hnp hub hilen with heq | hge
      · rw [heq, hst1null] at hnonnull; exact absurd rfl hnonnull
      · exact hge
    · simp only [forward_lookup, hgp, hsr, hgt, hp, if_false] at hnonnull ⊢
      rw [tsAt_fill_from_partition schema part _ i st1 tcol hgt hilen] at hnonnull ⊢
      have hlen := length_slice tcol range.1 range.2 hbound
      set pos := partitionPoint ((tcol.drop range.1).take (range.2 - range.1))
        (fun t => t < timestamps.getD i 0) with hposdef
      have hposlt : pos < range.2 - range.1 := by
        rw [hlen] at hp hple
        omega
      have hval := hpabove pos le_rfl (by rw [hlen]; exact hposlt)
      rw [getD_slice tcol range.1 range.2 pos hposlt hbound] at hval
      exact hval

end Zola

namespace Zola

/-- A one-row, one-symbol partition fixture: one `price` word `w`, symbol
`sid`, timestamp `ts`, with matching one-entry sidecars. -/
def mkSingletonPart (sid ts : Int) (w : Nat) : Partition :=
  { columns := [("price", [w]), ("symbol", [i64ToWord sid]),
                ("timestamp", [i64ToWord ts])]
    parted := [⟨sid, 0, 1⟩]
    last_values := some [(sid, ⟨ts, [w]⟩)]
    first_values := some [(sid, ⟨ts, [w]⟩)] }

theorem mkSingletonPart_wf (key : String) (sid ts : Int) (w : Nat)
    (hlo : -(2 ^ 63) ≤ ts) (hhi : ts < 2 ^ 63)
    (hdate : micros_to_date_str ts = .ok key) :
    partitionRowsDated key (mkSingletonPart sid ts w) ∧
      partitionRangesSorted (mkSingletonPart sid ts w) := by
  constructor
  · refine ⟨?_, ?_, ?_⟩
    · intro tcol hgt
      have hgt2 : some [wordToI64 (i64ToWord ts)] = some tcol := hgt
      cases hgt2
      intro t ht
      rw [List.mem_singleton] at ht
      subst ht
      rw [wordToI64_i64ToWord ts hlo hhi]
      exact hdate
    · intro lv hl
      have hl2 : some [(sid, (⟨ts, [w]⟩ : SidecarEntry))] = some lv := hl
      cases hl2
      intro kv hkv
      rw [List.mem_singleton] at hkv
      subst hkv
      exact hdate
    · intro fv hf
      have hf2 : some [(sid, (⟨ts, [w]⟩ : SidecarEntry))] = some fv := hf
      cases hf2
      intro kv hkv
      rw [List.mem_singleton] at hkv
      subst hkv
      exact hdate
  · intro sym s e tcol hsr hgt
    by_cases h : sym = sid
    · subst h
      have hfound := symbol_range_found (mkSingletonPart sym ts w)
        (by simp [mkSingletonPart]) 0 (by simp [mkSingletonPart])
      have hfound2 : (mkSingletonPart sym ts w).symbol_range sym = some (0, 1) :=
        hfound
      rw [hfound2] at hsr
      injection hsr with hsr
      have hs : s = 0 := (Prod.mk.injEq _ _ _ _ ▸ hsr).1.symm
      have he : e = 1 := (Prod.mk.injEq _ _ _ _ ▸ hsr).2.symm
      subst hs; subst he
      have hgt2 : some [wordToI64 (i64ToWord ts)] = some tcol := hgt
      cases hgt2
      exact ⟨by simp, by simp⟩
    · have habs := symbol_range_absent (mkSingletonPart sid ts w) sym
        (by intro en hen
            have hen2 : en = (⟨sid, 0, 1⟩ : PartedEntry) := by
              simpa [mkSingletonPart] using hen
            subst hen2
            exact fun hc => h hc.symm)
      rw [habs] at hsr
      cases hsr

theorem mkSingletonPart_nonneg (sid ts : Int) (w : Nat)
    (hnn : 0 ≤ dateIntOf ts) : nonnegYearSidecars (mkSingletonPart sid ts w) := by
  constructor
  · intro lv hl
    have hl2 : some [(sid, (⟨ts, [w]⟩ : SidecarEntry))] = some lv := hl
    cases hl2
    intro kv hkv
    rw [List.mem_singleton] at hkv
    subst hkv
    exact hnn
  · intro fv hf
    have hf2 : some [(sid, (⟨ts, [w]⟩ : SidecarEntry))] = some fv := hf
    cases hf2
    intro kv hkv
    rw [List.mem_singleton] at hkv
    subst hkv
    exact hnn

/-- `-9998-06-15T00:00:00Z` in microseconds. -/
def negTs15 : Int := -377659324800000000

/-- `-9998-06-16T00:00:00Z` in microseconds. -/
def negTs16 : Int := -377659238400000000

/-- June 16 of year -9998: symbol 2 only.  Its partition key, as actually
produced by `date_int_to_str`, is `"-9997.-93.-84"`. -/
def exPartJun16neg : Partition := mkSingletonPart 2 negTs16 0x4059000000000000

/-- June 15 of year -9998: symbol 1 only, key `"-9997.-93.-85"`. -/
def exPartJun15neg : Partition := mkSingletonPart 1 negTs15 0x4069000000000000

/-- The negative-year store: note the *earlier* date June 15 gets the
lexicographically *larger* key. -/
def exPartsNeg : PartMap :=
  [("-9997.-93.-84", exPartJun16neg), ("-9997.-93.-85", exPartJun15neg)]

/-- C1 counterexample: in the year -9998 store, every partition's rows and
sidecar entries carry that partition's actual key and every symbol range is
sorted, yet the Forward probe for symbol 1 at `-9998-06-16T00:00Z` returns
a non-null timestamp strictly *earlier* than the probe: the own partition
lacks symbol 1, and the "next" partition by key order is chronologically
the *previous* day, whose `first_values` entry is emitted. -/
theorem asof_ts_bound_counterexample :
    (∀ kp ∈ exPartsNeg, partitionRowsDated kp.1 kp.2 ∧ partitionRangesSorted kp.2) ∧
    (∃ res, asof_join exSchema exPartsNeg [1] [negTs16] Direction.forward =
        .ok res ∧
      tsAt res 0 ≠ NULL_I64 ∧ tsAt res 0 < ([negTs16].getD 0 0 : Int)) := by
  constructor
  · intro kp hkp
    rw [exPartsNeg, List.mem_cons, List.mem_singleton] at hkp
    rcases hkp with h | h
    · subst h
      exact mkSingletonPart_wf "-9997.-93.-84" 2 negTs16 0x4059000000000000
        (by decide) (by decide) (by decide)
    · subst h
      exact mkSingletonPart_wf "-9997.-93.-85" 1 negTs15 0x4069000000000000
        (by decide) (by decide) (by decide)
  · exact ⟨⟨[negTs15], [.f64 [0x4069000000000000]]⟩, by decide, by decide, by decide⟩

/-- One-partition store for the witness: 2024-01-15, symbol 1 at 10:00:00. -/
def exPartsSingle : PartMap :=
  [("2024.01.15", mkSingletonPart 1 1705312800000000 0x4059000000000000)]

/-- Witness for the amended C1 theorem at a concrete backward query. -/
theorem asof_result_ts_bounds_witness :
    ∃ res, asof_join exSchema exPartsSingle [1] [1705312800000000]
        Direction.backward = .ok res ∧
      (tsAt res 0 ≠ NULL_I64 →
        (Direction.backward = Direction.backward →
          tsAt res 0 ≤ ([1705312800000000].getD 0 0 : Int)) ∧
        (Direction.backward = Direction.forward →
          ([1705312800000000].getD 0 0 : Int) ≤ tsAt res 0)) := by
  refine asof_result_ts_bounds exSchema exPartsSingle [1] [1705312800000000]
    Direction.backward 0 (by decide) ?_ ?_ (by decide)
  · intro j hj
    have hj0 : j = 0 := by simpa using hj
    subst hj0
    decide
  · intro kp hkp
    have hkp2 : kp =
        ("2024.01.15", mkSingletonPart 1 1705312800000000 0x4059000000000000) := by
      simpa [exPartsSingle] using hkp
    subst hkp2
    obtain ⟨h1, h2⟩ := mkSingletonPart_wf "2024.01.15" 1 1705312800000000
      0x4059000000000000 (by decide) (by decide) (by decide)
    exact ⟨h1, h2, mkSingletonPart_nonneg 1 1705312800000000 0x4059000000000000
      (by decide)⟩

end Zola

namespace Zola

/-! ## Column files at byte level (`format.rs`, `Partition::open`,
`Partition::get_i64`)

A column file is its byte list.  The 24-byte `ColumnHeader` is
`magic(u32) version(u32) col_type(u32) _pad(u32) row_count(u64)` in native
(little-endian) byte order. -/

/-- `HEADER_SIZE`: `size_of::<ColumnHeader>()`. -/
def HEADER_SIZE : Nat := 24

/-- `COLUMN_MAGIC`: `"ZOLA"`. -/
def COLUMN_MAGIC : Nat := 0x5A4F4C41

/-- Read `len` bytes at offset `off` as a little-endian unsigned integer
(missing bytes read as 0). -/
def readLE (data : List Nat) (off : Nat) : Nat → Nat
  | 0 => 0
  | l + 1 => data.getD off 0 + 256 * readLE data (off + 1) l

/-- The header's `row_count` field (bytes 16..24). -/
def colRowCount (data : List Nat) : Nat := readLE data 16 8

/-- The column-file part of `Partition::open`: fail if the file is shorter
than the header or the magic is wrong, otherwise keep the mmap (the bytes)
as the column.  (`ColumnHeader::ref_from_bytes` on a 24-byte prefix of a
page-aligned mmap never fails: every byte pattern is a valid header.) -/
def openColumnFile (name : String) (data : List Nat) :
    Except ZolaError (List Nat) :=
  if data.length < HEADER_SIZE then
    .error (.invalidFile name "file too small for header")
  else if readLE data 0 4 ≠ COLUMN_MAGIC then
    .error (.invalidFile name "bad magic")
  else
    .ok data

/-- `<[i64]>::ref_from_bytes` on the post-header bytes: groups of 8 bytes
decoded little-endian; fails iff the length is not a multiple of 8 (the
mmap offset 24 is 8-aligned, so only the size check can fail). -/
def bytesToWordsGo : List Nat → List Nat
  | b0 :: b1 :: b2 :: b3 :: b4 :: b5 :: b6 :: b7 :: rest =>
    (b0 + 256 * (b1 + 256 * (b2 + 256 * (b3 + 256 * (b4 + 256 * (b5 + 256 *
      (b6 + 256 * b7))))))) :: bytesToWordsGo rest
  | _ => []

def bytesToWords (data : List Nat) : Option (List Nat) :=
  if data.length % 8 = 0 then some (bytesToWordsGo data) else none

/-- `Partition::get_i64` against the raw file bytes: drop the header, cast
the rest to `i64`s. -/
def get_i64_file (data : List Nat) : Option (List Int) :=
  (bytesToWords (data.drop HEADER_SIZE)).map (fun ws => ws.map wordToI64)

/-- A 32-byte column file whose header declares `row_count = 100` although
its data region holds exactly one row (the i64 value 1). -/
def badRowCountFile : List Nat :=
  [0x41, 0x4C, 0x4F, 0x5A, 1] ++ List.replicate 3 0 ++
  [1] ++ List.replicate 7 0 ++ [100] ++ List.replicate 7 0 ++
  [1] ++ List.replicate 7 0

/-- A 33-byte column file with a good header but a 9-byte (misaligned)
data region. -/
def misalignedFile : List Nat :=
  [0x41, 0x4C, 0x4F, 0x5A, 1] ++ List.replicate 3 0 ++
  [1] ++ List.replicate 7 0 ++ [1] ++ List.replicate 7 0 ++
  [1] ++ List.replicate 7 0 ++ [7]

/-- C7 counterexample: `Partition::open`'s column check accepts a file
whose `row_count` field (100) disagrees with the actual row count (1), and
also accepts a file whose data region is misaligned for `i64`; neither
triggers an invalid-file error on open — the misalignment only surfaces
later as `get_i64` returning `None`. -/
theorem open_row_count_counterexample :
    openColumnFile "timestamp.col" badRowCountFile = .ok badRowCountFile ∧
    colRowCount badRowCountFile = 100 ∧
    (badRowCountFile.length - HEADER_SIZE) / 8 = 1 ∧
    get_i64_file badRowCountFile = some [1] ∧
    openColumnFile "timestamp.col" misalignedFile = .ok misalignedFile ∧
    get_i64_file misalignedFile = none := by
  refine ⟨by decide, by decide, by decide, ?_, by decide, ?_⟩
  · decide
  · decide

/-- C7, amended: `Partition::open` validates only that each column file
has at least the 24 header bytes and carries the magic; the `row_count`
field is not checked against the file size.  Misalignment of the data
region for the declared 8-byte type is detected only later, by
`get_i64` returning `None` exactly when the post-header size is not a
multiple of 8. -/
theorem open_validates_size_and_magic_only (name : String) (data : List Nat)
    (hlen : HEADER_SIZE ≤ data.length) :
    (openColumnFile name data = .ok data ↔ readLE data 0 4 = COLUMN_MAGIC) ∧
    (get_i64_file data = none ↔ (data.length - HEADER_SIZE) % 8 ≠ 0) := by
  refine ⟨?_, ?_⟩
  · unfold openColumnFile
    rw [if_neg (by omega)]
    constructor
    · intro h
      by_contra hm
      rw [if_pos hm] at h
      cases h
    · intro h
      rw [if_neg (by rw [h]; exact fun hc => hc rfl)]
  · unfold get_i64_file bytesToWords
    have hdl : (data.drop HEADER_SIZE).length = data.length - HEADER_SIZE :=
      List.length_drop _ _
    by_cases h8 : (data.length - HEADER_SIZE) % 8 = 0
    · rw [if_pos (by rw [hdl]; exact h8)]
      simp [h8]
    · rw [if_neg (by rw [hdl]; exact h8)]
      simp [h8]

/-- Witness for the amended C7 theorem at the concrete misaligned file. -/
theorem open_validates_size_and_magic_only_witness :
    (openColumnFile "x.col" misalignedFile = .ok misalignedFile ↔
      readLE misalignedFile 0 4 = COLUMN_MAGIC) ∧
    (get_i64_file misalignedFile = none ↔
      (misalignedFile.length - HEADER_SIZE) % 8 ≠ 0) :=
  open_validates_size_and_magic_only "x.col" misalignedFile (by decide)

end Zola

namespace Zola

/-! ## The write path (`write_table`)

The table directory is modelled as: does the directory exist, the
persisted `.schema` (if any), and the partition map.  `write_table`
becomes a state transition returning the new state and the `Result`.
`sort_unstable_by` is modelled as an insertion sort by the same
`(date, symbol, timestamp)` comparison (one of the permitted outcomes of
an unstable sort); the partitions a run writes are modelled by the
in-memory view `Partition::open` reads back. -/

/-- Length of a `ColumnSlice`. -/
def colLen : ColumnSlice → Nat
  | .i64 s => s.length
  | .f64 s => s.length

/-- The 8-byte word written for row `i` of a value column
(`to_ne_bytes`). -/
def colWordAt : ColumnSlice → Nat → Nat
  | .i64 s, i => i64ToWord (s.getD i 0)
  | .f64 s, i => s.getD i 0

/-- One table's directory state. -/
structure TableDirState where
  dirExists : Bool
  schemaFile : Option Schema
  partitions : PartMap
  deriving DecidableEq, Repr

/-- `BTreeMap::insert` / replacing a partition directory. -/
def mapInsert : PartMap → String → Partition → PartMap
  | [], k, p => [(k, p)]
  | (k0, p0) :: rest, k, p =>
    if k0 = k then (k, p) :: rest else (k0, p0) :: mapInsert rest k p

/-- The `(date, symbol, timestamp)` comparison of `sort_unstable_by`,
as a strict order on row indices. -/
def rowKeyLT (dateInts symbols timestamps : List Int) (a b : Nat) : Bool :=
  if dateInts.getD a 0 < dateInts.getD b 0 then true
  else if dateInts.getD b 0 < dateInts.getD a 0 then false
  else if symbols.getD a 0 < symbols.getD b 0 then true
  else if symbols.getD b 0 < symbols.getD a 0 then false
  else timestamps.getD a 0 < timestamps.getD b 0

/-- Insert an index into a sorted index list (before the first strictly
greater entry). -/
def insIdx (lt : Nat → Nat → Bool) (x : Nat) : List Nat → List Nat
  | [] => [x]
  | y :: ys => if lt x y then x :: y :: ys else y :: insIdx lt x ys

/-- `indices.sort_unstable_by(...)`: insertion sort of `0..n-1` by the
row key. -/
def sortIndices (dateInts symbols timestamps : List Int) : List Nat :=
  (List.range timestamps.length).foldl
    (fun acc i => insIdx (rowKeyLT dateInts symbols timestamps) i acc) []

/-- The grouping loop: split the index list into maximal adjacent runs
with equal date (`groups.last date == current date` in the source pushes
onto the last group exactly when the run continues, so the result is the
list of maximal runs; here built by structural recursion from the
right). -/
def groupByDate (dateInts : List Int) : List Nat → List (Int × List Nat)
  | [] => []
  | i :: rest =>
    match groupByDate dateInts rest with
    | [] => [(dateInts.getD i 0, [i])]
    | (d, g) :: gs =>
      if dateInts.getD i 0 = d then (d, i :: g) :: gs
      else (dateInts.getD i 0, [i]) :: (d, g) :: gs

/-- `build_parted_index`'s loop; `idx` is the absolute position of the
head of the remaining list. -/
def bpiGo : List Int → Int → Nat → Nat → List PartedEntry
  | [], current, start, idx => [⟨current, start, idx⟩]
  | s :: rest, current, start, idx =>
    if s ≠ current then ⟨current, start, idx⟩ :: bpiGo rest s idx (idx + 1)
    else bpiGo rest current start (idx + 1)

/-- `build_parted_index`. -/
def buildPartedIndex (syms : List Int) : List PartedEntry :=
  match syms with
  | [] => []
  | s0 :: _ => bpiGo syms s0 0 0

/-- `build_sidecar_entries`: for each parted entry take the last
(`pick_last`) or first row of its range; the stored bytes are the
timestamp word followed by one word per value column. -/
def buildSidecarEntries (parted : List PartedEntry) (sorted_ts : List Int)
    (vwords : List (List Nat)) (pick_last : Bool) : List (Int × SidecarEntry) :=
  parted.map (fun e =>
    let row := if pick_last then e.stop - 1 else e.start
    (e.symbol_id, ⟨sorted_ts.getD row 0, vwords.map (fun c => c.getD row 0)⟩))

/-- The partition one date group writes (as read back by
`Partition::open`): value columns first (a value column whose name
collides with `symbol`/`timestamp` overwrites that file), then the symbol
and timestamp columns. -/
def groupPartition (schema : Schema) (timestamps symbols : List Int)
    (columns : List ColumnSlice) (g : List Nat) : Partition :=
  let sorted_ts := g.map (fun i => timestamps.getD i 0)
  let sorted_syms := g.map (fun i => symbols.getD i 0)
  let vwords := columns.map (fun c => g.map (fun i => colWordAt c i))
  let parted := buildPartedIndex sorted_syms
  { columns := (schema.value_columns.map (fun cd => cd.name)).zip vwords ++
      [("symbol", sorted_syms.map i64ToWord),
       ("timestamp", sorted_ts.map i64ToWord)]
    parted := parted
    last_values := some (buildSidecarEntries parted sorted_ts vwords true)
    first_values := some (buildSidecarEntries parted sorted_ts vwords false) }

/-- The partition-writing loop over the date groups. -/
def writeGroups (schema : Schema) (timestamps symbols : List Int)
    (columns : List ColumnSlice) (groups : List (Int × List Nat))
    (st : TableDirState) : TableDirState :=
  groups.foldl (fun acc g =>
    { acc with partitions := mapInsert acc.partitions (date_int_to_str g.1) (groupPartition schema timestamps symbols columns g.2) }) st

/-- `write_table`: length checks, zero-row early return, directory and
`.schema` creation, per-row date keys (first invalid timestamp aborts),
sort, group by date, and one partition written per group. -/
def writeTable (st : TableDirState) (schema : Schema)
    (timestamps symbols : List Int) (columns : List ColumnSlice) :
    TableDirState × Except ZolaError Unit :=
  let n := timestamps.length
  if symbols.length ≠ n then
    (st, .error (.schemaMismatch ("timestamps len " ++ toString n ++
      " != symbols len " ++ toString symbols.length)))
  else if columns.length ≠ schema.value_columns.length then
    (st, .error (.schemaMismatch ("columns len " ++ toString columns.length ++
      " != schema len " ++ toString schema.value_columns.length)))
  else
    match (schema.value_columns.zip columns).find? (fun p =>
        decide (colLen p.2 ≠ n)) with
    | some p =>
      (st, .error (.schemaMismatch ("column " ++ p.1.name ++ " length " ++
        toString (colLen p.2) ++ " != row count " ++ toString n)))
    | none =>
      if n = 0 then (st, .ok ())
      else
        let st1 : TableDirState :=
          { dirExists := true
            schemaFile := some (st.schemaFile.getD schema)
            partitions := st.partitions }
        match timestamps.mapM micros_to_date_int with
        | .error e => (st1, .error e)
        | .ok dateInts =>
          (writeGroups schema timestamps symbols columns
            (groupByDate dateInts (sortIndices dateInts symbols timestamps)) st1,
           .ok ())

end Zola

namespace Zola

theorem mapM_date_int_err (l : List Int) (h : ∃ t ∈ l, tsValid t = false) :
    ∃ msg, l.mapM micros_to_date_int = .error (.schemaMismatch msg) := by
  induction l with
  | nil => obtain ⟨t, ht, _⟩ := h; cases ht
  | cons a l ih =>
    by_cases ha : tsValid a = true
    · obtain ⟨t, ht, hv⟩ := h
      rw [List.mem_cons] at ht
      have hl : ∃ t ∈ l, tsValid t = false := by
        rcases ht with rfl | hm
        · rw [ha] at hv; cases hv
        · exact ⟨t, hm, hv⟩
      obtain ⟨msg, hmsg⟩ := ih hl
      refine ⟨msg, ?_⟩
      rw [List.mapM_cons, micros_to_date_int_ok ha, hmsg]
      rfl
    · have ha' : tsValid a = false := by
        cases hv : tsValid a
        · rfl
        · exact absurd hv ha
      refine ⟨"invalid timestamp " ++ toString a, ?_⟩
      rw [List.mapM_cons, micros_to_date_int_err ha']
      rfl

theorem mapM_date_int_ok (l : List Int) (h : ∀ t ∈ l, tsValid t = true) :
    l.mapM micros_to_date_int = .ok (l.map dateIntOf) := by
  induction l with
  | nil => rfl
  | cons a l ih =>
    rw [List.mapM_cons, micros_to_date_int_ok (h a (List.mem_cons_self a l)),
      ih (fun t ht => h t (List.mem_cons_of_mem a ht)), List.map_cons]
    rfl

theorem writeGroups_schemaFile (schema : Schema) (timestamps symbols : List Int)
    (columns : List ColumnSlice) (groups : List (Int × List Nat))
    (st : TableDirState) :
    (writeGroups schema timestamps symbols columns groups st).schemaFile =
        st.schemaFile ∧
      (writeGroups schema timestamps symbols columns groups st).dirExists =
        st.dirExists := by
  induction groups generalizing st with
  | nil => exact ⟨rfl, rfl⟩
  | cons g gs ih =>
    rw [writeGroups, List.foldl_cons]
    exact ih _

end Zola

namespace Zola

/-- C10: `write_table` is not atomic in table-level state on error.  With
the length checks passing: a zero-row write returns `Ok` with the state
untouched (before any filesystem change), while a non-empty batch
containing an out-of-range timestamp, written against a fresh table,
first creates the table directory and persists `.schema` and only then
fails `SchemaMismatch` — leaving a directory with a `.schema` file and no
partitions behind. -/
theorem write_error_state_not_atomic (schema : Schema)
    (timestamps symbols : List Int) (columns : List ColumnSlice)
    (hn : symbols.length = timestamps.length)
    (hc : columns.length = schema.value_columns.length)
    (hlen : ∀ p ∈ schema.value_columns.zip columns,
      colLen p.2 = timestamps.length) :
    (∀ st, timestamps.length = 0 →
      writeTable st schema timestamps symbols columns = (st, .ok ())) ∧
    ((∃ t ∈ timestamps, tsValid t = false) →
      ∃ msg, writeTable ⟨false, none, []⟩ schema timestamps symbols columns =
        (⟨true, some schema, []⟩, .error (.schemaMismatch msg))) := by
  constructor
  · intro st h0
    simp only [writeTable, hn, hc, h0]
    rw [if_neg (fun hcon => hcon rfl), if_neg (fun hcon => hcon rfl),
      show (schema.value_columns.zip columns).find?
          (fun p => decide (colLen p.2 ≠ 0)) = none by
        rw [List.find?_eq_none]
        intro p hp
        simp [hlen p hp, h0]]
    simp
  · intro hbad
    obtain ⟨msg, hmap⟩ := mapM_date_int_err timestamps hbad
    refine ⟨msg, ?_⟩
    have hn0 : timestamps.length ≠ 0 := by
      obtain ⟨t, ht, _⟩ := hbad
      cases timestamps
      · cases ht
      · simp
    simp only [writeTable, hn, hc]
    rw [if_neg (fun hcon => hcon rfl), if_neg (fun hcon => hcon rfl),
      show (schema.value_columns.zip columns).find?
          (fun p => decide (colLen p.2 ≠ timestamps.length)) = none by
        rw [List.find?_eq_none]
        intro p hp
        simp [hlen p hp]]
    simp only [if_neg hn0]
    rw [hmap]
    simp

/-- Witness for C10 at a concrete one-row batch with timestamp `2^62`
microseconds (beyond year 9999). -/
theorem write_error_state_not_atomic_witness :
    (∀ st, ([(2:Int) ^ 62] : List Int).length = 0 →
      writeTable st exSchema [(2:Int) ^ 62] [7] [.f64 [3]] = (st, .ok ())) ∧
    ((∃ t ∈ ([(2:Int) ^ 62] : List Int), tsValid t = false) →
      ∃ msg, writeTable ⟨false, none, []⟩ exSchema [(2:Int) ^ 62] [7] [.f64 [3]] =
        (⟨true, some exSchema, []⟩, .error (.schemaMismatch msg))) :=
  write_error_state_not_atomic exSchema [(2:Int) ^ 62] [7] [.f64 [3]]
    (by decide) (by decide) (by decide)

end Zola

namespace Zola

/-- A schema with a different value-column set than `exSchema`. -/
def exSchema2 : Schema := ⟨[⟨"qty", .i64⟩]⟩

/-- C6 counterexample: the table's persisted `.schema` is `price: f64`, yet
a write supplying the different schema `qty: i64` returns `Ok` — it
silently writes the partition in the new layout and leaves the persisted
`.schema` unchanged, instead of failing with `SchemaMismatch`. -/
theorem write_schema_change_counterexample :
    exSchema2 ≠ exSchema ∧
    writeTable ⟨true, some exSchema, []⟩ exSchema2 [1705312800000000] [1]
        [.i64 [5]] =
      (⟨true, some exSchema,
        [("2024.01.15",
          { columns := [("qty", [5]), ("symbol", [1]),
              ("timestamp", [1705312800000000])]
            parted := [⟨1, 0, 1⟩]
            last_values := some [(1, ⟨1705312800000000, [5]⟩)]
            first_values := some [(1, ⟨1705312800000000, [5]⟩)] })]⟩,
       .ok ()) := by
  constructor
  · decide
  · decide

/-- C6, amended: `write_table` never reads the persisted `.schema` back;
for any persisted schema `s0` (equal to the supplied one or not), a
length-consistent batch with valid timestamps succeeds and the persisted
`.schema` is left as `s0`. -/
theorem write_ignores_persisted_schema (st : TableDirState) (schema s0 : Schema)
    (timestamps symbols : List Int) (columns : List ColumnSlice)
    (hs0 : st.schemaFile = some s0)
    (hn : symbols.length = timestamps.length)
    (hc : columns.length = schema.value_columns.length)
    (hlen : ∀ p ∈ schema.value_columns.zip columns,
      colLen p.2 = timestamps.length)
    (hv : ∀ t ∈ timestamps, tsValid t = true) :
    ∃ st', writeTable st schema timestamps symbols columns = (st', .ok ()) ∧
      st'.schemaFile = some s0 := by
  by_cases h0 : timestamps.length = 0
  · refine ⟨st, ?_, hs0⟩
    simp only [writeTable, hn, hc, h0]
    rw [if_neg (fun hcon => hcon rfl), if_neg (fun hcon => hcon rfl),
      show (schema.value_columns.zip columns).find?
          (fun p => decide (colLen p.2 ≠ 0)) = none by
        rw [List.find?_eq_none]
        intro p hp
        simp [hlen p hp, h0]]
    simp
  · refine ⟨writeGroups schema timestamps symbols columns
      (groupByDate (timestamps.map dateIntOf)
        (sortIndices (timestamps.map dateIntOf) symbols timestamps))
      ⟨true, some (st.schemaFile.getD schema), st.partitions⟩, ?_, ?_⟩
    · simp only [writeTable, hn, hc]
      rw [if_neg (fun hcon => hcon rfl), if_neg (fun hcon => hcon rfl),
        show (schema.value_columns.zip columns).find?
            (fun p => decide (colLen p.2 ≠ timestamps.length)) = none by
          rw [List.find?_eq_none]
          intro p hp
          simp [hlen p hp]]
      simp only [if_neg h0]
      rw [mapM_date_int_ok timestamps hv]
    · rw [(writeGroups_schemaFile schema timestamps symbols columns _ _).1]
      simp [hs0]

/-- Witness for the amended C6 theorem: the counterexample's write, with
the persisted schema differing from the supplied one. -/
theorem write_ignores_persisted_schema_witness :
    ∃ st', writeTable ⟨true, some exSchema, []⟩ exSchema2 [1705312800000000] [1]
        [.i64 [5]] = (st', .ok ()) ∧
      st'.schemaFile = some exSchema :=
  write_ignores_persisted_schema ⟨true, some exSchema, []⟩ exSchema2 exSchema
    [1705312800000000] [1] [.i64 [5]] rfl (by decide) (by decide) (by decide)
    (by decide)

end Zola

namespace Zola

theorem rowKeyLT_asymm (D S T : List Int) (a b : Nat)
    (h : rowKeyLT D S T a b = true) : rowKeyLT D S T b a = false := by
  unfold rowKeyLT at *
  split_ifs at * <;>
    simp only [decide_eq_true_eq, decide_eq_false_iff_not] at * <;>
    first | rfl | omega

theorem rowKeyLT_both_false (D S T : List Int) (a b : Nat)
    (hab : rowKeyLT D S T a b = false) (hba : rowKeyLT D S T b a = false) :
    D.getD a 0 = D.getD b 0 ∧ S.getD a 0 = S.getD b 0 ∧
      T.getD a 0 = T.getD b 0 := by
  unfold rowKeyLT at *
  split_ifs at * <;>
    simp only [decide_eq_true_eq, decide_eq_false_iff_not] at * <;>
    refine ⟨by omega, by omega, by omega⟩

theorem rowKeyLT_le_trans (D S T : List Int) (a b c : Nat)
    (hab : rowKeyLT D S T b a = false) (hbc : rowKeyLT D S T c b = false) :
    rowKeyLT D S T c a = false := by
  unfold rowKeyLT at *
  split_ifs at * <;>
    simp only [decide_eq_true_eq, decide_eq_false_iff_not] at * <;>
    first | rfl | omega

end Zola

namespace Zola

theorem insIdx_perm (lt : Nat → Nat → Bool) (x : Nat) (l : List Nat) :
    (insIdx lt x l).Perm (x :: l) := by
  induction l with
  | nil => exact List.Perm.refl _
  | cons y ys ih =>
    unfold insIdx
    by_cases h : lt x y = true
    · rw [if_pos h]
    · rw [if_neg h]
      exact (List.Perm.cons y ih).trans (List.Perm.swap x y ys)

theorem insIdx_head (lt : Nat → Nat → Bool) (x : Nat) (l : List Nat) :
    (insIdx lt x l).head? = some x ∨ (insIdx lt x l).head? = l.head? := by
  cases l with
  | nil => exact Or.inl rfl
  | cons y ys =>
    unfold insIdx
    by_cases h : lt x y = true
    · rw [if_pos h]; exact Or.inl rfl
    · rw [if_neg h]; exact Or.inr rfl

theorem insIdx_chain (D S T : List Int) (x : Nat) (l : List Nat)
    (h : l.Chain' (fun a b => rowKeyLT D S T b a = false)) :
    (insIdx (rowKeyLT D S T) x l).Chain'
      (fun a b => rowKeyLT D S T b a = false) := by
  induction l with
  | nil => simp [insIdx]
  | cons y ys ih =>
    unfold insIdx
    by_cases hxy : rowKeyLT D S T x y = true
    · rw [if_pos hxy]
      rw [List.chain'_cons]
      exact ⟨rowKeyLT_asymm D S T x y hxy, h⟩
    · rw [if_neg hxy]
      rw [List.chain'_cons']
      refine ⟨?_, ih (h.tail)⟩
      intro b hb
      rcases insIdx_head (rowKeyLT D S T) x ys with hh | hh
      · rw [hh, Option.mem_def] at hb
        injection hb with hb
        subst hb
        cases hlt : rowKeyLT D S T x y
        · rfl
        · exact absurd hlt hxy
      · rw [hh] at hb
        cases ys with
        | nil => cases hb
        | cons z zs =>
          rw [Option.mem_def] at hb
          injection hb with hb
          subst hb
          rw [List.chain'_cons] at h
          exact h.1

theorem sortFold_chain (D S T : List Int) (l : List Nat) (acc : List Nat)
    (h : acc.Chain' (fun a b => rowKeyLT D S T b a = false)) :
    (l.foldl (fun a i => insIdx (rowKeyLT D S T) i a) acc).Chain'
      (fun a b => rowKeyLT D S T b a = false) := by
  induction l generalizing acc with
  | nil => exact h
  | cons i l ih =>
    rw [List.foldl_cons]
    exact ih _ (insIdx_chain D S T i acc h)

theorem sortFold_perm (lt : Nat → Nat → Bool) (l : List Nat) (acc : List Nat) :
    (l.foldl (fun a i => insIdx lt i a) acc).Perm (acc ++ l) := by
  induction l generalizing acc with
  | nil => simp
  | cons i l ih =>
    rw [List.foldl_cons]
    refine (ih _).trans ?_
    refine (List.Perm.append_right l (insIdx_perm lt i acc)).trans ?_
    exact List.perm_middle.symm

theorem sortIndices_chain (D S T : List Int) :
    (sortIndices D S T).Chain' (fun a b => rowKeyLT D S T b a = false) :=
  sortFold_chain D S T _ [] (by simp)

theorem sortIndices_perm (D S T : List Int) :
    (sortIndices D S T).Perm (List.range T.length) := by
  have := sortFold_perm (rowKeyLT D S T) (List.range T.length) []
  simpa [sortIndices] using this

end Zola

namespace Zola

theorem groupByDate_join (D : List Int) (l : List Nat) :
    ((groupByDate D l).map (fun g => g.2)).join = l := by
  induction l with
  | nil => rfl
  | cons i rest ih =>
    rw [groupByDate]
    cases h : groupByDate D rest with
    | nil =>
      rw [h] at ih
      simp only [List.map_nil, List.join] at ih
      simp [← ih]
    | cons g0 gs =>
      rcases g0 with ⟨d, g⟩
      rw [h] at ih
      dsimp only
      by_cases hd : D.getD i 0 = d
      · rw [if_pos hd]
        simp only [List.map_cons, List.join] at ih ⊢
        rw [← ih]
        simp
      · rw [if_neg hd]
        simp only [List.map_cons, List.join] at ih ⊢
        rw [← ih]
        simp

theorem groupByDate_nonempty (D : List Int) (l : List Nat) :
    ∀ g ∈ groupByDate D l, g.2 ≠ [] := by
  induction l with
  | nil => intro g hg; cases hg
  | cons i rest ih =>
    intro g hg
    rw [groupByDate] at hg
    cases h : groupByDate D rest with
    | nil =>
      rw [h] at hg
      rw [List.mem_singleton] at hg
      subst hg
      simp
    | cons g0 gs =>
      rcases g0 with ⟨d, gg⟩
      rw [h] at hg
      dsimp only at hg
      by_cases hd : D.getD i 0 = d
      · rw [if_pos hd, List.mem_cons] at hg
        rcases hg with rfl | hg
        · simp
        · exact ih g (h ▸ List.mem_cons_of_mem _ hg)
      · rw [if_neg hd, List.mem_cons] at hg
        rcases hg with rfl | hg
        · simp
        · exact ih g (h ▸ hg)

theorem groupByDate_dates (D : List Int) (l : List Nat) :
    ∀ g ∈ groupByDate D l, ∀ i ∈ g.2, D.getD i 0 = g.1 := by
  induction l with
  | nil => intro g hg; cases hg
  | cons i rest ih =>
    intro g hg j hj
    rw [groupByDate] at hg
    cases h : groupByDate D rest with
    | nil =>
      rw [h] at hg
      rw [List.mem_singleton] at hg
      subst hg
      rw [List.mem_singleton] at hj
      subst hj
      rfl
    | cons g0 gs =>
      rcases g0 with ⟨d, gg⟩
      rw [h] at hg
      dsimp only at hg
      by_cases hd : D.getD i 0 = d
      · rw [if_pos hd, List.mem_cons] at hg
        rcases hg with rfl | hg
        · rw [List.mem_cons] at hj
          rcases hj with rfl | hj
          · exact hd
          · exact ih (d, gg) (h ▸ List.mem_cons_self _ _) j hj
        · exact ih g (h ▸ List.mem_cons_of_mem _ hg) j hj
      · rw [if_neg hd, List.mem_cons] at hg
        rcases hg with rfl | hg
        · rw [List.mem_singleton] at hj
          subst hj
          rfl
        · exact ih g (h ▸ hg) j hj

theorem groupByDate_sublist (D : List Int) (l : List Nat) :
    ∀ g ∈ groupByDate D l, g.2.Sublist l := by
  induction l with
  | nil => intro g hg; cases hg
  | cons i rest ih =>
    intro g hg
    rw [groupByDate] at hg
    cases h : groupByDate D rest with
    | nil =>
      rw [h] at hg
      rw [List.mem_singleton] at hg
      subst hg
      exact (List.nil_sublist rest).cons₂ i
    | cons g0 gs =>
      rcases g0 with ⟨d, gg⟩
      rw [h] at hg
      dsimp only at hg
      by_cases hd : D.getD i 0 = d
      · rw [if_pos hd, List.mem_cons] at hg
        rcases hg with rfl | hg
        · exact (ih (d, gg) (h ▸ List.mem_cons_self _ _)).cons₂ i
        · exact (ih g (h ▸ List.mem_cons_of_mem _ hg)).cons i
      · rw [if_neg hd, List.mem_cons] at hg
        rcases hg with rfl | hg
        · exact (List.nil_sublist rest).cons₂ i
        · exact (ih g (h ▸ hg)).cons i

end Zola

namespace Zola

theorem getLastD_cons_of_ne {α : Type} (a : α) (l : List α) (d : α)
    (h : l ≠ []) : (a :: l).getLastD d = l.getLastD d := by
  cases l with
  | nil => exact absurd rfl h
  | cons b t => rfl

/-- The loop invariant of `build_parted_index`: processing the suffix of
`symsFull` from `idx` with the open run `[start, idx)` of symbol `current`
yields a non-empty entry list that starts at `start`, chains contiguously
to the end, has strictly ascending symbol ids, non-empty ranges, constant
symbol content on each range, and covers every remaining position. -/
theorem bpiGo_master (symsFull : List Int)
    (hsort : List.Sorted (· ≤ ·) symsFull) :
    ∀ (l : List Int) (current : Int) (start idx : Nat),
      l = symsFull.drop idx →
      start ≤ idx →
      (∀ r, start ≤ r → r < idx → symsFull.getD r 0 = current) →
      (start < idx ∨ (idx < symsFull.length ∧ symsFull.getD idx 0 = current)) →
      (bpiGo l current start idx ≠ [] ∧
        ((bpiGo l current start idx).headD ⟨0, 0, 0⟩).symbol_id = current ∧
        ((bpiGo l current start idx).headD ⟨0, 0, 0⟩).start = start ∧
        ((bpiGo l current start idx).getLastD ⟨0, 0, 0⟩).stop = idx + l.length) ∧
      (∀ j, j + 1 < (bpiGo l current start idx).length →
        ((bpiGo l current start idx).getD j ⟨0, 0, 0⟩).stop =
          ((bpiGo l current start idx).getD (j + 1) ⟨0, 0, 0⟩).start ∧
        ((bpiGo l current start idx).getD j ⟨0, 0, 0⟩).symbol_id <
          ((bpiGo l current start idx).getD (j + 1) ⟨0, 0, 0⟩).symbol_id) ∧
      (∀ j, j < (bpiGo l current start idx).length →
        ((bpiGo l current start idx).getD j ⟨0, 0, 0⟩).start <
          ((bpiGo l current start idx).getD j ⟨0, 0, 0⟩).stop ∧
        ∀ r, ((bpiGo l current start idx).getD j ⟨0, 0, 0⟩).start ≤ r →
          r < ((bpiGo l current start idx).getD j ⟨0, 0, 0⟩).stop →
          symsFull.getD r 0 =
            ((bpiGo l current start idx).getD j ⟨0, 0, 0⟩).symbol_id) ∧
      (∀ r, start ≤ r → r < idx + l.length →
        ∃ j, j < (bpiGo l current start idx).length ∧
          ((bpiGo l current start idx).getD j ⟨0, 0, 0⟩).start ≤ r ∧
          r < ((bpiGo l current start idx).getD j ⟨0, 0, 0⟩).stop) := by
  intro l
  induction l with
  | nil =>
    intro current start idx hdrop hsi hcontent hguard
    have hlen : symsFull.length ≤ idx := by
      by_contra hcon
      push_neg at hcon
      have := List.drop_eq_nil_iff_le.1 hdrop.symm
      omega
    have hsidx : start < idx := by
      rcases hguard with h | ⟨h, _⟩
      · exact h
      · omega
    simp only [bpiGo]
    refine ⟨⟨by simp, rfl, rfl, by simp⟩, ?_, ?_, ?_⟩
    · intro j hj
      simp at hj
    · intro j hj
      simp only [List.length_singleton] at hj
      have : j = 0 := by omega
      subst this
      refine ⟨hsidx, ?_⟩
      intro r hr1 hr2
      exact hcontent r hr1 hr2
    · intro r hr1 hr2
      exact ⟨0, by simp, hr1, by simpa using hr2⟩
  | cons s rest ih =>
    intro current start idx hdrop hsi hcontent hguard
    have hidxlen : idx < symsFull.length := by
      by_contra hcon
      push_neg at hcon
      rw [List.drop_eq_nil_of_le hcon] at hdrop
      cases hdrop
    have hinj : symsFull[idx] :: symsFull.drop (idx + 1) = s :: rest := by
      rw [List.cons_getElem_drop_succ]
      exact hdrop.symm
    have hs : symsFull.getD idx 0 = s := by
      have hcc := hinj
      injection hcc with hc1 hc2
      rw [List.getD_eq_getElem?_getD, List.getElem?_eq_getElem hidxlen, hc1]
      rfl
    have hrest : rest = symsFull.drop (idx + 1) := by
      injection hinj with h1x h
      exact h.symm
    by_cases hcur : s = current
    · subst hcur
      have hred : bpiGo (s :: rest) s start idx = bpiGo rest s start (idx + 1) := by
        simp [bpiGo]
      rw [hred]
      have hres := ih s start (idx + 1) hrest (by omega)
        (fun r hr1 hr2 => by
          rcases Nat.lt_or_ge r idx with h | h
          · exact hcontent r hr1 h
          · have : r = idx := by omega
            subst this
            exact hs)
        (Or.inl (by omega))
      obtain ⟨⟨h1, h2, h3, h4⟩, h5, h6, h7⟩ := hres
      refine ⟨⟨h1, h2, h3, by rw [h4]; simp; omega⟩, h5, h6, ?_⟩
      intro r hr1 hr2
      exact h7 r hr1 (by simp at hr2 ⊢; omega)
    · have hred : bpiGo (s :: rest) current start idx =
          ⟨current, start, idx⟩ :: bpiGo rest s idx (idx + 1) := by
        simp [bpiGo, hcur]
      rw [hred]
      have hsidx : start < idx := by
        rcases hguard with h | ⟨_, h⟩
        · exact h
        · rw [hs] at h
          exact absurd h hcur
      have hlt : current < s := by
        have h1 : symsFull.getD (idx - 1) 0 = current :=
          hcontent (idx - 1) (by omega) (by omega)
        have h2 : symsFull.getD (idx - 1) 0 ≤ symsFull.getD idx 0 :=
          getD_sorted_mono symsFull hsort (by omega) hidxlen
        rw [h1, hs] at h2
        exact lt_of_le_of_ne h2 (fun hc => hcur (hc.symm))
      have hres := ih s idx (idx + 1) hrest (by omega)
        (fun r hr1 hr2 => by
          have : r = idx := by omega
          subst this
          exact hs)
        (Or.inl (by omega))
      obtain ⟨⟨h1, h2, h3, h4⟩, h5, h6, h7⟩ := hres
      set es' := bpiGo rest s idx (idx + 1) with hes
      refine ⟨⟨by simp, rfl, rfl, ?_⟩, ?_, ?_, ?_⟩
      · rw [getLastD_cons_of_ne _ _ _ h1, h4]
        simp
        omega
      · intro j hj
        cases j with
        | zero =>
          constructor
          · show (idx : Nat) = (es'.getD 0 ⟨0, 0, 0⟩).start
            have hh : es'.getD 0 ⟨0, 0, 0⟩ = es'.headD ⟨0, 0, 0⟩ := by
              cases es' with
              | nil => rfl
              | cons e t => rfl
            rw [hh, h3]
          · show current < (es'.getD 0 ⟨0, 0, 0⟩).symbol_id
            have hh : es'.getD 0 ⟨0, 0, 0⟩ = es'.headD ⟨0, 0, 0⟩ := by
              cases es' with
              | nil => rfl
              | cons e t => rfl
            rw [hh, h2]
            exact hlt
        | succ j =>
          simp only [List.length_cons] at hj
          have := h5 j (by omega)
          simpa using this
      · intro j hj
        cases j with
        | zero =>
          refine ⟨hsidx, ?_⟩
          intro r hr1 hr2
          exact hcontent r hr1 hr2
        | succ j =>
          simp only [List.length_cons] at hj
          have := h6 j (by omega)
          simpa using this
      · intro r hr1 hr2
        rcases Nat.lt_or_ge r idx with h | h
        · exact ⟨0, by simp, hr1, h⟩
        · obtain ⟨j, hj1, hj2, hj3⟩ := h7 r h (by simp at hr2 ⊢; omega)
          exact ⟨j + 1, by simpa using hj1, by simpa using hj2, by simpa using hj3⟩

end Zola

namespace Zola

theorem assocGetI_mem {β : Type} {l : List (Int × β)} {k : Int} {v : β}
    (h : assocGetI l k = some v) : (k, v) ∈ l := by
  unfold assocGetI at h
  cases hfind : l.find? (fun kv => kv.1 = k) with
  | none => rw [hfind] at h; cases h
  | some kv =>
    rw [hfind] at h
    injection h with h
    have h2 : kv.2 = v := h
    have hmem := List.mem_of_find?_eq_some hfind
    have hpred := List.find?_some hfind
    have hk : kv.1 = k := by simpa using hpred
    have : (k, v) = kv := by rw [← hk, ← h2]
    rw [this]
    exact hmem

theorem assocGetI_eq_none {β : Type} (l : List (Int × β)) (k : Int)
    (h : ∀ kv ∈ l, kv.1 ≠ k) : assocGetI l k = none := by
  unfold assocGetI
  rw [List.find?_eq_none.2 (fun kv hkv => by simpa using h kv hkv)]
  rfl

theorem assocGetI_nodup_mem {β : Type} (l : List (Int × β)) (k : Int) (v : β)
    (hnd : (l.map (fun kv => kv.1)).Nodup) (hm : (k, v) ∈ l) :
    assocGetI l k = some v := by
  induction l with
  | nil => cases hm
  | cons kv0 rest ih =>
    rw [List.map_cons, List.nodup_cons] at hnd
    rw [List.mem_cons] at hm
    rcases hm with rfl | hm
    · unfold assocGetI
      rw [List.find?_cons_of_pos _ (by simp)]
      rfl
    · have hne : kv0.1 ≠ k := by
        intro hc
        exact hnd.1 (hc ▸ List.mem_map.2 ⟨(k, v), hm, rfl⟩)
      unfold assocGetI
      rw [List.find?_cons_of_neg _ (by simpa using hne)]
      exact ih hnd.2 hm

theorem assocGet_append_right {β : Type} (l1 l2 : List (String × β)) (k : String)
    (h : ∀ kv ∈ l1, kv.1 ≠ k) : assocGet (l1 ++ l2) k = assocGet l2 k := by
  unfold assocGet
  rw [List.find?_append, List.find?_eq_none.2 (fun kv hkv => by simpa using h kv hkv)]
  rfl

theorem assocGet_cons_self {β : Type} (k : String) (v : β)
    (l : List (String × β)) : assocGet ((k, v) :: l) k = some v := by
  unfold assocGet
  rw [List.find?_cons_of_pos _ (by simp)]
  rfl

theorem assocGet_cons_ne {β : Type} (k0 k : String) (v : β)
    (l : List (String × β)) (h : k0 ≠ k) :
    assocGet ((k0, v) :: l) k = assocGet l k := by
  unfold assocGet
  rw [List.find?_cons_of_neg _ (by simpa using h)]

theorem assocGet_zip_getD {β : Type} (d : β) :
    ∀ (keys : List String) (vals : List β) (i : Nat), keys.Nodup →
      i < keys.length → keys.length = vals.length →
      assocGet (keys.zip vals) (keys.getD i "") = some (vals.getD i d) := by
  intro keys
  induction keys with
  | nil => intro vals i _ hi _; cases hi
  | cons k0 ks ih =>
    intro vals i hnd hi hlen
    cases vals with
    | nil => cases hlen
    | cons v0 vs =>
      rw [List.nodup_cons] at hnd
      cases i with
      | zero =>
        rw [List.zip_cons_cons]
        exact assocGet_cons_self k0 v0 _
      | succ i =>
        rw [List.zip_cons_cons]
        have hi' : i < ks.length := by simpa using hi
        have hks : ks.getD i "" ∈ ks := by
          rw [List.getD_eq_getElem?_getD, List.getElem?_eq_getElem hi']
          exact List.getElem_mem hi'
        rw [show ((k0 :: ks).getD (i + 1) "") = ks.getD i "" from rfl,
          show ((v0 :: vs).getD (i + 1) d) = vs.getD i d from rfl,
          assocGet_cons_ne _ _ _ _ (fun hc => hnd.1 (by rw [hc]; exact hks))]
        exact ih vs i hnd.2 hi' (by simpa using hlen)

end Zola

namespace Zola

theorem tsValid_bounds {ts : Int} (h : tsValid ts = true) :
    -(2 ^ 63) ≤ ts ∧ ts < 2 ^ 63 := by
  unfold tsValid at h
  rw [Bool.and_eq_true, decide_eq_true_eq, decide_eq_true_eq] at h
  have h1 : minMicros = -377705116800000000 := by decide
  have h2 : maxMicros = 253402300799999999 := by decide
  rw [h1] at h
  rw [h2] at h
  omega

theorem chain_of_sublist (D S T : List Int) {l1 l2 : List Nat}
    (hs : l1.Sublist l2)
    (h : l2.Chain' (fun a b => rowKeyLT D S T b a = false)) :
    l1.Chain' (fun a b => rowKeyLT D S T b a = false) := by
  letI : IsTrans Nat (fun a b => rowKeyLT D S T b a = false) :=
    ⟨fun a b c hab hbc => rowKeyLT_le_trans D S T a b c hab hbc⟩
  rw [List.chain'_iff_pairwise] at h ⊢
  exact h.sublist hs

theorem rowKeyLT_false_same_date (D S T : List Int) (a b : Nat)
    (hd : D.getD a 0 = D.getD b 0) (h : rowKeyLT D S T b a = false) :
    S.getD a 0 < S.getD b 0 ∨
      (S.getD a 0 = S.getD b 0 ∧ T.getD a 0 ≤ T.getD b 0) := by
  unfold rowKeyLT at h
  split_ifs at h <;>
    simp only [decide_eq_true_eq, decide_eq_false_iff_not] at * <;>
    omega

theorem getD_map_lt (f : Nat → Int) (l : List Nat) (j : Nat)
    (hj : j < l.length) (d : Int) :
    (l.map f).getD j d = f (l.getD j 0) := by
  rw [List.getD_eq_getElem?_getD, List.getElem?_map,
    List.getElem?_eq_getElem hj, List.getD_eq_getElem?_getD,
    List.getElem?_eq_getElem hj]
  rfl

theorem getD_mapN (f : Nat → Nat) (l : List Nat) (j : Nat)
    (hj : j < l.length) (d : Nat) :
    (l.map f).getD j d = f (l.getD j 0) := by
  rw [List.getD_eq_getElem?_getD, List.getElem?_map,
    List.getElem?_eq_getElem hj, List.getD_eq_getElem?_getD,
    List.getElem?_eq_getElem hj]
  rfl

theorem getD_eq_get {α : Type} (l : List α) (d : α) (j : Nat)
    (hj : j < l.length) : l.getD j d = l.get ⟨j, hj⟩ := by
  rw [List.getD_eq_getElem?_getD, List.getElem?_eq_getElem hj]
  rfl

theorem getLastD_eq_getD {α : Type} (l : List α) (d : α) (h : l ≠ []) :
    l.getLastD d = l.getD (l.length - 1) d := by
  induction l with
  | nil => exact absurd rfl h
  | cons a t ih =>
    cases ht : t with
    | nil => rfl
    | cons b t2 =>
      rw [← ht, getLastD_cons_of_ne a t d (by rw [ht]; simp), ih (by rw [ht]; simp)]
      have : (a :: t).length - 1 = t.length - 1 + 1 := by
        rw [ht]
        simp
      rw [this]
      rfl

theorem parted_stops_le (es : List PartedEntry) (n : Nat)
    (hne : es ≠ [])
    (hlast : (es.getLastD ⟨0, 0, 0⟩).stop = n)
    (hcont : ∀ j, j + 1 < es.length →
      (es.getD j ⟨0, 0, 0⟩).stop = (es.getD (j + 1) ⟨0, 0, 0⟩).start)
    (hrange : ∀ j, j < es.length →
      (es.getD j ⟨0, 0, 0⟩).start < (es.getD j ⟨0, 0, 0⟩).stop) :
    ∀ j, j < es.length → (es.getD j ⟨0, 0, 0⟩).stop ≤ n := by
  have hmono : ∀ d j, j + d < es.length →
      (es.getD j ⟨0, 0, 0⟩).stop ≤ (es.getD (j + d) ⟨0, 0, 0⟩).stop := by
    intro d
    induction d with
    | zero => intro j _; exact le_rfl
    | succ d ih =>
      intro j hj
      have h1 := ih j (by omega)
      have h2 := hcont (j + d) (by omega)
      have h3 := hrange (j + d + 1) (by omega)
      have : j + (d + 1) = j + d + 1 := by omega
      rw [this]
      omega
  intro j hj
  have h0 : 0 < es.length := by
    cases es
    · exact absurd rfl hne
    · simp
  have hm := hmono (es.length - 1 - j) j (by omega)
  have hidx : j + (es.length - 1 - j) = es.length - 1 := by omega
  rw [hidx] at hm
  rw [getLastD_eq_getD es ⟨0, 0, 0⟩ hne] at hlast
  omega

theorem assocGet_append_left {β : Type} (l1 l2 : List (String × β))
    (k : String) (v : β) (h : assocGet l1 k = some v) :
    assocGet (l1 ++ l2) k = some v := by
  unfold assocGet at *
  rw [List.find?_append]
  cases hf : l1.find? (fun kv => kv.1 = k) with
  | none => rw [hf] at h; cases h
  | some kv =>
    rw [hf] at h
    exact h

end Zola

namespace Zola

theorem assocGetI_isSome {β : Type} (l : List (Int × β)) (k : Int)
    (h : ∃ kv ∈ l, kv.1 = k) : ∃ v, assocGetI l k = some v := by
  unfold assocGetI
  have : (l.find? (fun kv => kv.1 = k)).isSome := by
    rw [List.find?_isSome]
    obtain ⟨kv, hm, hk⟩ := h
    exact ⟨kv, hm, by simpa using hk⟩
  cases hf : l.find? (fun kv => kv.1 = k) with
  | none => rw [hf] at this; cases this
  | some kv => exact ⟨kv.2, rfl⟩

theorem mapInsert_mem (m : PartMap) (k0 : String) (p0 : Partition)
    (k : String) (p : Partition) (h : (k, p) ∈ mapInsert m k0 p0) :
    (k, p) ∈ m ∨ (k = k0 ∧ p = p0) := by
  induction m with
  | nil =>
    rw [mapInsert, List.mem_singleton] at h
    right
    exact ⟨congrArg Prod.fst h, congrArg Prod.snd h⟩
  | cons kv rest ih =>
    rw [mapInsert] at h
    by_cases he : kv.1 = k0
    · rw [if_pos he, List.mem_cons] at h
      rcases h with h | h
      · right
        exact ⟨congrArg Prod.fst h, congrArg Prod.snd h⟩
      · left
        exact List.mem_cons_of_mem _ h
    · rw [if_neg he, List.mem_cons] at h
      rcases h with h | h
      · left
        rw [h]
        exact List.mem_cons_self _ _
      · rcases ih h with h2 | h2
        · exact Or.inl (List.mem_cons_of_mem _ h2)
        · exact Or.inr h2

theorem writeGroups_mem (schema : Schema) (timestamps symbols : List Int)
    (columns : List ColumnSlice) :
    ∀ (groups : List (Int × List Nat)) (st : TableDirState) (k : String)
      (p : Partition),
      (k, p) ∈ (writeGroups schema timestamps symbols columns groups st).partitions →
      (k, p) ∈ st.partitions ∨ ∃ g ∈ groups, k = date_int_to_str g.1 ∧
        p = groupPartition schema timestamps symbols columns g.2 := by
  intro groups
  induction groups with
  | nil => intro st k p h; exact Or.inl h
  | cons g gs ih =>
    intro st k p h
    rw [writeGroups, List.foldl_cons] at h
    rcases ih _ k p h with h2 | ⟨g2, hg2, hk2, hp2⟩
    · simp only at h2
      rcases mapInsert_mem _ _ _ _ _ h2 with h3 | ⟨h3, h4⟩
      · exact Or.inl h3
      · exact Or.inr ⟨g, List.mem_cons_self _ _, h3, h4⟩
    · exact Or.inr ⟨g2, List.mem_cons_of_mem _ hg2, hk2, hp2⟩

/-- The value-column word lists of a partition, read back in schema
order. -/
def valueColWords (p : Partition) (schema : Schema) : List (List Nat) :=
  schema.value_columns.map (fun cd => (assocGet p.columns cd.name).getD [])

/-- The value words of one row, in schema order (the bytes a sidecar entry
stores after the timestamp). -/
def rowWords (p : Partition) (schema : Schema) (row : Nat) : List Nat :=
  (valueColWords p schema).map (fun c => c.getD row 0)

end Zola

namespace Zola

theorem groupPartition_columns (schema : Schema) (T S : List Int)
    (columns : List ColumnSlice) (g : List Nat) :
    (groupPartition schema T S columns g).columns =
      (schema.value_columns.map (fun cd => cd.name)).zip
        (columns.map (fun c => g.map (fun i => colWordAt c i))) ++
      [("symbol", (g.map (fun i => S.getD i 0)).map i64ToWord),
       ("timestamp", (g.map (fun i => T.getD i 0)).map i64ToWord)] := rfl

theorem groupPartition_parted (schema : Schema) (T S : List Int)
    (columns : List ColumnSlice) (g : List Nat) :
    (groupPartition schema T S columns g).parted =
      buildPartedIndex (g.map (fun i => S.getD i 0)) := rfl

theorem groupPartition_last (schema : Schema) (T S : List Int)
    (columns : List ColumnSlice) (g : List Nat) :
    (groupPartition schema T S columns g).last_values =
      some (buildSidecarEntries (buildPartedIndex (g.map (fun i => S.getD i 0)))
        (g.map (fun i => T.getD i 0))
        (columns.map (fun c => g.map (fun i => colWordAt c i))) true) := rfl

theorem groupPartition_first (schema : Schema) (T S : List Int)
    (columns : List ColumnSlice) (g : List Nat) :
    (groupPartition schema T S columns g).first_values =
      some (buildSidecarEntries (buildPartedIndex (g.map (fun i => S.getD i 0)))
        (g.map (fun i => T.getD i 0))
        (columns.map (fun c => g.map (fun i => colWordAt c i))) false) := rfl

theorem zip_names_ne (schema : Schema) (vw : List (List Nat)) (nm : String)
    (hnm : nm ∉ schema.value_columns.map (fun cd => cd.name)) :
    ∀ kv ∈ (schema.value_columns.map (fun cd => cd.name)).zip vw,
      kv.1 ≠ nm := by
  rintro ⟨a, b⟩ hm hc
  subst hc
  exact hnm (List.of_mem_zip hm).1

theorem groupPartition_get_symbol (schema : Schema) (T S : List Int)
    (columns : List ColumnSlice) (g : List Nat)
    (hsymname : "symbol" ∉ schema.value_columns.map (fun cd => cd.name))
    (hrange : ∀ i ∈ g, -(2 ^ 63) ≤ S.getD i 0 ∧ S.getD i 0 < 2 ^ 63) :
    (groupPartition schema T S columns g).get_i64 "symbol" =
      some (g.map (fun i => S.getD i 0)) := by
  unfold Partition.get_i64
  rw [groupPartition_columns,
    assocGet_append_right _ _ _ (zip_names_ne schema _ _ hsymname),
    assocGet_cons_self]
  have hmm : Option.map (fun ws => List.map wordToI64 ws)
      (some (List.map i64ToWord (List.map (fun i => S.getD i 0) g))) =
      some (List.map (fun ws => wordToI64 (i64ToWord ws))
        (List.map (fun i => S.getD i 0) g)) := by
    rw [Option.map_some', List.map_map]
    rfl
  rw [hmm]
  congr 1
  rw [List.map_map]
  apply List.map_congr_left
  intro i hi
  exact wordToI64_i64ToWord _ (hrange i hi).1 (hrange i hi).2

theorem groupPartition_get_timestamp (schema : Schema) (T S : List Int)
    (columns : List ColumnSlice) (g : List Nat)
    (htsname : "timestamp" ∉ schema.value_columns.map (fun cd => cd.name))
    (hrange : ∀ i ∈ g, -(2 ^ 63) ≤ T.getD i 0 ∧ T.getD i 0 < 2 ^ 63) :
    (groupPartition schema T S columns g).get_i64 "timestamp" =
      some (g.map (fun i => T.getD i 0)) := by
  unfold Partition.get_i64
  rw [groupPartition_columns,
    assocGet_append_right _ _ _ (zip_names_ne schema _ _ htsname),
    assocGet_cons_ne _ _ _ _ (by decide), assocGet_cons_self]
  have hmm : Option.map (fun ws => List.map wordToI64 ws)
      (some (List.map i64ToWord (List.map (fun i => T.getD i 0) g))) =
      some (List.map (fun ws => wordToI64 (i64ToWord ws))
        (List.map (fun i => T.getD i 0) g)) := by
    rw [Option.map_some', List.map_map]
    rfl
  rw [hmm]
  congr 1
  rw [List.map_map]
  apply List.map_congr_left
  intro i hi
  exact wordToI64_i64ToWord _ (hrange i hi).1 (hrange i hi).2

theorem assocGet_zip_getElem {β : Type} :
    ∀ (keys : List String) (vals : List β) (i : Nat) (h1 : i < keys.length)
      (h2 : i < vals.length), keys.Nodup →
      assocGet (keys.zip vals) (keys[i]) = some (vals[i]) := by
  intro keys
  induction keys with
  | nil => intro vals i h1 _ _; cases h1
  | cons k0 ks ih =>
    intro vals i h1 h2 hnd
    cases vals with
    | nil => cases h2
    | cons v0 vs =>
      rw [List.nodup_cons] at hnd
      cases i with
      | zero =>
        rw [List.zip_cons_cons, List.getElem_cons_zero, List.getElem_cons_zero]
        exact assocGet_cons_self k0 v0 _
      | succ i =>
        rw [List.zip_cons_cons, List.getElem_cons_succ, List.getElem_cons_succ]
        have h1' : i < ks.length := by simpa using h1
        rw [assocGet_cons_ne _ _ _ _
          (fun hcx => hnd.1 (by rw [hcx]; exact List.getElem_mem h1'))]
        exact ih vs i h1' (by simpa using h2) hnd.2

theorem valueColWords_group (schema : Schema) (T S : List Int)
    (columns : List ColumnSlice) (g : List Nat)
    (hnd : (schema.value_columns.map (fun cd => cd.name)).Nodup)
    (hc : columns.length = schema.value_columns.length) :
    valueColWords (groupPartition schema T S columns g) schema =
      columns.map (fun c => g.map (fun i => colWordAt c i)) := by
  have hlen1 : (valueColWords (groupPartition schema T S columns g) schema).length =
      schema.value_columns.length := by
    unfold valueColWords
    rw [List.length_map]
  have hlen2 : (columns.map (fun c => g.map (fun i => colWordAt c i))).length =
      schema.value_columns.length := by
    rw [List.length_map, hc]
  apply List.ext_getElem (by rw [hlen1, hlen2])
  intro ci h1 h2
  have hci : ci < schema.value_columns.length := by rw [← hlen1]; exact h1
  have h1n : ci < (schema.value_columns.map (fun cd => cd.name)).length := by
    rw [List.length_map]; exact hci
  have h2v : ci < (columns.map (fun c => g.map (fun i => colWordAt c i))).length := by
    rw [List.length_map, hc]; exact hci
  have hclx : ci < columns.length := by rw [hc]; exact hci
  have hget3 : assocGet ((schema.value_columns.map (fun cd => cd.name)).zip
      (columns.map (fun c => g.map (fun i => colWordAt c i))))
      ((schema.value_columns[ci]).name) =
      some ((columns.map (fun c => g.map (fun i => colWordAt c i)))[ci]) := by
    have e : (schema.value_columns.map (fun cd => cd.name))[ci] =
        (schema.value_columns[ci]).name := by
      rw [List.getElem_map]
    rw [← e]
    exact assocGet_zip_getElem _ _ ci h1n h2v hnd
  have e1 : (valueColWords (groupPartition schema T S columns g) schema)[ci] =
      (assocGet (groupPartition schema T S columns g).columns
        ((schema.value_columns[ci]).name)).getD ([] : List Nat) := by
    have hq : ci < (schema.value_columns.map (fun cd =>
        (assocGet (groupPartition schema T S columns g).columns cd.name).getD
          ([] : List Nat))).length := by
      rw [List.length_map]
      exact hci
    show (schema.value_columns.map (fun cd =>
      (assocGet (groupPartition schema T S columns g).columns cd.name).getD
        ([] : List Nat)))[ci] = _
    rw [List.getElem_map]
  have e2 : (columns.map (fun c => g.map (fun i => colWordAt c i)))[ci] =
      g.map (fun i => colWordAt (columns[ci]) i) := by
    rw [List.getElem_map]
  have e3 : assocGet (groupPartition schema T S columns g).columns
      ((schema.value_columns[ci]).name) =
      some ((columns.map (fun c => g.map (fun i => colWordAt c i)))[ci]) := by
    rw [groupPartition_columns]
    exact assocGet_append_left _ _ _ _ hget3
  have e4 : (assocGet (groupPartition schema T S columns g).columns
      ((schema.value_columns[ci]).name)).getD ([] : List Nat) =
      g.map (fun i => colWordAt (columns[ci]) i) := by
    rw [e3]
    simp only [Option.getD_some]
    rw [List.getElem_map]
  exact (e1.trans e4).trans e2.symm

end Zola

namespace Zola

theorem getD_map_gen {α β : Type} (f : α → β) (dA : α) (dB : β) (l : List α)
    (j : Nat) (hj : j < l.length) : (l.map f).getD j dB = f (l.getD j dA) := by
  rw [List.getD_eq_getElem?_getD, List.getElem?_map,
    List.getElem?_eq_getElem hj, List.getD_eq_getElem?_getD,
    List.getElem?_eq_getElem hj]
  rfl

theorem writeTable_zero_state (schema : Schema) (timestamps symbols : List Int)
    (columns : List ColumnSlice) (st : TableDirState)
    (hn : symbols.length = timestamps.length)
    (hc : columns.length = schema.value_columns.length)
    (hlen : ∀ pc ∈ schema.value_columns.zip columns,
      colLen pc.2 = timestamps.length)
    (h0 : timestamps.length = 0) :
    writeTable st schema timestamps symbols columns = (st, .ok ()) := by
  simp only [writeTable, hn, hc, h0]
  rw [if_neg (fun hcon => hcon rfl), if_neg (fun hcon => hcon rfl),
    show (schema.value_columns.zip columns).find?
        (fun pc => decide (colLen pc.2 ≠ 0)) = none by
      rw [List.find?_eq_none]
      intro pc hpc
      simp [hlen pc hpc, h0]]
  simp

theorem writeTable_ok_state (schema : Schema) (timestamps symbols : List Int)
    (columns : List ColumnSlice) (st : TableDirState)
    (hn : symbols.length = timestamps.length)
    (hc : columns.length = schema.value_columns.length)
    (hlen : ∀ pc ∈ schema.value_columns.zip columns,
      colLen pc.2 = timestamps.length)
    (hv : ∀ t ∈ timestamps, tsValid t = true)
    (hn0 : timestamps.length ≠ 0) :
    writeTable st schema timestamps symbols columns =
      (writeGroups schema timestamps symbols columns
        (groupByDate (timestamps.map dateIntOf)
          (sortIndices (timestamps.map dateIntOf) symbols timestamps))
        ⟨true, some (st.schemaFile.getD schema), st.partitions⟩, .ok ()) := by
  simp only [writeTable, hn, hc]
  rw [if_neg (fun hcon => hcon rfl), if_neg (fun hcon => hcon rfl),
    show (schema.value_columns.zip columns).find?
        (fun pc => decide (colLen pc.2 ≠ timestamps.length)) = none by
      rw [List.find?_eq_none]
      intro pc hpc
      simp [hlen pc hpc]]
  simp only [if_neg hn0]
  rw [mapM_date_int_ok timestamps hv]

theorem sidecar_keys (parted : List PartedEntry) (ts : List Int)
    (vw : List (List Nat)) (pick : Bool) :
    (buildSidecarEntries parted ts vw pick).map (fun kv => kv.1) =
      parted.map (fun e => e.symbol_id) := by
  unfold buildSidecarEntries
  rw [List.map_map]
  rfl

theorem sidecar_entry_mem (parted : List PartedEntry) (ts : List Int)
    (vw : List (List Nat)) (pick : Bool) (j : Nat) (hj : j < parted.length) :
    ((parted.getD j ⟨0, 0, 0⟩).symbol_id,
      (⟨ts.getD (if pick then (parted.getD j ⟨0, 0, 0⟩).stop - 1
          else (parted.getD j ⟨0, 0, 0⟩).start) 0,
        vw.map (fun c => c.getD (if pick then (parted.getD j ⟨0, 0, 0⟩).stop - 1
          else (parted.getD j ⟨0, 0, 0⟩).start) 0)⟩ : SidecarEntry)) ∈
      buildSidecarEntries parted ts vw pick := by
  unfold buildSidecarEntries
  refine List.mem_map.2 ⟨parted.getD j ⟨0, 0, 0⟩, ?_, rfl⟩
  rw [getD_eq_get parted ⟨0, 0, 0⟩ j hj]
  exact List.get_mem parted _ hj

theorem sidecar_keys_nodup (parted : List PartedEntry) (ts : List Int)
    (vw : List (List Nat)) (pick : Bool)
    (hadj : ∀ j, j + 1 < parted.length →
      (parted.getD j ⟨0, 0, 0⟩).symbol_id <
        (parted.getD (j + 1) ⟨0, 0, 0⟩).symbol_id) :
    ((buildSidecarEntries parted ts vw pick).map (fun kv => kv.1)).Nodup := by
  rw [sidecar_keys]
  have hchain : (parted.map (fun e => e.symbol_id)).Chain' (· < ·) := by
    rw [List.chain'_iff_get]
    intro j hj
    rw [List.length_map] at hj
    rw [← getD_eq_get _ (0 : Int) j (by rw [List.length_map]; omega),
      ← getD_eq_get _ (0 : Int) (j + 1) (by rw [List.length_map]; omega),
      getD_map_gen _ ⟨0, 0, 0⟩ 0 _ j (by omega),
      getD_map_gen _ ⟨0, 0, 0⟩ 0 _ (j + 1) (by omega)]
    exact hadj j (by omega)
  have hpw := List.chain'_iff_pairwise.1 hchain
  exact hpw.imp (fun h => ne_of_lt h)

end Zola

namespace Zola

/-- C5: invariants of every partition produced by `write_table` (into an
empty table state): rows are sorted by `(symbol, timestamp)`; the parted
index is non-empty with start 0, contiguous half-open ranges ending at
`row_count`, strictly ascending symbol ids, non-empty ranges whose rows
all carry the entry's symbol, and full coverage of `[0, row_count)`; the
sidecars exist, hold an entry exactly for each symbol present, and for
each parted entry bind its symbol to the timestamp and value words of the
last (`last_values`) resp. first (`first_values`) row of its range.
Assumes the batch passes the length checks, timestamps are in range,
symbols are `i64`s, and the schema's value-column names are distinct and
do not collide with `symbol`/`timestamp`. -/
theorem write_partition_invariants (schema : Schema)
    (timestamps symbols : List Int) (columns : List ColumnSlice)
    (dex : Bool) (sf : Option Schema)
    (hn : symbols.length = timestamps.length)
    (hc : columns.length = schema.value_columns.length)
    (hlen : ∀ pc ∈ schema.value_columns.zip columns,
      colLen pc.2 = timestamps.length)
    (hv : ∀ t ∈ timestamps, tsValid t = true)
    (hsy : ∀ v ∈ symbols, -(2 ^ 63) ≤ v ∧ v < 2 ^ 63)
    (hnd : (schema.value_columns.map (fun cd => cd.name)).Nodup)
    (hsymname : "symbol" ∉ schema.value_columns.map (fun cd => cd.name))
    (htsname : "timestamp" ∉ schema.value_columns.map (fun cd => cd.name)) :
    ∀ k p, (k, p) ∈ (writeTable ⟨dex, sf, []⟩ schema timestamps symbols
        columns).1.partitions →
      ∃ scol tcol,
        p.get_i64 "symbol" = some scol ∧
        p.get_i64 "timestamp" = some tcol ∧
        tcol.length = scol.length ∧ 0 < scol.length ∧
        (∀ j, j + 1 < scol.length →
          scol.getD j 0 < scol.getD (j + 1) 0 ∨
            (scol.getD j 0 = scol.getD (j + 1) 0 ∧
              tcol.getD j 0 ≤ tcol.getD (j + 1) 0)) ∧
        p.parted ≠ [] ∧
        (p.parted.headD ⟨0, 0, 0⟩).start = 0 ∧
        (p.parted.getLastD ⟨0, 0, 0⟩).stop = scol.length ∧
        (∀ j, j + 1 < p.parted.length →
          (p.parted.getD j ⟨0, 0, 0⟩).stop =
            (p.parted.getD (j + 1) ⟨0, 0, 0⟩).start ∧
          (p.parted.getD j ⟨0, 0, 0⟩).symbol_id <
            (p.parted.getD (j + 1) ⟨0, 0, 0⟩).symbol_id) ∧
        (∀ j, j < p.parted.length →
          (p.parted.getD j ⟨0, 0, 0⟩).start < (p.parted.getD j ⟨0, 0, 0⟩).stop ∧
          ∀ r, (p.parted.getD j ⟨0, 0, 0⟩).start ≤ r →
            r < (p.parted.getD j ⟨0, 0, 0⟩).stop →
            scol.getD r 0 = (p.parted.getD j ⟨0, 0, 0⟩).symbol_id) ∧
        (∀ r, r < scol.length → ∃ j, j < p.parted.length ∧
          (p.parted.getD j ⟨0, 0, 0⟩).start ≤ r ∧
          r < (p.parted.getD j ⟨0, 0, 0⟩).stop) ∧
        ∃ lv fv, p.last_values = some lv ∧ p.first_values = some fv ∧
          (∀ s : Int, (∃ e, assocGetI lv s = some e) ↔ s ∈ scol) ∧
          (∀ s : Int, (∃ e, assocGetI fv s = some e) ↔ s ∈ scol) ∧
          (∀ j, j < p.parted.length →
            assocGetI lv (p.parted.getD j ⟨0, 0, 0⟩).symbol_id =
              some ⟨tcol.getD ((p.parted.getD j ⟨0, 0, 0⟩).stop - 1) 0,
                rowWords p schema ((p.parted.getD j ⟨0, 0, 0⟩).stop - 1)⟩ ∧
            assocGetI fv (p.parted.getD j ⟨0, 0, 0⟩).symbol_id =
              some ⟨tcol.getD (p.parted.getD j ⟨0, 0, 0⟩).start 0,
                rowWords p schema (p.parted.getD j ⟨0, 0, 0⟩).start⟩) := by
  intro k p hmem
  by_cases h0 : timestamps.length = 0
  · rw [writeTable_zero_state schema timestamps symbols columns _ hn hc hlen h0]
      at hmem
    cases hmem
  rw [writeTable_ok_state schema timestamps symbols columns _ hn hc hlen hv h0]
    at hmem
  rcases writeGroups_mem schema timestamps symbols columns _ _ k p hmem
    with hin | ⟨g, hg, hkk, hpp⟩
  · cases hin
  subst hpp
  have hgne := groupByDate_nonempty _ _ g hg
  have hgsub := groupByDate_sublist _ _ g hg
  have hgdate := groupByDate_dates _ _ g hg
  have hchain := chain_of_sublist (timestamps.map dateIntOf) symbols timestamps
    hgsub (sortIndices_chain (timestamps.map dateIntOf) symbols timestamps)
  have hmemlt : ∀ i ∈ g.2, i < timestamps.length := by
    intro i hi
    have h1 : i ∈ sortIndices (timestamps.map dateIntOf) symbols timestamps :=
      hgsub.subset hi
    have h2 := (sortIndices_perm (timestamps.map dateIntOf) symbols
      timestamps).mem_iff.1 h1
    simpa using h2
  have hsyb : ∀ i ∈ g.2, -(2 ^ 63) ≤ symbols.getD i 0 ∧
      symbols.getD i 0 < 2 ^ 63 := by
    intro i hi
    have hilt : i < symbols.length := by rw [hn]; exact hmemlt i hi
    refine hsy _ ?_
    rw [getD_eq_get symbols 0 i hilt]
    exact List.get_mem symbols _ hilt
  have htsb : ∀ i ∈ g.2, -(2 ^ 63) ≤ timestamps.getD i 0 ∧
      timestamps.getD i 0 < 2 ^ 63 := by
    intro i hi
    have hilt := hmemlt i hi
    refine tsValid_bounds (hv _ ?_)
    rw [getD_eq_get timestamps 0 i hilt]
    exact List.get_mem timestamps _ hilt
  have hgs := groupPartition_get_symbol schema timestamps symbols columns g.2
    hsymname hsyb
  have hgt := groupPartition_get_timestamp schema timestamps symbols columns g.2
    htsname htsb
  have hglen : 0 < g.2.length := List.length_pos.2 hgne
  have hslen : (g.2.map (fun i => symbols.getD i 0)).length = g.2.length :=
    List.length_map _ _
  have htlen : (g.2.map (fun i => timestamps.getD i 0)).length = g.2.length :=
    List.length_map _ _
  -- adjacent row ordering
  have hadjrows : ∀ j, j + 1 < (g.2.map (fun i => symbols.getD i 0)).length →
      (g.2.map (fun i => symbols.getD i 0)).getD j 0 <
        (g.2.map (fun i => symbols.getD i 0)).getD (j + 1) 0 ∨
      ((g.2.map (fun i => symbols.getD i 0)).getD j 0 =
        (g.2.map (fun i => symbols.getD i 0)).getD (j + 1) 0 ∧
        (g.2.map (fun i => timestamps.getD i 0)).getD j 0 ≤
          (g.2.map (fun i => timestamps.getD i 0)).getD (j + 1) 0) := by
    intro j hj
    rw [hslen] at hj
    have hx := List.chain'_iff_get.1 hchain j (by omega)
    rw [← getD_eq_get g.2 0 j (by omega), ← getD_eq_get g.2 0 (j + 1) (by omega)]
      at hx
    have hma : g.2.getD j 0 ∈ g.2 := by
      rw [getD_eq_get g.2 0 j (by omega)]
      exact List.get_mem g.2 _ (by omega)
    have hmb : g.2.getD (j + 1) 0 ∈ g.2 := by
      rw [getD_eq_get g.2 0 (j + 1) (by omega)]
      exact List.get_mem g.2 _ (by omega)
    have hdd : (timestamps.map dateIntOf).getD (g.2.getD j 0) 0 =
        (timestamps.map dateIntOf).getD (g.2.getD (j + 1) 0) 0 := by
      rw [hgdate _ hma, hgdate _ hmb]
    have hres := rowKeyLT_false_same_date (timestamps.map dateIntOf) symbols
      timestamps (g.2.getD j 0) (g.2.getD (j + 1) 0) hdd hx
    rw [getD_map_lt _ g.2 j (by omega) 0, getD_map_lt _ g.2 (j + 1) (by omega) 0,
      getD_map_lt _ g.2 j (by omega) 0, getD_map_lt _ g.2 (j + 1) (by omega) 0]
    exact hres
  -- sorted symbol column
  have hscol_sorted : List.Sorted (· ≤ ·) (g.2.map (fun i => symbols.getD i 0)) := by
    have hch : (g.2.map (fun i => symbols.getD i 0)).Chain' (· ≤ ·) := by
      rw [List.chain'_iff_get]
      intro j hj
      have hj2 : j + 1 < (g.2.map (fun i => symbols.getD i 0)).length := by omega
      rw [← getD_eq_get _ 0 j (by omega), ← getD_eq_get _ 0 (j + 1) (by omega)]
      rcases hadjrows j hj2 with h | ⟨h, _⟩
      · exact le_of_lt h
      · exact le_of_eq h
    exact List.chain'_iff_pairwise.1 hch
  -- parted index via the bpiGo master invariant
  obtain ⟨s0, tl, hsc⟩ := List.exists_cons_of_ne_nil
    (show g.2.map (fun i => symbols.getD i 0) ≠ [] by
      intro hcon
      rw [hcon] at hslen
      simp at hslen
      omega)
  have hbp : buildPartedIndex (g.2.map (fun i => symbols.getD i 0)) =
      bpiGo (g.2.map (fun i => symbols.getD i 0)) s0 0 0 := by
    rw [hsc]
    rfl
  have hmaster := bpiGo_master (g.2.map (fun i => symbols.getD i 0)) hscol_sorted
    (g.2.map (fun i => symbols.getD i 0)) s0 0 0 (by rw [List.drop_zero])
    (le_refl 0) (fun r h1 h2 => absurd h2 (by omega))
    (Or.inr ⟨by rw [hslen]; omega, by rw [hsc]; rfl⟩)
  rw [← hbp] at hmaster
  obtain ⟨⟨hP1, hP2, hP3, hP4⟩, hP5, hP6, hP7⟩ := hmaster
  rw [Nat.zero_add] at hP4
  have hpparted : (groupPartition schema timestamps symbols columns g.2).parted =
      buildPartedIndex (g.2.map (fun i => symbols.getD i 0)) :=
    groupPartition_parted schema timestamps symbols columns g.2
  have hstople := parted_stops_le
    (buildPartedIndex (g.2.map (fun i => symbols.getD i 0)))
    (g.2.map (fun i => symbols.getD i 0)).length hP1 hP4
    (fun j hj => (hP5 j hj).1) (fun j hj => (hP6 j hj).1)
  -- membership iff for sidecars
  have hiff : ∀ pick : Bool, ∀ s : Int,
      (∃ e, assocGetI (buildSidecarEntries
        (buildPartedIndex (g.2.map (fun i => symbols.getD i 0)))
        (g.2.map (fun i => timestamps.getD i 0))
        (columns.map (fun c => g.2.map (fun i => colWordAt c i))) pick) s =
          some e) ↔
        s ∈ g.2.map (fun i => symbols.getD i 0) := by
    intro pick s
    constructor
    · rintro ⟨e, he⟩
      have hm := assocGetI_mem he
      unfold buildSidecarEntries at hm
      obtain ⟨en, hen, heq⟩ := List.mem_map.1 hm
      have hens : en.symbol_id = s := congrArg Prod.fst heq
      obtain ⟨⟨j, hjl⟩, hgetj⟩ := List.mem_iff_get.1 hen
      have hjd : (buildPartedIndex (g.2.map (fun i => symbols.getD i 0))).getD j
          ⟨0, 0, 0⟩ = en := by
        rw [getD_eq_get _ ⟨0, 0, 0⟩ j hjl]
        exact hgetj
      have h61 := (hP6 j hjl).1
      have h62 := (hP6 j hjl).2
      rw [hjd] at h61 h62
      have hcontent := h62 en.start (le_refl _) h61
      have hstop := hstople j hjl
      rw [hjd] at hstop
      have hstartlt : en.start < (g.2.map (fun i => symbols.getD i 0)).length := by
        omega
      rw [← hens, ← hcontent]
      rw [getD_eq_get _ 0 en.start hstartlt]
      exact List.get_mem _ _ hstartlt
    · intro hs
      obtain ⟨⟨r, hr⟩, hgr⟩ := List.mem_iff_get.1 hs
      obtain ⟨j, hj, hj1, hj2⟩ := hP7 r (Nat.zero_le r) (by omega)
      have hid := (hP6 j hj).2 r hj1 hj2
      refine assocGetI_isSome _ s ⟨_, sidecar_entry_mem
        (buildPartedIndex (g.2.map (fun i => symbols.getD i 0)))
        (g.2.map (fun i => timestamps.getD i 0))
        (columns.map (fun c => g.2.map (fun i => colWordAt c i))) pick j hj, ?_⟩
      show ((buildPartedIndex (g.2.map (fun i => symbols.getD i 0))).getD j
        ⟨0, 0, 0⟩).symbol_id = s
      rw [← hid, getD_eq_get _ 0 r hr]
      exact hgr
  -- assemble
  refine ⟨g.2.map (fun i => symbols.getD i 0),
    g.2.map (fun i => timestamps.getD i 0), hgs, hgt,
    by rw [hslen, htlen], by rw [hslen]; exact hglen, hadjrows,
    ?_, ?_, ?_, ?_, ?_, ?_, ?_⟩
  · rw [hpparted]; exact hP1
  · rw [hpparted]; exact hP3
  · rw [hpparted]; exact hP4
  · rw [hpparted]; exact hP5
  · rw [hpparted]; exact hP6
  · rw [hpparted, hslen]
    intro r hrlt
    exact hP7 r (Nat.zero_le r) (by rw [Nat.zero_add, hslen]; exact hrlt)
  · refine ⟨_, _, groupPartition_last schema timestamps symbols columns g.2,
      groupPartition_first schema timestamps symbols columns g.2,
      hiff true, hiff false, ?_⟩
    rw [hpparted]
    intro j hj
    have hnodupT := sidecar_keys_nodup
      (buildPartedIndex (g.2.map (fun i => symbols.getD i 0)))
      (g.2.map (fun i => timestamps.getD i 0))
      (columns.map (fun c => g.2.map (fun i => colWordAt c i))) true
      (fun j2 hj2 => (hP5 j2 hj2).2)
    have hnodupF := sidecar_keys_nodup
      (buildPartedIndex (g.2.map (fun i => symbols.getD i 0)))
      (g.2.map (fun i => timestamps.getD i 0))
      (columns.map (fun c => g.2.map (fun i => colWordAt c i))) false
      (fun j2 hj2 => (hP5 j2 hj2).2)
    have hmemT := sidecar_entry_mem
      (buildPartedIndex (g.2.map (fun i => symbols.getD i 0)))
      (g.2.map (fun i => timestamps.getD i 0))
      (columns.map (fun c => g.2.map (fun i => colWordAt c i))) true j hj
    have hmemF := sidecar_entry_mem
      (buildPartedIndex (g.2.map (fun i => symbols.getD i 0)))
      (g.2.map (fun i => timestamps.getD i 0))
      (columns.map (fun c => g.2.map (fun i => colWordAt c i))) false j hj
    have hbindT := assocGetI_nodup_mem _ _ _ hnodupT hmemT
    have hbindF := assocGetI_nodup_mem _ _ _ hnodupF hmemF
    have hrw : rowWords (groupPartition schema timestamps symbols columns g.2)
        schema = fun row => (columns.map (fun c =>
          g.2.map (fun i => colWordAt c i))).map (fun c => c.getD row 0) := by
      funext row
      unfold rowWords
      rw [valueColWords_group schema timestamps symbols columns g.2 hnd hc]
    constructor
    · rw [hrw]
      exact hbindT
    · rw [hrw]
      exact hbindF

end Zola

namespace Zola

/-- The partition the C5 witness batch produces (two rows on 2024-01-15,
symbols 2 and 1, written in sorted order). -/
def exWritePart : Partition :=
  { columns := [("price", [20, 10]), ("symbol", [1, 2]),
      ("timestamp", [1705312801000000, 1705312800000000])]
    parted := [⟨1, 0, 1⟩, ⟨2, 1, 2⟩]
    last_values := some [(1, ⟨1705312801000000, [20]⟩),
      (2, ⟨1705312800000000, [10]⟩)]
    first_values := some [(1, ⟨1705312801000000, [20]⟩),
      (2, ⟨1705312800000000, [10]⟩)] }

/-- Witness for C5 at a concrete two-row batch. -/
theorem write_partition_invariants_witness :
    ∃ scol tcol,
      exWritePart.get_i64 "symbol" = some scol ∧
      exWritePart.get_i64 "timestamp" = some tcol ∧
      tcol.length = scol.length ∧ 0 < scol.length ∧
      (∀ j, j + 1 < scol.length →
        scol.getD j 0 < scol.getD (j + 1) 0 ∨
          (scol.getD j 0 = scol.getD (j + 1) 0 ∧
            tcol.getD j 0 ≤ tcol.getD (j + 1) 0)) ∧
      exWritePart.parted ≠ [] ∧
      (exWritePart.parted.headD ⟨0, 0, 0⟩).start = 0 ∧
      (exWritePart.parted.getLastD ⟨0, 0, 0⟩).stop = scol.length ∧
      (∀ j, j + 1 < exWritePart.parted.length →
        (exWritePart.parted.getD j ⟨0, 0, 0⟩).stop =
          (exWritePart.parted.getD (j + 1) ⟨0, 0, 0⟩).start ∧
        (exWritePart.parted.getD j ⟨0, 0, 0⟩).symbol_id <
          (exWritePart.parted.getD (j + 1) ⟨0, 0, 0⟩).symbol_id) ∧
      (∀ j, j < exWritePart.parted.length →
        (exWritePart.parted.getD j ⟨0, 0, 0⟩).start <
          (exWritePart.parted.getD j ⟨0, 0, 0⟩).stop ∧
        ∀ r, (exWritePart.parted.getD j ⟨0, 0, 0⟩).start ≤ r →
          r < (exWritePart.parted.getD j ⟨0, 0, 0⟩).stop →
          scol.getD r 0 = (exWritePart.parted.getD j ⟨0, 0, 0⟩).symbol_id) ∧
      (∀ r, r < scol.length → ∃ j, j < exWritePart.parted.length ∧
        (exWritePart.parted.getD j ⟨0, 0, 0⟩).start ≤ r ∧
        r < (exWritePart.parted.getD j ⟨0, 0, 0⟩).stop) ∧
      ∃ lv fv, exWritePart.last_values = some lv ∧
        exWritePart.first_values = some fv ∧
        (∀ s : Int, (∃ e, assocGetI lv s = some e) ↔ s ∈ scol) ∧
        (∀ s : Int, (∃ e, assocGetI fv s = some e) ↔ s ∈ scol) ∧
        (∀ j, j < exWritePart.parted.length →
          assocGetI lv (exWritePart.parted.getD j ⟨0, 0, 0⟩).symbol_id =
            some ⟨tcol.getD ((exWritePart.parted.getD j ⟨0, 0, 0⟩).stop - 1) 0,
              rowWords exWritePart exSchema
                ((exWritePart.parted.getD j ⟨0, 0, 0⟩).stop - 1)⟩ ∧
          assocGetI fv (exWritePart.parted.getD j ⟨0, 0, 0⟩).symbol_id =
            some ⟨tcol.getD (exWritePart.parted.getD j ⟨0, 0, 0⟩).start 0,
              rowWords exWritePart exSchema
                (exWritePart.parted.getD j ⟨0, 0, 0⟩).start⟩) :=
  write_partition_invariants exSchema
    [1705312800000000, 1705312801000000] [2, 1] [.f64 [10, 20]] false none
    (by decide) (by decide) (by decide) (by decide) (by decide) (by decide)
    (by decide) (by decide) "2024.01.15" exWritePart (by decide)

end Zola

namespace Zola

/-- C4 counterexample: a batch with two rows carrying the *same*
`(symbol, timestamp)` and different values (5 then 6) writes both rows,
but a Backward asof at that key returns a single row — the duplicate with
the highest storage index, value 6 — so the written value of the first
inserted row (5) is not returned.  The round-trip claim fails for batches
with duplicate `(sym, ts)` keys. -/
theorem write_asof_roundtrip_counterexample :
    (writeTable ⟨false, none, []⟩ exSchema2
      [1705312800000000, 1705312800000000] [1, 1] [.i64 [5, 6]]).2 = .ok () ∧
    ∃ res, asof_join exSchema2
        (writeTable ⟨false, none, []⟩ exSchema2
          [1705312800000000, 1705312800000000] [1, 1] [.i64 [5, 6]]).1.partitions
        [1] [1705312800000000] .backward = .ok res ∧
      tsAt res 0 = 1705312800000000 ∧
      cellsAt res 0 = [.iv 6] ∧
      CellVal.iv 6 ≠ CellVal.iv 5 := by
  refine ⟨by decide, ⟨⟨[1705312800000000], [.i64 [6]]⟩, ?_, by decide, ?_, by decide⟩⟩
  · decide
  · decide

end Zola

namespace Zola

theorem date_int_to_str_inj {d1 d2 : Int} (h1 : 0 ≤ d1) (h2 : 0 ≤ d2)
    (hu1 : d1 < 100000000) (hu2 : d2 < 100000000) (hne : d1 ≠ d2) :
    date_int_to_str d1 ≠ date_int_to_str d2 := by
  rcases lt_trichotomy d1 d2 with h | h | h
  · intro hc
    have := date_int_to_str_lt h1 h hu2
    rw [hc] at this
    rw [strLt_irrefl] at this
    cases this
  · exact absurd h hne
  · intro hc
    have := date_int_to_str_lt h2 h hu1
    rw [hc] at this
    rw [strLt_irrefl] at this
    cases this

theorem rowKeyLT_false_date_le (D S T : List Int) (a b : Nat)
    (h : rowKeyLT D S T b a = false) : D.getD a 0 ≤ D.getD b 0 := by
  unfold rowKeyLT at h
  split_ifs at h <;>
    simp only [decide_eq_true_eq, decide_eq_false_iff_not] at * <;>
    omega

theorem groupByDate_head_date (D : List Int) (j : Nat) (r : List Nat) :
    groupByDate D (j :: r) ≠ [] ∧
      ((groupByDate D (j :: r)).headD (0, [])).1 = D.getD j 0 := by
  rw [groupByDate]
  cases h : groupByDate D r with
  | nil => exact ⟨by simp, rfl⟩
  | cons g0 gs =>
    rcases g0 with ⟨d, g⟩
    dsimp only
    by_cases hd : D.getD j 0 = d
    · rw [if_pos hd]
      exact ⟨by simp, hd.symm⟩
    · rw [if_neg hd]
      exact ⟨by simp, rfl⟩

theorem groupByDate_date_mem (D : List Int) (l : List Nat) :
    ∀ g ∈ groupByDate D l, ∃ j ∈ l, D.getD j 0 = g.1 := by
  intro g hg
  have hne := groupByDate_nonempty D l g hg
  have hdate := groupByDate_dates D l g hg
  have hsub := groupByDate_sublist D l g hg
  obtain ⟨m, hm⟩ := List.exists_mem_of_ne_nil g.2 hne
  exact ⟨m, hsub.subset hm, hdate m hm⟩

theorem groupByDate_dates_pairwise (D : List Int) :
    ∀ l : List Nat, l.Chain' (fun a b => D.getD a 0 ≤ D.getD b 0) →
      (groupByDate D l).Pairwise (fun g1 g2 => g1.1 ≠ g2.1) := by
  intro l
  induction l with
  | nil => intro _; simp [groupByDate]
  | cons i rest ih =>
    intro hch
    have hpw : (i :: rest).Pairwise (fun a b => D.getD a 0 ≤ D.getD b 0) := by
      letI : IsTrans Nat (fun a b => D.getD a 0 ≤ D.getD b 0) :=
        ⟨fun a b c hab hbc => le_trans hab hbc⟩
      exact List.chain'_iff_pairwise.1 hch
    have hirest := ih (hch.tail)
    rw [groupByDate]
    cases h : groupByDate D rest with
    | nil => simp
    | cons g0 gs =>
      rcases g0 with ⟨d, g⟩
      rw [h] at hirest
      dsimp only
      by_cases hd : D.getD i 0 = d
      · rw [if_pos hd]
        rw [List.pairwise_cons] at hirest ⊢
        exact ⟨fun g2 hg2 => hirest.1 g2 hg2, hirest.2⟩
      · rw [if_neg hd]
        rw [List.pairwise_cons]
        refine ⟨?_, hirest⟩
        intro g2 hg2
        -- every later group's date is the date of some member of rest
        have hmem : ∃ j ∈ rest, D.getD j 0 = g2.1 := by
          have := groupByDate_date_mem D rest g2 (h ▸ hg2)
          exact this
        obtain ⟨j, hj, hdj⟩ := hmem
        have hle : D.getD i 0 ≤ D.getD j 0 :=
          (List.pairwise_cons.1 hpw).1 j hj
        -- the head group's date is the date of the head of rest
        cases hr : rest with
        | nil =>
          rw [hr] at hj
          cases hj
        | cons j0 r' =>
          have hhead := groupByDate_head_date D j0 r'
          rw [← hr, h] at hhead
          have hd0 : d = D.getD j0 0 := by
            have h2 := hhead.2
            simpa using h2
          -- D i < d since D i ≤ D j0 = d and D i ≠ d
          have hij0 : D.getD i 0 ≤ D.getD j0 0 := by
            refine (List.pairwise_cons.1 hpw).1 j0 ?_
            rw [hr]
            exact List.mem_cons_self _ _
          have hlt : D.getD i 0 < d := by
            rw [hd0]
            rcases lt_or_eq_of_le hij0 with hx | hx
            · exact hx
            · exact absurd (hd0 ▸ hx) hd
          -- g2's date is ≥ d
          rcases List.mem_cons.1 hg2 with rfl | hg2'
          · exact fun hcon => hd hcon
          · have hdlej : d ≤ D.getD j 0 := by
              rw [hr] at hj
              rcases List.mem_cons.1 hj with rfl | hj'
              · rw [hd0]
              · rw [hd0]
                have hpw' : (j0 :: r').Pairwise
                    (fun a b => D.getD a 0 ≤ D.getD b 0) := by
                  have := (List.pairwise_cons.1 hpw).2
                  rw [hr] at this
                  exact this
                exact (List.pairwise_cons.1 hpw').1 j hj'
            intro hcon
            have hcon2 : D.getD i 0 = g2.1 := hcon
            omega

theorem mapInsert_assocGet_self (m : PartMap) (k : String) (p : Partition) :
    assocGet (mapInsert m k p) k = some p := by
  induction m with
  | nil => exact assocGet_cons_self k p []
  | cons kv rest ih =>
    rw [mapInsert]
    by_cases he : kv.1 = k
    · rw [if_pos he]
      exact assocGet_cons_self k p rest
    · rw [if_neg he]
      rcases kv with ⟨k0, p0⟩
      rw [assocGet_cons_ne _ _ _ _ he]
      exact ih

theorem mapInsert_assocGet_ne (m : PartMap) (k0 : String) (p0 : Partition)
    (k : String) (h : k ≠ k0) :
    assocGet (mapInsert m k0 p0) k = assocGet m k := by
  induction m with
  | nil =>
    rw [mapInsert, assocGet_cons_ne _ _ _ _ (Ne.symm h)]
  | cons kv rest ih =>
    rw [mapInsert]
    by_cases he : kv.1 = k0
    · rw [if_pos he]
      rcases kv with ⟨k1, p1⟩
      rw [assocGet_cons_ne _ _ _ _ (Ne.symm h)]
      have hk1 : k1 ≠ k := by
        intro hc
        refine h ?_
        rw [← hc]
        exact he
      rw [assocGet_cons_ne _ _ _ _ hk1]
    · rw [if_neg he]
      rcases kv with ⟨k1, p1⟩
      by_cases h1 : k1 = k
      · subst h1
        rw [assocGet_cons_self, assocGet_cons_self]
      · rw [assocGet_cons_ne _ _ _ _ h1, assocGet_cons_ne _ _ _ _ h1]
        exact ih

end Zola

namespace Zola

theorem writeGroups_assocGet_frame (schema : Schema)
    (timestamps symbols : List Int) (columns : List ColumnSlice) :
    ∀ (groups : List (Int × List Nat)) (st : TableDirState) (key : String),
      (∀ g ∈ groups, date_int_to_str g.1 ≠ key) →
      assocGet (writeGroups schema timestamps symbols columns groups
        st).partitions key = assocGet st.partitions key := by
  intro groups
  induction groups with
  | nil => intro st key _; rfl
  | cons g gs ih =>
    intro st key h
    rw [writeGroups, List.foldl_cons]
    have hstep := ih { st with partitions := mapInsert st.partitions (date_int_to_str g.1) (groupPartition schema timestamps symbols columns g.2) }
      key (fun g2 hg2 => h g2 (List.mem_cons_of_mem _ hg2))
    rw [writeGroups] at hstep
    rw [hstep]
    exact mapInsert_assocGet_ne _ _ _ _
      (fun hc => h g (List.mem_cons_self _ _) hc.symm)

theorem writeGroups_assocGet_found (schema : Schema)
    (timestamps symbols : List Int) (columns : List ColumnSlice) :
    ∀ (groups : List (Int × List Nat)) (st : TableDirState)
      (g : Int × List Nat), g ∈ groups →
      groups.Pairwise (fun g1 g2 =>
        date_int_to_str g1.1 ≠ date_int_to_str g2.1) →
      assocGet (writeGroups schema timestamps symbols columns groups
          st).partitions (date_int_to_str g.1) =
        some (groupPartition schema timestamps symbols columns g.2) := by
  intro groups
  induction groups with
  | nil => intro st g hg _; cases hg
  | cons g0 gs ih =>
    intro st g hg hdist
    rw [List.pairwise_cons] at hdist
    rw [writeGroups, List.foldl_cons]
    rcases List.mem_cons.1 hg with rfl | hg'
    · have hframe := writeGroups_assocGet_frame schema timestamps symbols
        columns gs { st with partitions := mapInsert st.partitions (date_int_to_str g.1) (groupPartition schema timestamps symbols columns g.2) }
        (date_int_to_str g.1)
        (fun g2 hg2 => (hdist.1 g2 hg2).symm)
      rw [writeGroups] at hframe
      rw [hframe]
      exact mapInsert_assocGet_self _ _ _
    · exact ih { st with partitions := mapInsert st.partitions (date_int_to_str g0.1) (groupPartition schema timestamps symbols columns g0.2) } g hg' hdist.2

/-- `asof_join` with a single probe reduces to one directional lookup. -/
theorem asof_join_single (schema : Schema) (parts : PartMap) (s t : Int)
    (dir : Direction) (hv : tsValid t = true) :
    asof_join schema parts [s] [t] dir =
      .ok (dirLookup dir schema parts (dateStrOf t) s t 0
        (initResult schema 1)) := by
  unfold asof_join
  have hr : List.range ([s] : List Int).length = [0] := rfl
  rw [hr]
  rw [asofLoop]
  have hp := @asofProbe_ok (([t] : List Int).getD 0 0) hv schema parts dir
    (([s] : List Int).getD 0 0) 0 (initResult schema ([s] : List Int).length)
  rw [hp]
  rfl

end Zola

namespace Zola

theorem groupPartition_assocGet_value (schema : Schema) (T S : List Int)
    (columns : List ColumnSlice) (g : List Nat)
    (hnd : (schema.value_columns.map (fun cd => cd.name)).Nodup)
    (hc : columns.length = schema.value_columns.length)
    (ci : Nat) (hci : ci < schema.value_columns.length)
    (hcl : ci < columns.length) :
    assocGet (groupPartition schema T S columns g).columns
      ((schema.value_columns[ci]).name) =
      some (g.map (fun i => colWordAt (columns[ci]) i)) := by
  have h1n : ci < (schema.value_columns.map (fun cd => cd.name)).length := by
    rw [List.length_map]; exact hci
  have h2v : ci < (columns.map (fun c => g.map (fun i => colWordAt c i))).length := by
    rw [List.length_map]; exact hcl
  have hget3 : assocGet ((schema.value_columns.map (fun cd => cd.name)).zip
      (columns.map (fun c => g.map (fun i => colWordAt c i))))
      ((schema.value_columns[ci]).name) =
      some ((columns.map (fun c => g.map (fun i => colWordAt c i)))[ci]) := by
    have e : (schema.value_columns.map (fun cd => cd.name))[ci] =
        (schema.value_columns[ci]).name := by
      rw [List.getElem_map]
    rw [← e]
    exact assocGet_zip_getElem _ _ ci h1n h2v hnd
  have e2 : (columns.map (fun c => g.map (fun i => colWordAt c i)))[ci] =
      g.map (fun i => colWordAt (columns[ci]) i) := by
    rw [List.getElem_map]
  rw [groupPartition_columns]
  rw [assocGet_append_left _ _ _ _ hget3, e2]

theorem fillCols_init_single (part : Partition) (row : Nat) :
    ∀ defs : List ColumnDef,
      (fillColsFromPartition part row 0 defs (defs.map (fun cd =>
        match cd.colType with
        | .i64 => ColumnVec.i64 (List.replicate 1 NULL_I64)
        | .f64 => ColumnVec.f64 (List.replicate 1 NULL_F64_BITS)))).map
          (fun c => cellAt c 0) =
      defs.map (fun cd =>
        match cd.colType with
        | .i64 =>
          match part.get_i64 cd.name with
          | some data => CellVal.iv (data.getD row 0)
          | none => CellVal.iv NULL_I64
        | .f64 =>
          match part.get_f64 cd.name with
          | some data => CellVal.fv (data.getD row 0)
          | none => CellVal.fv NULL_F64_BITS) := by
  intro defs
  induction defs with
  | nil => rfl
  | cons cd rest ih =>
    rcases cd with ⟨nm, ct⟩
    cases ct with
    | i64 =>
      rw [List.map_cons]
      cases hgo : part.get_i64 nm with
      | none =>
        simp only [fillColsFromPartition, hgo, List.map_cons]
        rw [ih]
        rfl
      | some data =>
        simp only [fillColsFromPartition, hgo, List.map_cons]
        rw [ih]
        rfl
    | f64 =>
      rw [List.map_cons]
      cases hgo : part.get_f64 nm with
      | none =>
        simp only [fillColsFromPartition, hgo, List.map_cons]
        rw [ih]
        rfl
      | some data =>
        simp only [fillColsFromPartition, hgo, List.map_cons]
        rw [ih]
        rfl

theorem cellsAt_fill_init_single (schema : Schema) (part : Partition)
    (row : Nat) :
    cellsAt (fill_from_partition schema part row 0 (initResult schema 1)) 0 =
      schema.value_columns.map (fun cd =>
        match cd.colType with
        | .i64 =>
          match part.get_i64 cd.name with
          | some data => CellVal.iv (data.getD row 0)
          | none => CellVal.iv NULL_I64
        | .f64 =>
          match part.get_f64 cd.name with
          | some data => CellVal.fv (data.getD row 0)
          | none => CellVal.fv NULL_F64_BITS) :=
  fillCols_init_single part row schema.value_columns

end Zola

namespace Zola

/-- C4, amended: round-trip through `write` and a Backward `asof` probe at
each inserted `(sym, ts)` returns exactly the written row — the timestamp
and, bit-exactly, every value cell (`F64` cells are bit patterns, so NaN
payloads survive) — provided the batch's `(sym, ts)` keys are pairwise
distinct (the counterexample shows the claim fails for duplicates), the
timestamps are valid with non-negative-year dates, symbols and `I64`
values are `i64`s, the slices match the declared column types, and the
schema's value-column names are distinct and do not collide with
`symbol`/`timestamp`. -/
theorem write_asof_roundtrip (schema : Schema)
    (timestamps symbols : List Int) (columns : List ColumnSlice) (i : Nat)
    (hn : symbols.length = timestamps.length)
    (hc : columns.length = schema.value_columns.length)
    (hlen : ∀ pc ∈ schema.value_columns.zip columns,
      colLen pc.2 = timestamps.length)
    (hv : ∀ t ∈ timestamps, tsValid t = true)
    (hnneg : ∀ t ∈ timestamps, 0 ≤ dateIntOf t)
    (hsy : ∀ v ∈ symbols, -(2 ^ 63) ≤ v ∧ v < 2 ^ 63)
    (hvals : ∀ c ∈ columns, ∀ s, c = ColumnSlice.i64 s →
      ∀ v ∈ s, -(2 ^ 63) ≤ v ∧ v < 2 ^ 63)
    (htype : ∀ pc ∈ schema.value_columns.zip columns,
      (∀ s, pc.2 = ColumnSlice.i64 s → pc.1.colType = .i64) ∧
      (∀ s, pc.2 = ColumnSlice.f64 s → pc.1.colType = .f64))
    (hnd : (schema.value_columns.map (fun cd => cd.name)).Nodup)
    (hsymname : "symbol" ∉ schema.value_columns.map (fun cd => cd.name))
    (htsname : "timestamp" ∉ schema.value_columns.map (fun cd => cd.name))
    (hdist : ∀ a b, a < b → b < timestamps.length →
      ¬(symbols.getD a 0 = symbols.getD b 0 ∧
        timestamps.getD a 0 = timestamps.getD b 0))
    (hi : i < timestamps.length) :
    ∃ res, asof_join schema
        (writeTable ⟨false, none, []⟩ schema timestamps symbols
          columns).1.partitions
        [symbols.getD i 0] [timestamps.getD i 0] .backward = .ok res ∧
      tsAt res 0 = timestamps.getD i 0 ∧
      cellsAt res 0 = (schema.value_columns.zip columns).map (fun pc =>
        match pc.2 with
        | ColumnSlice.i64 s => CellVal.iv (s.getD i 0)
        | ColumnSlice.f64 s => CellVal.fv (s.getD i 0)) := by
  have hn0 : timestamps.length ≠ 0 := by omega
  rw [writeTable_ok_state schema timestamps symbols columns _ hn hc hlen hv hn0]
  -- locate the probe's group
  have hperm := sortIndices_perm (timestamps.map dateIntOf) symbols timestamps
  have hil : i ∈ sortIndices (timestamps.map dateIntOf) symbols timestamps := by
    rw [hperm.mem_iff]
    exact List.mem_range.2 hi
  have hjoin := groupByDate_join (timestamps.map dateIntOf)
    (sortIndices (timestamps.map dateIntOf) symbols timestamps)
  have higr : ∃ g ∈ groupByDate (timestamps.map dateIntOf)
      (sortIndices (timestamps.map dateIntOf) symbols timestamps), i ∈ g.2 := by
    rw [← hjoin] at hil
    obtain ⟨lst, hlst, hilst⟩ := List.mem_join.1 hil
    obtain ⟨g, hgm, hglst⟩ := List.mem_map.1 hlst
    exact ⟨g, hgm, hglst ▸ hilst⟩
  obtain ⟨g, hg, hig⟩ := higr
  -- facts about the group (as in the partition-invariant development)
  have hgne := groupByDate_nonempty _ _ g hg
  have hgsub := groupByDate_sublist _ _ g hg
  have hgdate := groupByDate_dates _ _ g hg
  have hchain := chain_of_sublist (timestamps.map dateIntOf) symbols timestamps
    hgsub (sortIndices_chain (timestamps.map dateIntOf) symbols timestamps)
  have hmemlt : ∀ a ∈ g.2, a < timestamps.length := by
    intro a ha
    have h1 : a ∈ sortIndices (timestamps.map dateIntOf) symbols timestamps :=
      hgsub.subset ha
    have h2 := hperm.mem_iff.1 h1
    simpa using h2
  have hsyb : ∀ a ∈ g.2, -(2 ^ 63) ≤ symbols.getD a 0 ∧
      symbols.getD a 0 < 2 ^ 63 := by
    intro a ha
    have hilt : a < symbols.length := by rw [hn]; exact hmemlt a ha
    refine hsy _ ?_
    rw [getD_eq_get symbols 0 a hilt]
    exact List.get_mem symbols _ hilt
  have htsb : ∀ a ∈ g.2, -(2 ^ 63) ≤ timestamps.getD a 0 ∧
      timestamps.getD a 0 < 2 ^ 63 := by
    intro a ha
    have hilt := hmemlt a ha
    refine tsValid_bounds (hv _ ?_)
    rw [getD_eq_get timestamps 0 a hilt]
    exact List.get_mem timestamps _ hilt
  have hgs := groupPartition_get_symbol schema timestamps symbols columns g.2
    hsymname hsyb
  have hgt := groupPartition_get_timestamp schema timestamps symbols columns g.2
    htsname htsb
  have hglen : 0 < g.2.length := List.length_pos.2 hgne
  have hslen : (g.2.map (fun a => symbols.getD a 0)).length = g.2.length :=
    List.length_map _ _
  have htlen : (g.2.map (fun a => timestamps.getD a 0)).length = g.2.length :=
    List.length_map _ _
  have hgnodup : g.2.Nodup := by
    refine List.Nodup.sublist hgsub ?_
    rw [hperm.nodup_iff]
    exact List.nodup_range _
  -- adjacent row ordering within the group
  have hadjrows : ∀ j, j + 1 < g.2.length →
      symbols.getD (g.2.getD j 0) 0 < symbols.getD (g.2.getD (j + 1) 0) 0 ∨
      (symbols.getD (g.2.getD j 0) 0 = symbols.getD (g.2.getD (j + 1) 0) 0 ∧
        timestamps.getD (g.2.getD j 0) 0 ≤
          timestamps.getD (g.2.getD (j + 1) 0) 0) := by
    intro j hj
    have hx := List.chain'_iff_get.1 hchain j (by omega)
    rw [← getD_eq_get g.2 0 j (by omega), ← getD_eq_get g.2 0 (j + 1) (by omega)]
      at hx
    have hma : g.2.getD j 0 ∈ g.2 := by
      rw [getD_eq_get g.2 0 j (by omega)]
      exact List.get_mem g.2 _ (by omega)
    have hmb : g.2.getD (j + 1) 0 ∈ g.2 := by
      rw [getD_eq_get g.2 0 (j + 1) (by omega)]
      exact List.get_mem g.2 _ (by omega)
    have hdd : (timestamps.map dateIntOf).getD (g.2.getD j 0) 0 =
        (timestamps.map dateIntOf).getD (g.2.getD (j + 1) 0) 0 := by
      rw [hgdate _ hma, hgdate _ hmb]
    exact rowKeyLT_false_same_date (timestamps.map dateIntOf) symbols
      timestamps (g.2.getD j 0) (g.2.getD (j + 1) 0) hdd hx
  have hscol_sorted : List.Sorted (· ≤ ·)
      (g.2.map (fun a => symbols.getD a 0)) := by
    have hch : (g.2.map (fun a => symbols.getD a 0)).Chain' (· ≤ ·) := by
      rw [List.chain'_iff_get]
      intro j hj
      rw [hslen] at hj
      rw [← getD_eq_get _ 0 j (by rw [hslen]; omega),
        ← getD_eq_get _ 0 (j + 1) (by rw [hslen]; omega),
        getD_map_lt _ g.2 j (by omega) 0, getD_map_lt _ g.2 (j + 1) (by omega) 0]
      rcases hadjrows j (by omega) with h | ⟨h, _⟩
      · exact le_of_lt h
      · exact le_of_eq h
    exact List.chain'_iff_pairwise.1 hch
  -- parted index facts
  obtain ⟨s0, tl, hsc⟩ := List.exists_cons_of_ne_nil
    (show g.2.map (fun a => symbols.getD a 0) ≠ [] by
      intro hcon
      rw [hcon] at hslen
      simp at hslen
      omega)
  have hbp : buildPartedIndex (g.2.map (fun a => symbols.getD a 0)) =
      bpiGo (g.2.map (fun a => symbols.getD a 0)) s0 0 0 := by
    rw [hsc]
    rfl
  have hmaster := bpiGo_master (g.2.map (fun a => symbols.getD a 0))
    hscol_sorted (g.2.map (fun a => symbols.getD a 0)) s0 0 0
    (by rw [List.drop_zero]) (le_refl 0) (fun r h1 h2 => absurd h2 (by omega))
    (Or.inr ⟨by rw [hslen]; omega, by rw [hsc]; rfl⟩)
  rw [← hbp] at hmaster
  obtain ⟨⟨hP1, hP2, hP3, hP4⟩, hP5, hP6, hP7⟩ := hmaster
  rw [Nat.zero_add] at hP4
  have hstople := parted_stops_le
    (buildPartedIndex (g.2.map (fun a => symbols.getD a 0)))
    (g.2.map (fun a => symbols.getD a 0)).length hP1 hP4
    (fun j hj => (hP5 j hj).1) (fun j hj => (hP6 j hj).1)
  -- the probe's partition binding
  have hDi : (timestamps.map dateIntOf).getD i 0 =
      dateIntOf (timestamps.getD i 0) := getD_map_gen dateIntOf 0 0 timestamps i hi
  have hkey : dateStrOf (timestamps.getD i 0) = date_int_to_str g.1 := by
    unfold dateStrOf
    rw [← hDi, hgdate i hig]
  have hdatebound : ∀ g2 ∈ groupByDate (timestamps.map dateIntOf)
      (sortIndices (timestamps.map dateIntOf) symbols timestamps),
      0 ≤ g2.1 ∧ g2.1 ≤ 99991231 := by
    intro g2 hg2
    obtain ⟨j2, hj2, hdj2⟩ := groupByDate_date_mem _ _ g2 hg2
    have hj2lt : j2 < timestamps.length := by
      have h1 : j2 ∈ sortIndices (timestamps.map dateIntOf) symbols timestamps := hj2
      have h2 := hperm.mem_iff.1 h1
      simpa using h2
    have hd2 : (timestamps.map dateIntOf).getD j2 0 =
        dateIntOf (timestamps.getD j2 0) := getD_map_gen dateIntOf 0 0 timestamps j2 hj2lt
    have hmem2 : timestamps.getD j2 0 ∈ timestamps := by
      rw [getD_eq_get timestamps 0 j2 hj2lt]
      exact List.get_mem timestamps _ hj2lt
    rw [← hdj2, hd2]
    exact ⟨hnneg _ hmem2, dateIntOf_upper (hv _ hmem2)⟩
  have hpairwise : (groupByDate (timestamps.map dateIntOf)
      (sortIndices (timestamps.map dateIntOf) symbols timestamps)).Pairwise
      (fun g1 g2 => date_int_to_str g1.1 ≠ date_int_to_str g2.1) := by
    have hdates := groupByDate_dates_pairwise (timestamps.map dateIntOf)
      (sortIndices (timestamps.map dateIntOf) symbols timestamps)
      ((sortIndices_chain (timestamps.map dateIntOf) symbols timestamps).imp
        (fun a b hab => rowKeyLT_false_date_le _ _ _ a b hab))
    refine hdates.imp_of_mem ?_
    intro g1 g2 hm1 hm2 hne
    have hb1 := hdatebound g1 hm1
    have hb2 := hdatebound g2 hm2
    exact date_int_to_str_inj hb1.1 hb2.1 (by omega) (by omega) hne
  have hfound := writeGroups_assocGet_found schema timestamps symbols columns
    (groupByDate (timestamps.map dateIntOf)
      (sortIndices (timestamps.map dateIntOf) symbols timestamps))
    ⟨true, some ((none : Option Schema).getD schema), []⟩ g hg hpairwise
  -- probe row and parted entry
  obtain ⟨⟨r, hr⟩, hgr⟩ := List.mem_iff_get.1 hig
  have hgri : g.2.getD r 0 = i := by
    rw [getD_eq_get g.2 0 r hr]
    exact hgr
  have hscolr : (g.2.map (fun a => symbols.getD a 0)).getD r 0 =
      symbols.getD i 0 := by
    rw [getD_map_lt _ g.2 r hr 0, hgri]
  have htcolr : (g.2.map (fun a => timestamps.getD a 0)).getD r 0 =
      timestamps.getD i 0 := by
    rw [getD_map_lt _ g.2 r hr 0, hgri]
  obtain ⟨j, hj, hjs, hje⟩ := hP7 r (Nat.zero_le r) (by rw [Nat.zero_add, hslen]; exact hr)
  have hidj := (hP6 j hj).2 r hjs hje
  rw [hscolr] at hidj
  -- strictly sorted parted keys for the binary search
  have hkeysorted : List.Sorted (· < ·)
      ((buildPartedIndex (g.2.map (fun a => symbols.getD a 0))).map
        (fun e => e.symbol_id)) := by
    have hch : ((buildPartedIndex (g.2.map (fun a => symbols.getD a 0))).map
        (fun e => e.symbol_id)).Chain' (· < ·) := by
      rw [List.chain'_iff_get]
      intro q hq
      rw [List.length_map] at hq
      rw [← getD_eq_get _ (0 : Int) q (by rw [List.length_map]; omega),
        ← getD_eq_get _ (0 : Int) (q + 1) (by rw [List.length_map]; omega),
        getD_map_gen _ ⟨0, 0, 0⟩ 0 _ q (by omega),
        getD_map_gen _ ⟨0, 0, 0⟩ 0 _ (q + 1) (by omega)]
      exact (hP5 q (by omega)).2
    exact List.chain'_iff_pairwise.1 hch
  have hsr := symbol_range_found (groupPartition schema timestamps symbols
    columns g.2) (by rw [groupPartition_parted]; exact hkeysorted) j
    (by rw [groupPartition_parted]; exact hj)
  rw [groupPartition_parted] at hsr
  rw [← hidj] at hsr
  -- timestamps within the symbol range are strictly increasing
  have hcontentj := (hP6 j hj).2
  have he_le := hstople j hj
  have hmono : ∀ d r1, ((buildPartedIndex (g.2.map (fun a =>
      symbols.getD a 0))).getD j ⟨0, 0, 0⟩).start ≤ r1 →
      r1 + d < ((buildPartedIndex (g.2.map (fun a =>
        symbols.getD a 0))).getD j ⟨0, 0, 0⟩).stop →
      (g.2.map (fun a => timestamps.getD a 0)).getD r1 0 ≤
        (g.2.map (fun a => timestamps.getD a 0)).getD (r1 + d) 0 := by
    intro d
    induction d with
    | zero => intro r1 _ _; exact le_rfl
    | succ d ih =>
      intro r1 h1 h2
      have hstep : (g.2.map (fun a => timestamps.getD a 0)).getD (r1 + d) 0 ≤
          (g.2.map (fun a => timestamps.getD a 0)).getD (r1 + d + 1) 0 := by
        have hlt : r1 + d + 1 < g.2.length := by
          have := he_le
          rw [hslen] at this
          omega
        have hsame : symbols.getD (g.2.getD (r1 + d) 0) 0 =
            symbols.getD (g.2.getD (r1 + d + 1) 0) 0 := by
          have e1 := hcontentj (r1 + d) (by omega) (by omega)
          have e2 := hcontentj (r1 + d + 1) (by omega) (by omega)
          rw [getD_map_lt _ g.2 (r1 + d) (by omega) 0] at e1
          rw [getD_map_lt _ g.2 (r1 + d + 1) (by omega) 0] at e2
          rw [e1, e2]
        rcases hadjrows (r1 + d) (by omega) with h | ⟨_, h⟩
        · rw [hsame] at h
          exact absurd h (lt_irrefl _)
        · rw [getD_map_lt _ g.2 (r1 + d) (by omega) 0,
            getD_map_lt _ g.2 (r1 + d + 1) (by omega) 0]
          exact h
      have := ih r1 h1 (by omega)
      calc (g.2.map (fun a => timestamps.getD a 0)).getD r1 0 ≤
          (g.2.map (fun a => timestamps.getD a 0)).getD (r1 + d) 0 := this
        _ ≤ (g.2.map (fun a => timestamps.getD a 0)).getD (r1 + d + 1) 0 := by
            have hre : r1 + (d + 1) = r1 + d + 1 := by omega
            exact hstep

  -- timestamps are strictly increasing inside the symbol's range
  have hstrict : ∀ r1 r2,
      ((buildPartedIndex (g.2.map (fun a => symbols.getD a 0))).getD j
        ⟨0, 0, 0⟩).start ≤ r1 → r1 < r2 →
      r2 < ((buildPartedIndex (g.2.map (fun a => symbols.getD a 0))).getD j
        ⟨0, 0, 0⟩).stop →
      (g.2.map (fun a => timestamps.getD a 0)).getD r1 0 <
        (g.2.map (fun a => timestamps.getD a 0)).getD r2 0 := by
    intro r1 r2 h1 h2 h3
    have hle : (g.2.map (fun a => timestamps.getD a 0)).getD r1 0 ≤
        (g.2.map (fun a => timestamps.getD a 0)).getD r2 0 := by
      have hm := hmono (r2 - r1) r1 h1 (by omega)
      rw [show r1 + (r2 - r1) = r2 by omega] at hm
      exact hm
    rcases lt_or_eq_of_le hle with h | h
    · exact h
    exfalso
    have hstl : ((buildPartedIndex (g.2.map (fun a =>
        symbols.getD a 0))).getD j ⟨0, 0, 0⟩).stop ≤ g.2.length := by
      have := he_le
      rw [hslen] at this
      exact this
    have hr1g : r1 < g.2.length := by omega
    have hr2g : r2 < g.2.length := by omega
    have hne12 : g.2.getD r1 0 ≠ g.2.getD r2 0 := by
      rw [getD_eq_get g.2 0 r1 hr1g, getD_eq_get g.2 0 r2 hr2g]
      intro hcq
      have hfin := (List.Nodup.get_inj_iff hgnodup).1 hcq
      have : r1 = r2 := by
        injection hfin
      omega
    have hs1 := hcontentj r1 h1 (by omega)
    have hs2 := hcontentj r2 (by omega) h3
    rw [getD_map_lt _ g.2 r1 hr1g 0] at hs1
    rw [getD_map_lt _ g.2 r2 hr2g 0] at hs2
    have hsymeq : symbols.getD (g.2.getD r1 0) 0 =
        symbols.getD (g.2.getD r2 0) 0 := by
      rw [hs1, hs2]
    have hteq : timestamps.getD (g.2.getD r1 0) 0 =
        timestamps.getD (g.2.getD r2 0) 0 := by
      rw [getD_map_lt _ g.2 r1 hr1g 0, getD_map_lt _ g.2 r2 hr2g 0] at h
      exact h
    have hi1 : g.2.getD r1 0 < timestamps.length := by
      refine hmemlt _ ?_
      rw [getD_eq_get g.2 0 r1 hr1g]
      exact List.get_mem g.2 _ hr1g
    have hi2 : g.2.getD r2 0 < timestamps.length := by
      refine hmemlt _ ?_
      rw [getD_eq_get g.2 0 r2 hr2g]
      exact List.get_mem g.2 _ hr2g
    rcases Nat.lt_or_ge (g.2.getD r1 0) (g.2.getD r2 0) with hlt | hge
    · exact hdist _ _ hlt hi2 ⟨hsymeq, hteq⟩
    · have hlt2 : g.2.getD r2 0 < g.2.getD r1 0 := by omega
      exact hdist _ _ hlt2 hi1 ⟨hsymeq.symm, hteq.symm⟩
  -- the slice and its partition point
  have hstl : ((buildPartedIndex (g.2.map (fun a => symbols.getD a 0))).getD j
      ⟨0, 0, 0⟩).stop ≤ (g.2.map (fun a => timestamps.getD a 0)).length := by
    rw [htlen, ← hslen]
    exact he_le
  have hslice_len := length_slice (g.2.map (fun a => timestamps.getD a 0))
    ((buildPartedIndex (g.2.map (fun a => symbols.getD a 0))).getD j
      ⟨0, 0, 0⟩).start
    ((buildPartedIndex (g.2.map (fun a => symbols.getD a 0))).getD j
      ⟨0, 0, 0⟩).stop hstl
  have hslice_sorted : List.Sorted (· ≤ ·)
      (((g.2.map (fun a => timestamps.getD a 0)).drop
        ((buildPartedIndex (g.2.map (fun a => symbols.getD a 0))).getD j
          ⟨0, 0, 0⟩).start).take
        (((buildPartedIndex (g.2.map (fun a => symbols.getD a 0))).getD j
          ⟨0, 0, 0⟩).stop -
         ((buildPartedIndex (g.2.map (fun a => symbols.getD a 0))).getD j
          ⟨0, 0, 0⟩).start)) := by
    have hch : (((g.2.map (fun a => timestamps.getD a 0)).drop
        ((buildPartedIndex (g.2.map (fun a => symbols.getD a 0))).getD j
          ⟨0, 0, 0⟩).start).take
        (((buildPartedIndex (g.2.map (fun a => symbols.getD a 0))).getD j
          ⟨0, 0, 0⟩).stop -
         ((buildPartedIndex (g.2.map (fun a => symbols.getD a 0))).getD j
          ⟨0, 0, 0⟩).start)).Chain' (· ≤ ·) := by
      rw [List.chain'_iff_get]
      intro q hq
      rw [hslice_len] at hq
      rw [← getD_eq_get _ 0 q (by rw [hslice_len]; omega),
        ← getD_eq_get _ 0 (q + 1) (by rw [hslice_len]; omega),
        getD_slice _ _ _ q (by omega) hstl,
        getD_slice _ _ _ (q + 1) (by omega) hstl]
      have hm := hmono 1 (((buildPartedIndex (g.2.map (fun a =>
        symbols.getD a 0))).getD j ⟨0, 0, 0⟩).start + q) (by omega) (by omega)
      rw [show ((buildPartedIndex (g.2.map (fun a => symbols.getD a 0))).getD j
        ⟨0, 0, 0⟩).start + q + 1 = ((buildPartedIndex (g.2.map (fun a =>
        symbols.getD a 0))).getD j ⟨0, 0, 0⟩).start + (q + 1) by omega] at hm
      exact hm
    exact List.chain'_iff_pairwise.1 hch
  obtain ⟨hple, hbelow, habove⟩ := partitionPoint_le_sorted _
    (timestamps.getD i 0) hslice_sorted
  have hjstart := hjs
  have hjend := hje
  have hsrts : (((g.2.map (fun a => timestamps.getD a 0)).drop
      ((buildPartedIndex (g.2.map (fun a => symbols.getD a 0))).getD j
        ⟨0, 0, 0⟩).start).take
      (((buildPartedIndex (g.2.map (fun a => symbols.getD a 0))).getD j
        ⟨0, 0, 0⟩).stop -
       ((buildPartedIndex (g.2.map (fun a => symbols.getD a 0))).getD j
        ⟨0, 0, 0⟩).start)).getD
      (r - ((buildPartedIndex (g.2.map (fun a => symbols.getD a 0))).getD j
        ⟨0, 0, 0⟩).start) 0 = timestamps.getD i 0 := by
    rw [getD_slice _ _ _ _ (by omega) hstl,
      show ((buildPartedIndex (g.2.map (fun a => symbols.getD a 0))).getD j
        ⟨0, 0, 0⟩).start + (r - ((buildPartedIndex (g.2.map (fun a =>
        symbols.getD a 0))).getD j ⟨0, 0, 0⟩).start) = r by omega]
    exact htcolr
  have hposgt : r - ((buildPartedIndex (g.2.map (fun a =>
      symbols.getD a 0))).getD j ⟨0, 0, 0⟩).start <
      partitionPoint (((g.2.map (fun a => timestamps.getD a 0)).drop
        ((buildPartedIndex (g.2.map (fun a => symbols.getD a 0))).getD j
          ⟨0, 0, 0⟩).start).take
        (((buildPartedIndex (g.2.map (fun a => symbols.getD a 0))).getD j
          ⟨0, 0, 0⟩).stop -
         ((buildPartedIndex (g.2.map (fun a => symbols.getD a 0))).getD j
          ⟨0, 0, 0⟩).start)) (fun t => t ≤ timestamps.getD i 0) := by
    by_contra hcon
    push_neg at hcon
    have := habove _ hcon (by rw [hslice_len]; omega)
    rw [hsrts] at this
    omega
  have hposle : partitionPoint (((g.2.map (fun a => timestamps.getD a 0)).drop
      ((buildPartedIndex (g.2.map (fun a => symbols.getD a 0))).getD j
        ⟨0, 0, 0⟩).start).take
      (((buildPartedIndex (g.2.map (fun a => symbols.getD a 0))).getD j
        ⟨0, 0, 0⟩).stop -
       ((buildPartedIndex (g.2.map (fun a => symbols.getD a 0))).getD j
        ⟨0, 0, 0⟩).start)) (fun t => t ≤ timestamps.getD i 0) ≤
      r - ((buildPartedIndex (g.2.map (fun a => symbols.getD a 0))).getD j
        ⟨0, 0, 0⟩).start + 1 := by
    by_contra hcon
    push_neg at hcon
    have hb := hbelow (partitionPoint (((g.2.map (fun a =>
      timestamps.getD a 0)).drop ((buildPartedIndex (g.2.map (fun a =>
      symbols.getD a 0))).getD j ⟨0, 0, 0⟩).start).take
      (((buildPartedIndex (g.2.map (fun a => symbols.getD a 0))).getD j
        ⟨0, 0, 0⟩).stop -
       ((buildPartedIndex (g.2.map (fun a => symbols.getD a 0))).getD j
        ⟨0, 0, 0⟩).start)) (fun t => t ≤ timestamps.getD i 0) - 1) (by omega)
    rw [hslice_len] at hple
    rw [getD_slice _ _ _ _ (by omega) hstl] at hb
    have hst := hstrict r (((buildPartedIndex (g.2.map (fun a =>
      symbols.getD a 0))).getD j ⟨0, 0, 0⟩).start +
      (partitionPoint (((g.2.map (fun a => timestamps.getD a 0)).drop
        ((buildPartedIndex (g.2.map (fun a => symbols.getD a 0))).getD j
          ⟨0, 0, 0⟩).start).take
        (((buildPartedIndex (g.2.map (fun a => symbols.getD a 0))).getD j
          ⟨0, 0, 0⟩).stop -
         ((buildPartedIndex (g.2.map (fun a => symbols.getD a 0))).getD j
          ⟨0, 0, 0⟩).start)) (fun t => t ≤ timestamps.getD i 0) - 1))
      hjstart (by omega) (by omega)
    rw [htcolr] at hst
    omega
  have hvts : tsValid (timestamps.getD i 0) = true := by
    refine hv _ ?_
    rw [getD_eq_get timestamps 0 i hi]
    exact List.get_mem timestamps _ hi
  rw [asof_join_single schema _ (symbols.getD i 0) (timestamps.getD i 0)
    .backward hvts]
  refine ⟨_, rfl, ?_, ?_⟩
  · show tsAt (dirLookup .backward schema _ _ _ _ 0 (initResult schema 1)) 0 = _
    simp only [dirLookup]
    rw [show dateStrOf (timestamps.getD i 0) = date_int_to_str g.1 from hkey]
    simp only [backward_lookup, hfound, hsr, hgt]
    rw [if_neg (by omega)]
    rw [tsAt_fill_from_partition schema _ _ 0 _ _ hgt (by simp [initResult])]
    rw [show ((buildPartedIndex (g.2.map (fun a => symbols.getD a 0))).getD j
      ⟨0, 0, 0⟩).start + partitionPoint (((g.2.map (fun a =>
      timestamps.getD a 0)).drop ((buildPartedIndex (g.2.map (fun a =>
      symbols.getD a 0))).getD j ⟨0, 0, 0⟩).start).take
      (((buildPartedIndex (g.2.map (fun a => symbols.getD a 0))).getD j
        ⟨0, 0, 0⟩).stop -
       ((buildPartedIndex (g.2.map (fun a => symbols.getD a 0))).getD j
        ⟨0, 0, 0⟩).start)) (fun t => t ≤ timestamps.getD i 0) - 1 = r
      by omega]
    exact htcolr
  · show cellsAt (dirLookup .backward schema _ _ _ _ 0 (initResult schema 1)) 0 = _
    simp only [dirLookup]
    rw [show dateStrOf (timestamps.getD i 0) = date_int_to_str g.1 from hkey]
    simp only [backward_lookup, hfound, hsr, hgt]
    rw [if_neg (by omega)]
    rw [show ((buildPartedIndex (g.2.map (fun a => symbols.getD a 0))).getD j
      ⟨0, 0, 0⟩).start + partitionPoint (((g.2.map (fun a =>
      timestamps.getD a 0)).drop ((buildPartedIndex (g.2.map (fun a =>
      symbols.getD a 0))).getD j ⟨0, 0, 0⟩).start).take
      (((buildPartedIndex (g.2.map (fun a => symbols.getD a 0))).getD j
        ⟨0, 0, 0⟩).stop -
       ((buildPartedIndex (g.2.map (fun a => symbols.getD a 0))).getD j
        ⟨0, 0, 0⟩).start)) (fun t => t ≤ timestamps.getD i 0) - 1 = r
      by omega]
    rw [cellsAt_fill_init_single]
    -- compare column by column
    have hlz : ((schema.value_columns.zip columns).map (fun pc =>
        match pc.2 with
        | ColumnSlice.i64 s => CellVal.iv (s.getD i 0)
        | ColumnSlice.f64 s => CellVal.fv (s.getD i 0))).length =
        schema.value_columns.length := by
      rw [List.length_map, List.length_zip, hc, Nat.min_self]
    apply List.ext_getElem (by rw [List.length_map, hlz])
    intro ci h1 h2
    have hci : ci < schema.value_columns.length := by
      rw [List.length_map] at h1
      exact h1
    have hcl : ci < columns.length := by omega
    have hzci : ci < (schema.value_columns.zip columns).length := by
      rw [List.length_zip, hc, Nat.min_self]
      exact hci
    rw [List.getElem_map, List.getElem_map, List.getElem_zip]
    have hpcmem : (schema.value_columns[ci], columns[ci]) ∈
        schema.value_columns.zip columns := by
      have hmm := List.getElem_mem hzci
      rw [List.getElem_zip] at hmm
      exact hmm
    rcases hcc : columns[ci] with s | s
    · have hdecl : (schema.value_columns[ci]).colType = .i64 :=
        (htype _ hpcmem).1 s hcc
      have hsl : s.length = timestamps.length := by
        have hx := hlen _ hpcmem
        rw [hcc] at hx
        simpa [colLen] using hx
      have hgi : (groupPartition schema timestamps symbols columns g.2).get_i64
          ((schema.value_columns[ci]).name) =
          some (g.2.map (fun a => s.getD a 0)) := by
        unfold Partition.get_i64
        rw [groupPartition_assocGet_value schema timestamps symbols columns g.2
          hnd hc ci hci hcl]
        rw [Option.map_some']
        congr 1
        rw [List.map_map]
        apply List.map_congr_left
        intro a ha
        show wordToI64 (colWordAt (columns[ci]) a) = s.getD a 0
        rw [hcc]
        show wordToI64 (i64ToWord (s.getD a 0)) = s.getD a 0
        have halt : a < timestamps.length := hmemlt a ha
        have hmems : s.getD a 0 ∈ s := by
          rw [getD_eq_get s 0 a (by omega)]
          exact List.get_mem s _ (by omega)
        have hb := hvals _ (List.getElem_mem hcl) s hcc _ hmems
        exact wordToI64_i64ToWord _ hb.1 hb.2
      simp only [hdecl, hgi, hcc]
      rw [getD_map_lt _ g.2 r hr 0, hgri]
    · have hdecl : (schema.value_columns[ci]).colType = .f64 :=
        (htype _ hpcmem).2 s hcc
      have hgf : (groupPartition schema timestamps symbols columns g.2).get_f64
          ((schema.value_columns[ci]).name) =
          some (g.2.map (fun a => s.getD a 0)) := by
        unfold Partition.get_f64
        rw [groupPartition_assocGet_value schema timestamps symbols columns g.2
          hnd hc ci hci hcl]
        congr 1
        apply List.map_congr_left
        intro a ha
        show colWordAt (columns[ci]) a = s.getD a 0
        rw [hcc]
        rfl
      simp only [hdecl, hgf, hcc]
      rw [getD_mapN _ g.2 r hr 0, hgri]

end Zola

namespace Zola

/-- Schema for the C4 witness: one `f64` and one `i64` value column. -/
def roundSchema : Schema := ⟨[⟨"price", .f64⟩, ⟨"qty", .i64⟩]⟩

/-- The written values: the first price is a NaN with a payload, checked
bit-exactly through the round trip. -/
def roundCols : List ColumnSlice :=
  [.f64 [0x7FF8DEADBEEF0001, 0x4059000000000000], .i64 [7, 8]]

/-- Witness for the amended C4 theorem at row 0 of a two-row batch. -/
theorem write_asof_roundtrip_witness :
    ∃ res, asof_join roundSchema
        (writeTable ⟨false, none, []⟩ roundSchema
          [1705312800000000, 1705312801000000] [1, 1] roundCols).1.partitions
        [([1, 1] : List Int).getD 0 0]
        [([1705312800000000, 1705312801000000] : List Int).getD 0 0]
        .backward = .ok res ∧
      tsAt res 0 = ([1705312800000000, 1705312801000000] : List Int).getD 0 0 ∧
      cellsAt res 0 = (roundSchema.value_columns.zip roundCols).map (fun pc =>
        match pc.2 with
        | ColumnSlice.i64 s => CellVal.iv (s.getD 0 0)
        | ColumnSlice.f64 s => CellVal.fv (s.getD 0 0)) := by
  refine write_asof_roundtrip roundSchema
    [1705312800000000, 1705312801000000] [1, 1] roundCols 0
    (by decide) (by decide) (by decide) (by decide) (by decide) (by decide)
    ?_ ?_ (by decide) (by decide) (by decide) ?_ (by decide)
  · intro c hcm s hcs v hvm
    rcases List.mem_cons.1 hcm with rfl | hcm2
    · cases hcs
    · rw [List.mem_singleton] at hcm2
      subst hcm2
      injection hcs with hcs2
      subst hcs2
      rcases List.mem_cons.1 hvm with rfl | hvm2
      · decide
      · rw [List.mem_singleton] at hvm2
        subst hvm2
        decide
  · intro pc hpc
    have hz : roundSchema.value_columns.zip roundCols =
        [(⟨"price", .f64⟩, ColumnSlice.f64
            [0x7FF8DEADBEEF0001, 0x4059000000000000]),
         (⟨"qty", .i64⟩, ColumnSlice.i64 [7, 8])] := rfl
    rw [hz, List.mem_cons, List.mem_singleton] at hpc
    rcases hpc with rfl | rfl
    · exact ⟨fun s hs => (nomatch hs), fun s hs => rfl⟩
    · exact ⟨fun s hs => rfl, fun s hs => (nomatch hs)⟩
  · intro a b hab hb
    have hb2 : b < 2 := hb
    interval_cases b
    · omega
    · interval_cases a
      decide

end Zola
